import Mathlib

/-!
# Brainfuck Evolved: the interpreter and the fitness function

A shallow embedding of `src/interpreter.cpp`, `src/interpreter.h` and of the
scoring part of `src/main.cpp`.

* A `std::string` holding a program is a `List Char`; a `std::string` holding
  output (or the goal) is a list of byte values `List Nat`, since the tape cells
  that produce it are `unsigned char`.
* `unsigned` and `int` are 32 bits wide.  `toUnsigned` and `toInt` are the
  conversions into them; they are written wherever the source assigns across
  the two types.
* A loop of the source is a function that recurses on a fuel argument and
  returns `none` when the fuel is used up.  An array or string access outside
  its bounds (undefined behaviour in C++) also yields `none`.
-/

namespace BF

/-- The value an `unsigned` holds after the integer `x` is assigned to it. -/
@[irreducible]
def toUnsigned (x : Int) : Nat := (x % 4294967296).toNat

/-- The value an `int` holds after the integer `x` is converted to it. -/
@[irreducible]
def toInt (x : Int) : Int := (x + 2147483648) % 4294967296 - 2147483648

/-- `Interpreter::MAX_CYCLES`. -/
def MAX_CYCLES : Nat := 1000

/-- `Interpreter::TAPE_SIZE`. -/
def TAPE_SIZE : Nat := 1000

/-- `Interpreter::ERROR`, the string "Error" as bytes. -/
def ERROR : List Nat := [69, 114, 114, 111, 114]

/-- The data members of `class Interpreter`. -/
structure Interpreter where
  tape : List Nat
  instruction_pntr : Nat
  tape_pntr : Int
  program : List Char
  output : List Nat
  has_error : Bool
  total_cycles : Nat
  deriving DecidableEq, Repr

namespace Interpreter

/-- `Interpreter::reset`: every member is overwritten, the tape with
`TAPE_SIZE` zero cells. -/
def reset (_s : Interpreter) : Interpreter :=
  { tape := List.replicate TAPE_SIZE 0
    instruction_pntr := 0
    tape_pntr := 0
    program := []
    output := []
    has_error := false
    total_cycles := 0 }

/-- The state of a freshly constructed interpreter: the constructor only calls
`reset`. -/
def fresh : Interpreter :=
  reset
    { tape := []
      instruction_pntr := 0
      tape_pntr := 0
      program := []
      output := []
      has_error := false
      total_cycles := 0 }

/-- The read `this->tape[this->tape_pntr]`; `none` outside the array. -/
def cell (s : Interpreter) : Option Nat :=
  if 0 ≤ s.tape_pntr then s.tape[s.tape_pntr.toNat]? else none

/-- The write `this->tape[this->tape_pntr] = v`; `none` outside the array. -/
def set_cell (s : Interpreter) (v : Nat) : Option Interpreter :=
  if 0 ≤ s.tape_pntr ∧ s.tape_pntr.toNat < s.tape.length then
    some { s with tape := s.tape.set s.tape_pntr.toNat v }
  else none

/-- `Interpreter::inc_pntr`. -/
def inc_pntr (s : Interpreter) : Interpreter :=
  let s := { s with tape_pntr := s.tape_pntr + 1 }
  if s.tape_pntr ≥ toInt TAPE_SIZE then { s with has_error := true } else s

/-- `Interpreter::dec_pntr`. -/
def dec_pntr (s : Interpreter) : Interpreter :=
  let s := { s with tape_pntr := s.tape_pntr - 1 }
  if s.tape_pntr < 0 then { s with has_error := true } else s

/-- `Interpreter::inc_byte`: `++` on an `unsigned char`. -/
def inc_byte (s : Interpreter) : Option Interpreter :=
  match s.cell with
  | none => none
  | some v => s.set_cell ((v + 1) % 256)

/-- `Interpreter::dec_byte`: `--` on an `unsigned char`. -/
def dec_byte (s : Interpreter) : Option Interpreter :=
  match s.cell with
  | none => none
  | some v => s.set_cell ((v + 255) % 256)

/-- `Interpreter::out_byte`. -/
def out_byte (s : Interpreter) : Option Interpreter :=
  match s.cell with
  | none => none
  | some v => some { s with output := s.output ++ [v] }

/-- `Interpreter::out_byte_as_int`: the decimal digits of the cell. -/
def out_byte_as_int (s : Interpreter) : Option Interpreter :=
  match s.cell with
  | none => none
  | some v => some { s with output := s.output ++ (Nat.toDigits 10 v).map Char.toNat }

/-- The `while(num_nested_loops > 0)` loop of `Interpreter::find_loop_match`
with its two `return`s: the state afterwards and the returned `int`. -/
def find_loop_match_loop (s : Interpreter) (direction : Int) :
    Nat → Int → Int → Option (Interpreter × Int)
  | 0, _, _ => none
  | fuel + 1, num_nested_loops, tmp_instr_pntr =>
    if num_nested_loops > 0 then
      if tmp_instr_pntr < 0 ∨ tmp_instr_pntr ≥ toInt s.program.length then
        some ({ s with has_error := true }, -1)
      else
        match s.program[tmp_instr_pntr.toNat]? with
        | none => none
        | some c =>
          let num_nested_loops :=
            if c = '[' then num_nested_loops + (if direction > 0 then 1 else -1)
            else if c = ']' then num_nested_loops + (if direction > 0 then -1 else 1)
            else num_nested_loops
          find_loop_match_loop s direction fuel num_nested_loops
            (tmp_instr_pntr + direction)
    else some (s, tmp_instr_pntr)

/-- `Interpreter::find_loop_match`: the state afterwards and the returned
`int`. -/
def find_loop_match (s : Interpreter) (direction : Int) : Option (Interpreter × Int) :=
  find_loop_match_loop s direction (s.program.length + 1) 1
    (toInt (toUnsigned (s.instruction_pntr + direction)))

/-- `Interpreter::begin_loop`. -/
def begin_loop (s : Interpreter) : Option Interpreter :=
  match s.cell with
  | none => none
  | some v =>
    if v = 0 then
      match s.find_loop_match 1 with
      | none => none
      | some (s, r) => some { s with instruction_pntr := toUnsigned (r - 1) }
    else some s

/-- `Interpreter::end_loop`. -/
def end_loop (s : Interpreter) : Option Interpreter :=
  match s.cell with
  | none => none
  | some v =>
    if v ≠ 0 then
      match s.find_loop_match (-1) with
      | none => none
      | some (s, r) => some { s with instruction_pntr := toUnsigned r }
    else some s

/-- The `for` loop of `Interpreter::check_syntax`, from index `i` on. -/
def check_syntax_loop : Nat → Nat → Interpreter → Option (Interpreter × Bool)
  | 0, _, _ => none
  | fuel + 1, i, s =>
    if i < s.program.length then
      let s := { s with instruction_pntr := toUnsigned i }
      match s.program[i]? with
      | none => none
      | some c =>
        let r :=
          if c = '[' then (s.find_loop_match 1).map Prod.fst
          else if c = ']' then (s.find_loop_match (-1)).map Prod.fst
          else some s
        match r with
        | none => none
        | some s =>
          if s.has_error then some (s, false) else check_syntax_loop fuel (i + 1) s
    else some ({ s with instruction_pntr := 0 }, true)

/-- `Interpreter::check_syntax`. -/
def check_syntax (s : Interpreter) : Option (Interpreter × Bool) :=
  check_syntax_loop (s.program.length + 1) 0 s

/-- The `switch` of `Interpreter::run`. -/
def dispatch (s : Interpreter) (c : Char) : Option Interpreter :=
  if c = '>' then some s.inc_pntr
  else if c = '<' then some s.dec_pntr
  else if c = '+' then s.inc_byte
  else if c = '-' then s.dec_byte
  else if c = '.' then s.out_byte
  else if c = '#' then s.out_byte_as_int
  else if c = '[' then s.begin_loop
  else if c = ']' then s.end_loop
  else some s

/-- One pass through the body of the `while` loop of `Interpreter::run`, for a
state that passed the loop condition and the error test. -/
def step (s : Interpreter) : Option Interpreter :=
  match s.program[s.instruction_pntr]? with
  | none => none
  | some c =>
    match s.dispatch c with
    | none => none
    | some s =>
      some { s with
        instruction_pntr := toUnsigned (s.instruction_pntr + 1)
        total_cycles := toUnsigned (s.total_cycles + 1) }

/-- The `while` loop of `Interpreter::run` with its two `return`s: the final
state and the returned string. -/
def run_loop : Nat → Interpreter → Option (Interpreter × List Nat)
  | 0, _ => none
  | fuel + 1, s =>
    if s.instruction_pntr < s.program.length then
      if s.total_cycles > MAX_CYCLES ∨ s.has_error then some (s, ERROR)
      else
        match s.step with
        | none => none
        | some s => run_loop fuel s
    else some (s, s.output)

/-- `Interpreter::run`: the state the interpreter is left in and the returned
string. -/
def run (s : Interpreter) (prgrm : List Char) : Option (Interpreter × List Nat) :=
  let s := { s.reset with program := prgrm }
  match s.check_syntax with
  | none => none
  | some (s, ok) => if ok then run_loop (MAX_CYCLES + 2) s else some (s, ERROR)

/-- The operation `f` applied `n` times in a row, as `n` consecutive
occurrences of one instruction do. -/
def iterate (f : Interpreter → Option Interpreter) : Nat → Interpreter → Option Interpreter
  | 0, s => some s
  | n + 1, s =>
    match f s with
    | none => none
    | some s => iterate f n s

end Interpreter

/-! ## The fitness function of `main.cpp` -/

/-- `CHAR_SIZE`. -/
def CHAR_SIZE : Nat := 255

/-- `ERROR_SCORE`. -/
def ERROR_SCORE : ℚ := 1

/-- `LENGTH_PENALTY`; a `double` is modelled as an exact rational. -/
def LENGTH_PENALTY : ℚ := 1 / 1000

/-- The `int` that a `char` holding the byte `b` promotes to.  Whether plain
`char` is signed is the implementation's choice, hence a parameter. -/
def char_value (char_signed : Bool) (b : Nat) : Int :=
  if char_signed = true ∧ 128 ≤ b then (b : Int) - 256 else b

/-- The summand `abs(output_char - max_str[i])` of the `for` loop of
`calculate_fitness`: `output_char` is an `unsigned`, the difference is
computed in `unsigned` and handed to `abs(int)`. -/
def distance_term (char_signed : Bool) (min_str max_str : List Nat) (i : Nat) : Option Nat :=
  match max_str[i]? with
  | none => none
  | some m =>
    let output_char : Option Nat :=
      if i < min_str.length then
        match min_str[i]? with
        | none => none
        | some c => some (toUnsigned (char_value char_signed c))
      else some (toUnsigned (char_value char_signed m + CHAR_SIZE))
    match output_char with
    | none => none
    | some output_char =>
      some (toInt (toUnsigned (output_char - char_value char_signed m))).natAbs

/-- The `for` loop of `calculate_fitness`, from index `i` on, with the running
value of `score`. -/
def score_loop (char_signed : Bool) (min_str max_str : List Nat) : Nat → Nat → ℚ → Option ℚ
  | 0, _, _ => none
  | fuel + 1, i, score =>
    if i < max_str.length then
      match distance_term char_signed min_str max_str i with
      | none => none
      | some d => score_loop char_signed min_str max_str fuel (i + 1) (score + d)
    else some score

/-- `calculate_fitness`, with the global `GOAL_OUTPUT` as an argument
(`GOAL_OUTPUT_SIZE` is its length); the interpreter is passed by reference, so
its state afterwards is returned with the score. -/
def calculate_fitness (char_signed : Bool) (GOAL_OUTPUT : List Nat) (program : List Char)
    (bf : Interpreter) : Option (Interpreter × ℚ) :=
  let max_score : ℚ := ((GOAL_OUTPUT.length * CHAR_SIZE : Nat) : ℚ)
  match bf.run program with
  | none => none
  | some (bf, output) =>
    if output = ERROR then some (bf, ERROR_SCORE)
    else
      let min_str := if output.length < GOAL_OUTPUT.length then output else GOAL_OUTPUT
      let max_str := if output.length ≥ GOAL_OUTPUT.length then output else GOAL_OUTPUT
      match score_loop char_signed min_str max_str (max_str.length + 1) 0 0 with
      | none => none
      | some score =>
        let score := score + (program.length : ℚ) * LENGTH_PENALTY
        some (bf, max_score - score)

/-! ## The genetic algorithm of `main.cpp` -/

/-- The value a `size_t` (64 bits) holds after the integer `x` is assigned to
it. -/
@[irreducible]
def toSize (x : Int) : Nat := (x % 18446744073709551616).toNat

/-- `NUM_MUTATIONS`. -/
def NUM_MUTATIONS : Nat := 3

/-- `INSTRUCTIONS`. -/
def INSTRUCTIONS : List Char := ['+', '-', '>', '<', '[', ']', '.']

/-- `NUM_INSTRUCTIONS`, the number of elements of `INSTRUCTIONS`. -/
def NUM_INSTRUCTIONS : Nat := INSTRUCTIONS.length

/-- `NUM_CHILDREN`. -/
def NUM_CHILDREN : Nat := 2

/-- `POP_SIZE`. -/
def POP_SIZE : Nat := 10

/-- `MIN_PROGRAM_SIZE`. -/
def MIN_PROGRAM_SIZE : Nat := 10

/-- `MAX_PROGRAM_SIZE`. -/
def MAX_PROGRAM_SIZE : Nat := 500

/-- `MUTATION_RATE`. -/
def MUTATION_RATE : ℚ := 1 / 100

/-- The state of the random generator: the values that the coming calls of
`rand()` return, in order. -/
def Rand : Type := Nat → Nat

/-- The value the next call of `rand()` returns. -/
def Rand.value (r : Rand) : Nat := r 0

/-- The generator after one call of `rand()`. -/
def Rand.rest (r : Rand) : Rand := fun n => r (n + 1)

/-- `get_random`, with the library constant `RAND_MAX` as a parameter. -/
def get_random (RAND_MAX : Nat) (r : Rand) (low high : ℚ) : ℚ × Rand :=
  (low + (r.value : ℚ) / ((RAND_MAX : ℚ) / (high - low)), r.rest)

/-- `get_random_int`: the arithmetic is `unsigned`; a zero divisor of `%` has
no result. -/
def get_random_int (r : Rand) (low high : Nat) : Option (Nat × Rand) :=
  let range := toUnsigned ((high : Int) - low + 1)
  if range = 0 then none
  else some (toUnsigned (((toUnsigned r.value % range : Nat) : Int) + low), r.rest)

/-- `get_random_instruction`. -/
def get_random_instruction (r : Rand) : Option (Char × Rand) :=
  match get_random_int r 0 (NUM_INSTRUCTIONS - 1) with
  | none => none
  | some (i, r) =>
    match INSTRUCTIONS[i]? with
    | none => none
    | some c => some (c, r)

/-- `add_instruction`: the instruction is drawn first; `insert` at an index
beyond the end throws and has no result. -/
def add_instruction (r : Rand) (program : List Char) (index : Nat) :
    Option (List Char × Rand) :=
  match get_random_instruction r with
  | none => none
  | some (instr, r) =>
    if program.length + 1 ≤ MAX_PROGRAM_SIZE then
      if index ≤ program.length then
        some (program.take index ++ instr :: program.drop index, r)
      else none
    else some (program, r)

/-- `remove_instruction`: `program.length() - 2` is computed in `size_t`;
`erase` at an index beyond the end throws and has no result. -/
def remove_instruction (program : List Char) (index : Nat) : Option (List Char) :=
  if toSize ((program.length : Int) - 2) ≥ MIN_PROGRAM_SIZE then
    if index ≤ program.length then some (program.take index ++ program.drop (index + 1))
    else none
  else some program

/-- `mutate_instruction`. -/
def mutate_instruction (r : Rand) (program : List Char) (index : Nat) :
    Option (List Char × Rand) :=
  match get_random_instruction r with
  | none => none
  | some (instr, r) =>
    if index < program.length then some (program.set index instr, r) else none

/-- The `for` loop of `mutate`, from index `i` on. -/
def mutate_loop (RAND_MAX : Nat) : Nat → Nat → List Char → Rand → Option (List Char × Rand)
  | 0, _, _, _ => none
  | fuel + 1, i, child, r =>
    if i < child.length then
      let x := get_random RAND_MAX r 0 1
      if MUTATION_RATE ≥ x.1 then
        match get_random_int x.2 1 NUM_MUTATIONS with
        | none => none
        | some (mutation_type, r) =>
          let mutated : Option (List Char × Rand) :=
            if mutation_type = 1 then mutate_instruction r child (toUnsigned i)
            else if mutation_type = 2 then add_instruction r child (toUnsigned i)
            else if mutation_type = 3 then
              (remove_instruction child (toUnsigned i)).map (fun c => (c, r))
            else some (child, r)
          match mutated with
          | none => none
          | some (child, r) => mutate_loop RAND_MAX fuel (i + 1) child r
      else mutate_loop RAND_MAX fuel (i + 1) child x.2
    else some (child, r)

/-- `mutate`. -/
def mutate (RAND_MAX : Nat) (r : Rand) (child : List Char) : Option (List Char × Rand) :=
  mutate_loop RAND_MAX (max child.length MAX_PROGRAM_SIZE + 1) 0 child r

/-- The part of `mate` between the draw of `crosspoint` and the calls of
`mutate`: the final values of `min_str` and `max_str`.  `substr` at a position
beyond the end throws and has no result. -/
def crossover (min_str max_str : List Char) (crosspoint : Nat) :
    Option (List Char × List Char) :=
  if crosspoint ≤ max_str.length then
    let max_str_contrib := max_str.drop crosspoint
    let max_str := max_str.take crosspoint
    let exchanged : List Char × List Char :=
      if crosspoint ≤ min_str.length then
        (min_str.take crosspoint, max_str ++ min_str.drop crosspoint)
      else (min_str, max_str)
    some (exchanged.1 ++ max_str_contrib, exchanged.2)
  else none

/-- The initial value of `min_str` in `mate`. -/
def shorter_parent (parent1 parent2 : List Char) : List Char :=
  if parent1.length < parent2.length then parent1 else parent2

/-- The initial value of `max_str` in `mate`. -/
def longer_parent (parent1 parent2 : List Char) : List Char :=
  if parent1.length ≥ parent2.length then parent1 else parent2

/-- The two children that `mate` builds before mutation, for the crossover
point `crosspoint`. -/
def mate_before_mutation (parent1 parent2 : List Char) (crosspoint : Nat) :
    Option (List Char × List Char) :=
  crossover (shorter_parent parent1 parent2) (longer_parent parent1 parent2) crosspoint

/-- `mate`: the two children and the generator afterwards. -/
def mate (RAND_MAX : Nat) (r : Rand) (parent1 parent2 : List Char) :
    Option ((List Char × List Char) × Rand) :=
  match get_random_int r 1
      (toUnsigned (((longer_parent parent1 parent2).length : Int) - 1)) with
  | none => none
  | some (crosspoint, r) =>
    match mate_before_mutation parent1 parent2 crosspoint with
    | none => none
    | some (min_str, max_str) =>
      match mutate RAND_MAX r min_str with
      | none => none
      | some (child0, r) =>
        match mutate RAND_MAX r max_str with
        | none => none
        | some (child1, r) => some ((child0, child1), r)

/-- The local variables of `score_population` together with what it writes
through its parameters. -/
structure Scoring where
  best_program : List Char
  best_score : ℚ
  worst_score : ℚ
  worst_index : Int
  scores : List ℚ
  bf : Interpreter

/-- The `for` loop of `score_population`, from index `i` on. -/
def score_population_loop (char_signed : Bool) (GOAL_OUTPUT : List Nat)
    (programs : List (List Char)) : Nat → Nat → Scoring → Option Scoring
  | 0, _, _ => none
  | fuel + 1, i, st =>
    if i < POP_SIZE then
      match programs[i]? with
      | none => none
      | some program =>
        match calculate_fitness char_signed GOAL_OUTPUT program st.bf with
        | none => none
        | some (bf, score) =>
          if i < st.scores.length then
            let st := { st with scores := st.scores.set i score, bf := bf }
            let st :=
              if score > st.best_score then
                { st with best_program := program, best_score := score }
              else if score < st.worst_score then
                { st with worst_index := i, worst_score := score }
              else st
            score_population_loop char_signed GOAL_OUTPUT programs fuel (i + 1) st
          else none
    else some st

/-- `score_population`: the values at its `return`; `best_program` is the
returned string. -/
def score_population (char_signed : Bool) (GOAL_OUTPUT : List Nat)
    (programs : List (List Char)) (scores : List ℚ) (worst_index : Int) (bf : Interpreter) :
    Option Scoring :=
  score_population_loop char_signed GOAL_OUTPUT programs (POP_SIZE + 1) 0
    { best_program := []
      best_score := 0
      worst_score := 9999
      worst_index := worst_index
      scores := scores
      bf := bf }

/-! ### The arithmetic of `double` in the selection of a parent

`select_parent` divides by the total of the scores and compares sums of
quotients with a threshold, so its result depends on the rounding of `double`
and on the special values: the operations are those of IEEE 754 binary64 with
rounding to nearest, ties to even. -/

/-- A value of type `double` (IEEE 754 binary64): a finite value, given by its
sign and its magnitude (so that the two zeros are distinct), an infinity or a
NaN.  The operations below round every finite result to a representable
magnitude. -/
inductive Double where
  | finite (negative : Bool) (magnitude : ℚ)
  | infinite (negative : Bool)
  | nan
  deriving DecidableEq, Repr

namespace Double

/-- The power `2^e` for an integer exponent. -/
def pow2 (e : Int) : ℚ :=
  if 0 ≤ e then ((2 ^ e.toNat : Nat) : ℚ) else 1 / ((2 ^ (-e).toNat : Nat) : ℚ)

/-- The number of binary digits of `n`, for `n` at most the first argument. -/
def bit_length : Nat → Nat → Nat
  | 0, _ => 0
  | fuel + 1, n => if n = 0 then 0 else bit_length fuel (n / 2) + 1

/-- The exponent `⌊log₂ (n / d)⌋` of a positive fraction. -/
def floor_log2 (n d : Nat) : Int :=
  let e : Int := (bit_length n n : Int) - (bit_length d d : Int)
  if 0 ≤ e then (if d * 2 ^ e.toNat ≤ n then e else e - 1)
  else (if d ≤ n * 2 ^ (-e).toNat then e else e - 1)

/-- Rounding of a positive rational to the nearest magnitude that a `double`
represents, ties to the even significand (53 bits, exponents from -1022 to
1023, subnormals below); `none` when the result overflows. -/
def round_magnitude (x : ℚ) : Option ℚ :=
  let n := x.num.natAbs
  let d := x.den
  let k : Int := max (floor_log2 n d) (-1022) - 52
  let N := if 0 ≤ k then n else n * 2 ^ (-k).toNat
  let D := if 0 ≤ k then d * 2 ^ k.toNat else d
  let f := N / D
  let r := if 2 * (N % D) < D then f
    else if 2 * (N % D) > D then f + 1
    else if f % 2 = 0 then f else f + 1
  let m := (r : ℚ) * pow2 k
  if m ≥ pow2 1024 then none else some m

/-- The `double` nearest to a rational: the value of a literal or of a
converted integer. -/
@[irreducible]
def ofRat (x : ℚ) : Double :=
  if x = 0 then finite false 0
  else
    match round_magnitude |x| with
    | none => infinite (decide (x < 0))
    | some m => finite (decide (x < 0)) m

/-- The rational value of a finite `double`. -/
def signed (negative : Bool) (magnitude : ℚ) : ℚ :=
  if negative then -magnitude else magnitude

/-- The operator `+` of `double`. -/
@[irreducible]
def add : Double → Double → Double
  | nan, _ => nan
  | _, nan => nan
  | infinite s, infinite t => if s = t then infinite s else nan
  | infinite s, finite _ _ => infinite s
  | finite _ _, infinite t => infinite t
  | finite s a, finite t b =>
    if signed s a + signed t b = 0 then finite (s && t) 0
    else ofRat (signed s a + signed t b)

/-- The unary `-` of `double`. -/
def neg : Double → Double
  | nan => nan
  | infinite s => infinite (!s)
  | finite s a => finite (!s) a

/-- The operator `-` of `double`. -/
@[irreducible]
def sub (x y : Double) : Double := add x (neg y)

/-- The operator `/` of `double`. -/
@[irreducible]
def div : Double → Double → Double
  | nan, _ => nan
  | _, nan => nan
  | infinite _, infinite _ => nan
  | infinite s, finite t _ => infinite (xor s t)
  | finite s _, infinite t => finite (xor s t) 0
  | finite s a, finite t b =>
    if b = 0 then (if a = 0 then nan else infinite (xor s t))
    else if a = 0 then finite (xor s t) 0
    else
      match round_magnitude (a / b) with
      | none => infinite (xor s t)
      | some m => finite (xor s t) m

/-- The operator `>=` of `double`; false when an operand is a NaN. -/
@[irreducible]
def ge : Double → Double → Bool
  | nan, _ => false
  | _, nan => false
  | infinite s, infinite t => !s || t
  | infinite s, finite _ _ => !s
  | finite _ _, infinite t => t
  | finite s a, finite t b => decide (signed s a ≥ signed t b)

end Double

/-- `get_random` with its arithmetic in `double`, as `select_parent` uses the
value; `rand()` and `RAND_MAX` are converted exactly. -/
def get_random_double (RAND_MAX : Nat) (r : Rand) (low high : Double) : Double × Rand :=
  (Double.add low
    (Double.div (Double.ofRat r.value) (Double.div (Double.ofRat RAND_MAX) (Double.sub high low))),
    r.rest)

/-- The `for` loop of `pop_score_total`. -/
def pop_score_total_loop (scores : List Double) : Nat → Nat → Double → Option Double
  | 0, _, _ => none
  | fuel + 1, i, total =>
    if i < POP_SIZE then
      match scores[i]? with
      | none => none
      | some score => pop_score_total_loop scores fuel (i + 1) (Double.add total score)
    else some total

/-- `pop_score_total`. -/
def pop_score_total (scores : List Double) : Option Double :=
  pop_score_total_loop scores (POP_SIZE + 1) 0 (Double.ofRat 0)

/-- The `for` loop of `select_parent` with the `return` after it; a read or
write of `program_chances` outside the array has no result. -/
def select_parent_loop (programs : List (List Char)) (scores : List Double)
    (other_parent : List Char) (score_total rand_val : Double) :
    Nat → Nat → List Double → Option (List Char)
  | 0, _, _ => none
  | fuel + 1, i, program_chances =>
    if i < POP_SIZE then
      match scores[i]?, programs[i]? with
      | some score, some program =>
        if i < program_chances.length ∧
            (toInt i - 1 < 0 ∨ toUnsigned ((i : Int) - 1) < program_chances.length) then
          let prev_chance : Double :=
            if toInt i - 1 < 0 then Double.ofRat 0
            else program_chances.getD (toUnsigned ((i : Int) - 1)) (Double.ofRat 0)
          let chance := Double.add (Double.div score score_total) prev_chance
          if Double.ge chance (Double.sub rand_val (Double.ofRat (1 / 1000))) = true ∧
              program ≠ other_parent then some program
          else
            select_parent_loop programs scores other_parent score_total rand_val fuel (i + 1)
              (program_chances.set i chance)
        else none
      | _, _ => none
    else programs[0]?

/-- `select_parent`; the local array `program_chances` starts with arbitrary
contents, taken as zeros, and every element is written before it is read. -/
def select_parent (RAND_MAX : Nat) (r : Rand) (programs : List (List Char))
    (scores : List Double) (other_parent : List Char) : Option (List Char × Rand) :=
  match pop_score_total scores with
  | none => none
  | some score_total =>
    let x := get_random_double RAND_MAX r (Double.ofRat 0) (Double.ofRat 1)
    match select_parent_loop programs scores other_parent score_total x.1 (POP_SIZE + 1) 0
        (List.replicate POP_SIZE (Double.ofRat 0)) with
    | none => none
    | some program => some (program, x.2)

/-- The `for` loop of `program_exists`. -/
def program_exists_loop (program : List Char) (programs : List (List Char)) :
    Nat → Nat → Option Bool
  | 0, _ => none
  | fuel + 1, i =>
    if i < POP_SIZE then
      match programs[i]? with
      | none => none
      | some p => if program = p then some true else program_exists_loop program programs fuel (i + 1)
    else some false

/-- `program_exists`. -/
def program_exists (program : List Char) (programs : List (List Char)) : Option Bool :=
  program_exists_loop program programs (POP_SIZE + 1) 0

/-- The `for` loop of `replace_program`. -/
def replace_program_loop (parent child : List Char) :
    Nat → Nat → List (List Char) → Option (List (List Char))
  | 0, _, _ => none
  | fuel + 1, i, programs =>
    if i < POP_SIZE then
      match programs[i]? with
      | none => none
      | some p =>
        if parent = p then some (programs.set i child)
        else replace_program_loop parent child fuel (i + 1) programs
    else some programs

/-- `replace_program`. -/
def replace_program (parent child : List Char) (programs : List (List Char)) :
    Option (List (List Char)) :=
  replace_program_loop parent child (POP_SIZE + 1) 0 programs

/-- The statements of the generation loop of `main` that follow `mate`: the
two replacements and the elitism overwrite. -/
def replace_and_keep_best (programs : List (List Char)) (best_program : List Char)
    (worst_program_index : Int) (parent1 parent2 child0 child1 : List Char) :
    Option (List (List Char)) :=
  match replace_program parent1 child0 programs with
  | none => none
  | some programs =>
    match replace_program parent2 child1 programs with
    | none => none
    | some programs =>
      match program_exists best_program programs with
      | none => none
      | some found =>
        if found then some programs
        else if 0 ≤ worst_program_index ∧ worst_program_index.toNat < programs.length then
          some (programs.set worst_program_index.toNat best_program)
        else none

/-- One pass through the generation loop of `main`, up to the elitism
overwrite: the population, the scores, the interpreter and the generator
afterwards, and the best program recorded.  The scores, which
`calculate_fitness` yields as exact rationals, are rounded to `double` where
`select_parent` reads them. -/
def generation (RAND_MAX : Nat) (char_signed : Bool) (GOAL_OUTPUT : List Nat) (r : Rand)
    (programs : List (List Char)) (fitness_scores : List ℚ) (bf : Interpreter) :
    Option (List (List Char) × List ℚ × Interpreter × Rand × List Char) :=
  match score_population char_signed GOAL_OUTPUT programs fitness_scores 0 bf with
  | none => none
  | some st =>
    match select_parent RAND_MAX r programs (st.scores.map Double.ofRat) [] with
    | none => none
    | some (parent1, r) =>
      match select_parent RAND_MAX r programs (st.scores.map Double.ofRat) parent1 with
      | none => none
      | some (parent2, r) =>
        match mate RAND_MAX r parent1 parent2 with
        | none => none
        | some ((child0, child1), r) =>
          match replace_and_keep_best programs st.best_program st.worst_index
              parent1 parent2 child0 child1 with
          | none => none
          | some programs => some (programs, st.scores, st.bf, r, st.best_program)

/-- The score `calculate_fitness` gives to a program; it does not depend on
the state the interpreter is in. -/
def fitness (char_signed : Bool) (GOAL_OUTPUT : List Nat) (program : List Char) : ℚ :=
  match calculate_fitness char_signed GOAL_OUTPUT program Interpreter.fresh with
  | none => 0
  | some (_, score) => score

/-- The cumulative share of the members up to index `i` in the total of the
scores, in the arithmetic of `double`:
`cumulative[i] = scores[i]/total + cumulative[i-1]`, with 0 before index 0. -/
def cumulative_share (scores : List Double) (total : Double) : Nat → Double
  | 0 => Double.add (Double.div (scores.getD 0 (Double.ofRat 0)) total) (Double.ofRat 0)
  | i + 1 =>
    Double.add (Double.div (scores.getD (i + 1) (Double.ofRat 0)) total)
      (cumulative_share scores total i)

/-! ## Specification-side notions -/

/-- Bracket balance of a program, read left to right with `depth` loops open:
a `]` needs an open loop, and no loop is left open at the end.  Every other
character is skipped. -/
def balanced_from : Nat → List Char → Bool
  | depth, [] => depth == 0
  | depth, c :: cs =>
    if c = '[' then balanced_from (depth + 1) cs
    else if c = ']' then
      match depth with
      | 0 => false
      | d + 1 => balanced_from d cs
    else balanced_from depth cs

/-- A program is bracket-balanced. -/
def balanced (program : List Char) : Bool := balanced_from 0 program

/-- The change of the nesting depth made by one character: `[` opens a loop,
`]` closes one. -/
def bracket_value (c : Char) : Int :=
  if c = '[' then 1 else if c = ']' then -1 else 0

/-- The nesting depth after a stretch of program: the number of `[` minus the
number of `]` in it. -/
def depth : List Char → Int
  | [] => 0
  | c :: cs => bracket_value c + depth cs

/-- The bracket at index `j` of `p`, if there is one, has its partner: after a
`[` the depth comes back down to the depth before it, before a `]` the depth
has once been as low as the depth after it. -/
def has_partner (p : List Char) (j : Nat) : Prop :=
  (p[j]? = some '[' →
      ∃ k, j + 1 ≤ k ∧ k ≤ p.length ∧ 1 + (depth (p.take k) - depth (p.take (j + 1))) ≤ 0) ∧
    (p[j]? = some ']' →
      ∃ k, k ≤ j ∧ 1 - (depth (p.take j) - depth (p.take k)) ≤ 0)

/-- The `]` at index `j` is the nesting-matched partner of the `[` at index
`i`: the stretch of program strictly between the two is balanced. -/
def nesting_matched (p : List Char) (i j : Nat) : Prop :=
  p[i]? = some '[' ∧ p[j]? = some ']' ∧ i < j ∧
    balanced ((p.drop (i + 1)).take (j - (i + 1))) = true

/-- The length of a program is within `[MIN_PROGRAM_SIZE, MAX_PROGRAM_SIZE]`. -/
def within_bounds (program : List Char) : Prop :=
  MIN_PROGRAM_SIZE ≤ program.length ∧ program.length ≤ MAX_PROGRAM_SIZE

/-- The member at index `i` can be selected: its cumulative share is at least
`rand_val - 0.001`, both computed and compared as `double`s, and its content
differs from the excluded program. -/
def selectable (programs : List (List Char)) (scores : List Double) (other_parent : List Char)
    (total rand_val : Double) (i : Nat) : Prop :=
  Double.ge (cumulative_share scores total i)
      (Double.sub rand_val (Double.ofRat (1 / 1000))) = true ∧
    programs[i]? ≠ some other_parent

/-- Ten scores with total 1000 whose exact share up to index 8 is 0.999, while
the sum of the nine quotients in `double` is 0.9989999999999999. -/
def boundary_scores : List Double :=
  [134, 110, 135, 107, 72, 49, 12, 319, 61, 1].map Double.ofRat

/-- The population of the ten one-letter programs `a` to `j`. -/
def lettered_population : List (List Char) :=
  [['a'], ['b'], ['c'], ['d'], ['e'], ['f'], ['g'], ['h'], ['i'], ['j']]

/-- What a call of `find_loop_match` may do to the state: nothing, or set the
error flag. -/
def Interpreter.flagged (s s' : Interpreter) : Prop :=
  s' = s ∨ s' = { s with has_error := true }

/-- The members that the syntax check never writes are the same in `s` and
`s'`. -/
def Interpreter.same_data (s s' : Interpreter) : Prop :=
  s'.tape = s.tape ∧ s'.tape_pntr = s.tape_pntr ∧ s'.program = s.program ∧
    s'.output = s.output ∧ s'.total_cycles = s.total_cycles

/-- The state invariant of a run: the tape has `TAPE_SIZE` cells, the tape
pointer is inside it unless the error flag is set, and the tape cells and the
output characters are bytes. -/
def Interpreter.well_formed (s : Interpreter) : Prop :=
  s.tape.length = TAPE_SIZE ∧
    (s.has_error = false → 0 ≤ s.tape_pntr ∧ s.tape_pntr < TAPE_SIZE) ∧
    (∀ x ∈ s.tape, x < 256) ∧ (∀ x ∈ s.output, x < 256)

/-- A program whose output is the five bytes of "Error": 69 `+` and `.` give
`E`, 45 more `+` give `r` twice, `---` gives `o` and `+++` gives `r` again. -/
def error_printer : List Char :=
  List.replicate 69 '+' ++ ['.'] ++ List.replicate 45 '+' ++
    ['.', '.', '-', '-', '-', '.', '+', '+', '+', '.']

/-- The program of 65 `+` followed by `.`, which prints "A". -/
def a_printer : List Char := List.replicate 65 '+' ++ ['.']

/-- The state in which the run of `a_printer` leaves the interpreter. -/
def a_printer_final : Interpreter :=
  { tape := (List.replicate TAPE_SIZE 0).set 0 65
    instruction_pntr := 66
    tape_pntr := 0
    program := a_printer
    output := [65]
    has_error := false
    total_cycles := 66 }

/-- A state about to execute the `]` of the program `[]` with the current cell
holding 1. -/
def bracket_pair_state : Interpreter :=
  { tape := (List.replicate TAPE_SIZE 0).set 0 1
    instruction_pntr := 1
    tape_pntr := 0
    program := ['[', ']']
    output := []
    has_error := false
    total_cycles := 0 }

/-- What holds of the values of `score_population` when the members before
index `i` are scored: every score written is the fitness of its member, no
member scored so far exceeds `best_score`, and `best_program` is either still
empty, with `best_score` at its initial 0, or the first member whose score
attains `best_score`, which is then positive.  `worst_index` is its initial
value `wi` or an index of the population. -/
def scored (char_signed : Bool) (GOAL_OUTPUT : List Nat) (programs : List (List Char))
    (wi : Int) (i : Nat) (st : Scoring) : Prop :=
  st.scores.length = POP_SIZE ∧
  (st.worst_index = wi ∨ (0 ≤ st.worst_index ∧ st.worst_index < POP_SIZE)) ∧
  (∀ j, j < i → st.scores[j]? = some (fitness char_signed GOAL_OUTPUT (programs.getD j []))) ∧
  (∀ j, j < i → fitness char_signed GOAL_OUTPUT (programs.getD j []) ≤ st.best_score) ∧
  ((st.best_score = 0 ∧ st.best_program = []) ∨
    ∃ j, j < i ∧ programs.getD j [] = st.best_program ∧
      fitness char_signed GOAL_OUTPUT (programs.getD j []) = st.best_score ∧
      0 < st.best_score ∧
      ∀ k, k < j → fitness char_signed GOAL_OUTPUT (programs.getD k []) < st.best_score)

/-- A population of ten copies of `++++++++++`, which prints nothing. -/
def silent_population : List (List Char) :=
  List.replicate 10 (List.replicate 10 '+')

/-- A population whose first member `<+++++++++` leaves the tape, followed by
nine copies of `a_printer`. -/
def error_first_population : List (List Char) :=
  ('<' :: List.replicate 9 '+') :: List.replicate 9 a_printer

/-- The `while` loop of `Interpreter::run` with a record, next to its result,
of the states in which the `switch` is entered, in the order of execution. -/
def Interpreter.run_loop_traced :
    Nat → Interpreter → List Interpreter × Option (Interpreter × List Nat)
  | 0, _ => ([], none)
  | fuel + 1, s =>
    if s.instruction_pntr < s.program.length then
      if s.total_cycles > MAX_CYCLES ∨ s.has_error then ([], some (s, ERROR))
      else
        match s.step with
        | none => ([s], none)
        | some s' => (s :: (Interpreter.run_loop_traced fuel s').1,
            (Interpreter.run_loop_traced fuel s').2)
    else ([], some (s, s.output))

/-- `Interpreter::run` with the record of the states in which the `switch` is
entered. -/
def Interpreter.run_traced (s : Interpreter) (prgrm : List Char) :
    List Interpreter × Option (Interpreter × List Nat) :=
  match Interpreter.check_syntax { s.reset with program := prgrm } with
  | none => ([], none)
  | some (s, ok) =>
    if ok then Interpreter.run_loop_traced (MAX_CYCLES + 2) s else ([], some (s, ERROR))

/-- The distance `|out[i] - goal[i]|` of the two strings at position `i`. -/
def position_distance (goal out : List Nat) (i : Nat) : Nat :=
  ((out.getD i 0 : Int) - (goal.getD i 0 : Int)).natAbs

/-- The closed form of the score of a program of length `program_length` whose
output is `out`: `255·|goal| − Σ_{i < min} |out[i] − goal[i]| −
255·(max − min) − 0.001·|program|`, with `min` and `max` the smaller and the
larger of the two lengths. -/
def fitness_closed_form (goal out : List Nat) (program_length : Nat) : ℚ :=
  255 * (goal.length : ℚ) -
    (((List.range (min out.length goal.length)).map (position_distance goal out)).sum : ℚ) -
    255 * ((max out.length goal.length - min out.length goal.length : Nat) : ℚ) -
    1 / 1000 * (program_length : ℚ)

/-! ## Conversions between the machine integer types -/

theorem toInt_of_range (x : Int) (h1 : -2147483648 ≤ x) (h2 : x < 2147483648) :
    toInt x = x := by
  unfold toInt; omega

theorem toUnsigned_cast (x : Int) : ((toUnsigned x : Nat) : Int) = x % 4294967296 := by
  unfold toUnsigned; omega

theorem toUnsigned_of_range (n : Nat) (h : n < 4294967296) : toUnsigned (n : Int) = n := by
  unfold toUnsigned; omega

theorem toInt_toUnsigned (x : Int) : toInt (toUnsigned x) = toInt x := by
  unfold toInt toUnsigned; omega

theorem toInt_le_self (x : Int) (h : 0 ≤ x) : toInt x ≤ x := by
  unfold toInt; omega

namespace Interpreter

/-! ## Independence of the prior state -/

/-- C5: the result of `run` depends only on the program.  From any two prior
states the run of `p` returns the same string (and leaves the same state), the
one a freshly constructed interpreter returns. -/
theorem run_depends_only_on_program (s1 s2 : Interpreter) (p : List Char) :
    run s1 p = run s2 p ∧ run s1 p = run fresh p :=
  ⟨rfl, rfl⟩

/-! ## Runs evaluated on concrete programs -/

/-- C1: the program `<` moves the tape pointer to -1 and sets the error flag,
yet `run` returns the (empty) accumulated output and not `ERROR`: the move was
the last instruction, so the loop is left before the flag is looked at. -/
theorem run_dec_pntr_last_returns_output :
    (run fresh ['<']).map (fun r => (r.2, r.1.tape_pntr, r.1.has_error)) =
        some ([], -1, true) ∧
      ([] : List Nat) ≠ ERROR := by
  decide!


/-- C6, as stated, fails: `error_printer` passes the syntax check and runs to
its end (instruction pointer at the program length) in 125 cycles with the
error flag clear, and the output it returns is equal to `ERROR`. -/
theorem error_printer_output_is_ERROR :
    (run fresh error_printer).map
        (fun r => (r.2, r.1.output, r.1.has_error, r.1.total_cycles, r.1.instruction_pntr)) =
      some (ERROR, ERROR, false, 125, error_printer.length) := by
  decide!

theorem cell_eq_some {s : Interpreter} {v : Nat} (h : s.cell = some v) :
    0 ≤ s.tape_pntr ∧ s.tape_pntr.toNat < s.tape.length ∧ s.tape[s.tape_pntr.toNat]? = some v := by
  unfold cell at h
  split at h
  · rename_i h0
    refine ⟨h0, ?_, h⟩
    by_contra hlt
    rw [List.getElem?_eq_none (by omega)] at h
    cases h
  · cases h

theorem set_cell_eq {s : Interpreter} {v : Nat} (h : s.cell = some v) (w : Nat) :
    s.set_cell w = some { s with tape := s.tape.set s.tape_pntr.toNat w } := by
  obtain ⟨h0, h1, _⟩ := cell_eq_some h
  simp [set_cell, h0, h1]

theorem cell_set {s : Interpreter} {v : Nat} (h : s.cell = some v) (w : Nat) :
    cell { s with tape := s.tape.set s.tape_pntr.toNat w } = some w := by
  obtain ⟨h0, h1, _⟩ := cell_eq_some h
  simp [cell, h0, h1]

theorem iterate_set_cell (f : Nat → Nat)
    (op : Interpreter → Option Interpreter)
    (hop : ∀ s v, s.cell = some v → op s = s.set_cell (f v))
    (n : Nat) : ∀ (s : Interpreter) (v : Nat), s.cell = some v →
      iterate op (n + 1) s = some { s with tape := s.tape.set s.tape_pntr.toNat (f^[n + 1] v) } := by
  induction n with
  | zero =>
    intro s v hc
    simp [iterate, hop s v hc, set_cell_eq hc]
  | succ n ih =>
    intro s v hc
    rw [iterate, hop s v hc, set_cell_eq hc]
    simp only
    rw [ih _ (f v) (cell_set hc _)]
    simp [List.set_set]

theorem set_same_cell {s : Interpreter} {v : Nat} (h : s.cell = some v) :
    ({ s with tape := s.tape.set s.tape_pntr.toNat v } : Interpreter) = s := by
  obtain ⟨_, h1, h2⟩ := cell_eq_some h
  have : s.tape.set s.tape_pntr.toNat v = s.tape := by
    apply List.ext_getElem?
    intro i
    by_cases hi : s.tape_pntr.toNat = i
    · subst hi; rw [List.getElem?_set_self h1, h2]
    · rw [List.getElem?_set_ne hi]
  rw [this]

theorem iterate_succ_mod (n v : Nat) : (fun x => (x + 1) % 256)^[n + 1] v = (v + (n + 1)) % 256 := by
  induction n generalizing v with
  | zero => simp
  | succ n ih =>
    rw [Function.iterate_succ_apply, ih]
    omega

theorem iterate_pred_mod (n v : Nat) :
    (fun x => (x + 255) % 256)^[n + 1] v = (v + 255 * (n + 1)) % 256 := by
  induction n generalizing v with
  | zero => simp
  | succ n ih =>
    rw [Function.iterate_succ_apply, ih]
    omega

/-- C7: cell arithmetic wraps modulo 256.  At an in-range tape position holding
`v < 256`, 256 consecutive `inc_byte` leave the interpreter exactly as it was,
and so do 256 consecutive `dec_byte`; one `inc_byte` stores `(v + 1) % 256`
(0 when `v = 255`), one `dec_byte` stores `(v + 255) % 256` (255 when `v = 0`),
and neither changes any other cell. -/
theorem cell_arithmetic_wraps (s : Interpreter) (v : Nat) (hv : v < 256)
    (hc : s.cell = some v) :
    iterate inc_byte 256 s = some s ∧ iterate dec_byte 256 s = some s ∧
      (∃ s', s.inc_byte = some s' ∧ s'.cell = some ((v + 1) % 256) ∧
        (v = 255 → s'.cell = some 0) ∧
        ∀ i : Nat, i ≠ s.tape_pntr.toNat → s'.tape[i]? = s.tape[i]?) ∧
      (∃ s', s.dec_byte = some s' ∧ s'.cell = some ((v + 255) % 256) ∧
        (v = 0 → s'.cell = some 255) ∧
        ∀ i : Nat, i ≠ s.tape_pntr.toNat → s'.tape[i]? = s.tape[i]?) := by
  have hinc : ∀ (s : Interpreter) (v : Nat), s.cell = some v →
      inc_byte s = s.set_cell ((fun x => (x + 1) % 256) v) := by
    intro s v h; simp [inc_byte, h]
  have hdec : ∀ (s : Interpreter) (v : Nat), s.cell = some v →
      dec_byte s = s.set_cell ((fun x => (x + 255) % 256) v) := by
    intro s v h; simp [dec_byte, h]
  refine ⟨?_, ?_, ?_, ?_⟩
  · rw [iterate_set_cell _ _ hinc 255 s v hc, iterate_succ_mod]
    have : (v + (255 + 1)) % 256 = v := by omega
    rw [this, set_same_cell hc]
  · rw [iterate_set_cell _ _ hdec 255 s v hc, iterate_pred_mod]
    have : (v + 255 * (255 + 1)) % 256 = v := by omega
    rw [this, set_same_cell hc]
  · refine ⟨_, (hinc s v hc).trans (set_cell_eq hc _), cell_set hc _, ?_, ?_⟩
    · intro h; subst h; exact cell_set hc _
    · intro i hi; exact List.getElem?_set_ne (Ne.symm hi)
  · refine ⟨_, (hdec s v hc).trans (set_cell_eq hc _), cell_set hc _, ?_, ?_⟩
    · intro h; subst h; exact cell_set hc _
    · intro i hi; exact List.getElem?_set_ne (Ne.symm hi)

/-- The fresh interpreter, whose current cell holds 0, as an instance of C7,
and the run of 256 `+` followed by `.`, which outputs the byte 0. -/
theorem cell_arithmetic_wraps_witness :
    (fresh.cell = some 0 ∧
      iterate inc_byte 256 fresh = some fresh ∧ iterate dec_byte 256 fresh = some fresh) ∧
    (run fresh (List.replicate 256 '+' ++ ['.'])).map Prod.snd = some [0] :=
  ⟨⟨by decide!, (cell_arithmetic_wraps fresh 0 (by decide) (by decide!)).1,
    (cell_arithmetic_wraps fresh 0 (by decide) (by decide!)).2.1⟩, by decide!⟩

/-! ## Termination of the bracket scans -/

theorem getElem?_of_lt_toInt (p : List Char) (t : Int) (h0 : 0 ≤ t)
    (h1 : t < toInt p.length) : ∃ c, p[t.toNat]? = some c := by
  have hle := toInt_le_self (p.length : Int) (by omega)
  have hlt : t.toNat < p.length := by omega
  exact ⟨p[t.toNat], List.getElem?_eq_getElem hlt⟩

theorem find_loop_match_loop_forward_total (s : Interpreter) :
    ∀ (fuel : Nat) (c t : Int), 1 ≤ fuel → (t < 0 ∨ toInt s.program.length - t < fuel) →
      ∃ s' r, find_loop_match_loop s 1 fuel c t = some (s', r) ∧ flagged s s' := by
  intro fuel
  induction fuel with
  | zero => intro c t h; omega
  | succ fuel ih =>
    intro c t _ hf
    unfold find_loop_match_loop
    by_cases hc : c > 0
    · by_cases hb : t < 0 ∨ t ≥ toInt s.program.length
      · rw [if_pos hc, if_pos hb]; exact ⟨_, _, rfl, Or.inr rfl⟩
      · have hb' : 0 ≤ t ∧ t < toInt s.program.length := by omega
        obtain ⟨ch, hch⟩ := getElem?_of_lt_toInt s.program t hb'.1 hb'.2
        rw [if_pos hc, if_neg hb, hch]
        apply ih
        · omega
        · omega
    · rw [if_neg hc]; exact ⟨_, _, rfl, Or.inl rfl⟩

theorem find_loop_match_loop_backward_total (s : Interpreter) :
    ∀ (fuel : Nat) (c t : Int), 1 ≤ fuel → (t ≥ toInt s.program.length ∨ t + 1 < fuel) →
      ∃ s' r, find_loop_match_loop s (-1) fuel c t = some (s', r) ∧ flagged s s' := by
  intro fuel
  induction fuel with
  | zero => intro c t h; omega
  | succ fuel ih =>
    intro c t _ hf
    unfold find_loop_match_loop
    by_cases hc : c > 0
    · by_cases hb : t < 0 ∨ t ≥ toInt s.program.length
      · rw [if_pos hc, if_pos hb]; exact ⟨_, _, rfl, Or.inr rfl⟩
      · have hb' : 0 ≤ t ∧ t < toInt s.program.length := by omega
        obtain ⟨ch, hch⟩ := getElem?_of_lt_toInt s.program t hb'.1 hb'.2
        rw [if_pos hc, if_neg hb, hch]
        apply ih
        · omega
        · omega
    · rw [if_neg hc]; exact ⟨_, _, rfl, Or.inl rfl⟩

/-- Either scan of `find_loop_match` halts within its fuel, and the call
changes nothing but, possibly, the error flag. -/
theorem find_loop_match_total (s : Interpreter) (d : Int) (hd : d = 1 ∨ d = -1) :
    ∃ s' r, find_loop_match s d = some (s', r) ∧ flagged s s' := by
  have hle := toInt_le_self (s.program.length : Int) (by omega)
  unfold find_loop_match
  generalize toInt (toUnsigned (s.instruction_pntr + d)) = t
  rcases hd with rfl | rfl
  · apply find_loop_match_loop_forward_total
    · omega
    · by_cases h : t < 0
      · exact Or.inl h
      · right; push_cast; omega
  · apply find_loop_match_loop_backward_total
    · omega
    · by_cases h : t ≥ toInt s.program.length
      · exact Or.inl h
      · right; push_cast; omega

/-! ## Termination of the syntax check -/

theorem flagged_same_data {s s' : Interpreter} (h : flagged s s') : same_data s s' := by
  rcases h with rfl | rfl <;> exact ⟨rfl, rfl, rfl, rfl, rfl⟩

theorem flagged_no_error {s s' : Interpreter} (h : flagged s s') (he : s'.has_error = false) :
    s' = s := by
  rcases h with rfl | rfl
  · rfl
  · cases he

/-- The bracket test of one iteration of `check_syntax` yields a state. -/
theorem check_bracket_total (s : Interpreter) (c : Char) :
    ∃ s', (if c = '[' then (s.find_loop_match 1).map Prod.fst
          else if c = ']' then (s.find_loop_match (-1)).map Prod.fst
          else some s) = some s' ∧ flagged s s' := by
  by_cases h1 : c = '['
  · obtain ⟨s', r, h, hf⟩ := find_loop_match_total s 1 (Or.inl rfl)
    rw [if_pos h1, h]; exact ⟨s', rfl, hf⟩
  · by_cases h2 : c = ']'
    · obtain ⟨s', r, h, hf⟩ := find_loop_match_total s (-1) (Or.inr rfl)
      rw [if_neg h1, if_pos h2, h]; exact ⟨s', rfl, hf⟩
    · rw [if_neg h1, if_neg h2]; exact ⟨s, rfl, Or.inl rfl⟩

theorem check_syntax_loop_total :
    ∀ (fuel i : Nat) (s : Interpreter), i ≤ s.program.length → s.program.length < fuel + i →
      ∃ s' b, check_syntax_loop fuel i s = some (s', b) ∧ same_data s s' ∧
        (b = true → s' = { s with instruction_pntr := 0 }) ∧
        (b = false → s'.has_error = true) := by
  intro fuel
  induction fuel with
  | zero => intro i s h1 h2; omega
  | succ fuel ih =>
    intro i s hle h
    unfold check_syntax_loop
    by_cases hi : i < s.program.length
    · rw [if_pos hi]
      dsimp only
      rw [List.getElem?_eq_getElem hi]
      dsimp only
      obtain ⟨s1, h1, hf⟩ := check_bracket_total { s with instruction_pntr := toUnsigned i }
        s.program[i]
      rw [h1]
      dsimp only
      have hd0 := flagged_same_data hf
      have hd : same_data s s1 := hd0
      cases he : s1.has_error
      · rw [if_neg (by simp)]
        have hs1 : s1 = { s with instruction_pntr := toUnsigned i } := flagged_no_error hf he
        obtain ⟨s', b, hrun, hd', ht, hfalse⟩ := ih (i + 1) s1
          (by rw [hd.2.2.1]; omega) (by rw [hd.2.2.1]; omega)
        refine ⟨s', b, hrun, ?_, ?_, hfalse⟩
        · obtain ⟨a1, a2, a3, a4, a5⟩ := hd
          obtain ⟨b1, b2, b3, b4, b5⟩ := hd'
          exact ⟨b1.trans a1, b2.trans a2, b3.trans a3, b4.trans a4, b5.trans a5⟩
        · intro hb
          rw [ht hb, hs1]
      · rw [if_pos rfl]
        exact ⟨s1, false, rfl, hd, fun h => (by cases h), fun _ => he⟩
    · rw [if_neg hi]
      exact ⟨_, true, rfl, ⟨rfl, rfl, rfl, rfl, rfl⟩, fun _ => rfl, fun h => (by cases h)⟩

/-- The syntax check halts within its fuel and writes only the instruction
pointer and the error flag. -/
theorem check_syntax_total (s : Interpreter) :
    ∃ s' b, check_syntax s = some (s', b) ∧ same_data s s' ∧
      (b = true → s' = { s with instruction_pntr := 0 }) ∧
      (b = false → s'.has_error = true) :=
  check_syntax_loop_total (s.program.length + 1) 0 s (Nat.zero_le _) (by omega)

/-! ## The state invariant and the totality of one step -/

theorem toInt_TAPE_SIZE : toInt (TAPE_SIZE : Int) = 1000 :=
  toInt_of_range _ (by decide) (by decide)

theorem digits_are_bytes : ∀ v, v < 256 → ∀ c ∈ Nat.toDigits 10 v, c.toNat < 256 := by
  decide!

theorem well_formed_cell {s : Interpreter} (hw : s.well_formed) (he : s.has_error = false) :
    ∃ v, s.cell = some v ∧ v < 256 := by
  obtain ⟨hlen, hp, hb, _⟩ := hw
  obtain ⟨h0, h1⟩ := hp he
  have hlt : s.tape_pntr.toNat < s.tape.length := by
    rw [hlen]; unfold TAPE_SIZE at *; omega
  refine ⟨s.tape[s.tape_pntr.toNat], ?_, hb _ (List.getElem_mem hlt)⟩
  unfold cell
  rw [if_pos h0, List.getElem?_eq_getElem hlt]

theorem well_formed_set_tape {s : Interpreter} (hw : s.well_formed) (i w : Nat) (hwb : w < 256) :
    well_formed { s with tape := s.tape.set i w } := by
  obtain ⟨hlen, hp, hb, ho⟩ := hw
  refine ⟨by rw [← hlen]; exact List.length_set .., hp, ?_, ho⟩
  intro x hx
  rcases List.mem_or_eq_of_mem_set hx with h | h
  · exact hb x h
  · rw [h]; exact hwb

theorem well_formed_flagged {s s' : Interpreter} (hw : s.well_formed) (h : flagged s s')
    (n : Nat) : well_formed { s' with instruction_pntr := n } := by
  obtain ⟨hlen, hp, hb, ho⟩ := hw
  rcases h with rfl | rfl
  · exact ⟨hlen, hp, hb, ho⟩
  · exact ⟨hlen, fun h => (by cases h), hb, ho⟩

theorem dispatch_total (s : Interpreter) (c : Char) (hw : s.well_formed)
    (he : s.has_error = false) :
    ∃ s', s.dispatch c = some s' ∧ s'.well_formed ∧ s'.program = s.program ∧
      s'.total_cycles = s.total_cycles := by
  obtain ⟨v, hv, hvb⟩ := well_formed_cell hw he
  obtain ⟨h0, h1, _⟩ := cell_eq_some hv
  have hw' := hw
  obtain ⟨hlen, hp, hb, ho⟩ := hw'
  obtain ⟨hp0, hp1⟩ := hp he
  unfold dispatch
  split_ifs with c1 c2 c3 c4 c5 c6 c7 c8
  · refine ⟨_, rfl, ?_, ?_, ?_⟩
    · unfold inc_pntr
      dsimp only
      rw [toInt_TAPE_SIZE]
      split_ifs with h
      · exact ⟨hlen, fun h => (by cases h), hb, ho⟩
      · refine ⟨hlen, fun _ => ?_, hb, ho⟩
        dsimp only; unfold TAPE_SIZE; omega
    · unfold inc_pntr; dsimp only; split_ifs <;> rfl
    · unfold inc_pntr; dsimp only; split_ifs <;> rfl
  · refine ⟨_, rfl, ?_, ?_, ?_⟩
    · unfold dec_pntr
      dsimp only
      split_ifs with h
      · exact ⟨hlen, fun h => (by cases h), hb, ho⟩
      · refine ⟨hlen, fun _ => ?_, hb, ho⟩
        dsimp only; omega
    · unfold dec_pntr; dsimp only; split_ifs <;> rfl
    · unfold dec_pntr; dsimp only; split_ifs <;> rfl
  · unfold inc_byte
    rw [hv]; dsimp only; rw [set_cell_eq hv]
    exact ⟨_, rfl, well_formed_set_tape hw _ _ (Nat.mod_lt _ (by decide)), rfl, rfl⟩
  · unfold dec_byte
    rw [hv]; dsimp only; rw [set_cell_eq hv]
    exact ⟨_, rfl, well_formed_set_tape hw _ _ (Nat.mod_lt _ (by decide)), rfl, rfl⟩
  · unfold out_byte
    rw [hv]
    refine ⟨_, rfl, ⟨hlen, hp, hb, ?_⟩, rfl, rfl⟩
    intro x hx
    rcases List.mem_append.1 hx with h | h
    · exact ho x h
    · rw [List.mem_singleton.1 h]; exact hvb
  · unfold out_byte_as_int
    rw [hv]
    refine ⟨_, rfl, ⟨hlen, hp, hb, ?_⟩, rfl, rfl⟩
    intro x hx
    rcases List.mem_append.1 hx with h | h
    · exact ho x h
    · obtain ⟨ch, hch, rfl⟩ := List.mem_map.1 h
      exact digits_are_bytes v hvb ch hch
  · unfold begin_loop
    rw [hv]; dsimp only
    split_ifs with hz
    · obtain ⟨s1, r, hr, hf⟩ := find_loop_match_total s 1 (Or.inl rfl)
      rw [hr]
      refine ⟨_, rfl, well_formed_flagged hw hf _, ?_, ?_⟩
      · exact (flagged_same_data hf).2.2.1
      · exact (flagged_same_data hf).2.2.2.2
    · exact ⟨_, rfl, hw, rfl, rfl⟩
  · unfold end_loop
    rw [hv]; dsimp only
    split_ifs with hz
    · obtain ⟨s1, r, hr, hf⟩ := find_loop_match_total s (-1) (Or.inr rfl)
      rw [hr]
      refine ⟨_, rfl, well_formed_flagged hw hf _, ?_, ?_⟩
      · exact (flagged_same_data hf).2.2.1
      · exact (flagged_same_data hf).2.2.2.2
    · exact ⟨_, rfl, hw, rfl, rfl⟩
  · exact ⟨_, rfl, hw, rfl, rfl⟩

theorem step_total (s : Interpreter) (hw : s.well_formed) (he : s.has_error = false)
    (hi : s.instruction_pntr < s.program.length) (hc : s.total_cycles ≤ MAX_CYCLES) :
    ∃ s', s.step = some s' ∧ s'.well_formed ∧ s'.program = s.program ∧
      s'.total_cycles = s.total_cycles + 1 := by
  obtain ⟨s1, h1, hw1, hp1, hc1⟩ := dispatch_total s s.program[s.instruction_pntr] hw he
  unfold step
  rw [List.getElem?_eq_getElem hi]
  dsimp only
  rw [h1]
  refine ⟨_, rfl, ⟨hw1.1, hw1.2.1, hw1.2.2.1, hw1.2.2.2⟩, hp1, ?_⟩
  dsimp only
  rw [hc1]
  have h := toUnsigned_of_range (s.total_cycles + 1) (by unfold MAX_CYCLES at hc; omega)
  rw [← h]
  rfl

theorem run_loop_total :
    ∀ (fuel : Nat) (s : Interpreter), s.well_formed → MAX_CYCLES + 2 ≤ fuel + s.total_cycles →
      1 ≤ fuel → s.total_cycles ≤ MAX_CYCLES + 1 →
      ∃ s' out, run_loop fuel s = some (s', out) ∧ s'.well_formed ∧
        s'.total_cycles ≤ MAX_CYCLES + 1 ∧
        (out = ERROR ∧ (s'.has_error = true ∨ s'.total_cycles > MAX_CYCLES) ∨
          out = s'.output ∧ s.program.length ≤ s'.instruction_pntr) := by
  intro fuel
  induction fuel with
  | zero => intro s _ _ h; omega
  | succ fuel ih =>
    intro s hw hf _ hbound
    unfold run_loop
    by_cases hi : s.instruction_pntr < s.program.length
    · rw [if_pos hi]
      by_cases hstop : s.total_cycles > MAX_CYCLES ∨ s.has_error = true
      · rw [if_pos hstop]
        exact ⟨s, ERROR, rfl, hw, hbound, Or.inl ⟨rfl, hstop.symm⟩⟩
      · rw [if_neg hstop]
        have hc : s.total_cycles ≤ MAX_CYCLES := by omega
        have he : s.has_error = false := by
          cases h : s.has_error
          · rfl
          · exact absurd (Or.inr h) hstop
        obtain ⟨s1, h1, hw1, hp1, hc1⟩ := step_total s hw he hi hc
        rw [h1]
        dsimp only
        obtain ⟨s', out, hrun, hw', hb', hres⟩ := ih s1 hw1 (by omega) (by omega) (by omega)
        rw [hp1] at hres
        exact ⟨s', out, hrun, hw', hb', hres⟩
    · rw [if_neg hi]
      exact ⟨s, s.output, rfl, hw, hbound, Or.inr ⟨rfl, by omega⟩⟩

theorem well_formed_reset (s : Interpreter) (p : List Char) :
    well_formed { s.reset with program := p } := by
  refine ⟨List.length_replicate .., fun _ => ⟨le_refl (0 : Int), (by decide : (0 : Int) < (TAPE_SIZE : Int))⟩, ?_, ?_⟩
  · intro x hx
    rw [(List.mem_replicate.1 hx).2]; decide
  · intro x hx; cases hx

theorem well_formed_of_same_data {s s' : Interpreter} (hw : s.well_formed)
    (hd : same_data s s') (he : s'.has_error = true) : s'.well_formed := by
  obtain ⟨hlen, _, hb, ho⟩ := hw
  obtain ⟨d1, _, _, d4, _⟩ := hd
  refine ⟨by rw [d1]; exact hlen, fun h => ?_, by rw [d1]; exact hb, by rw [d4]; exact ho⟩
  rw [he] at h; cases h

/-- Every run returns: either `ERROR`, with the error flag set or the cycle
counter above `MAX_CYCLES`, or the accumulated output, with the instruction
pointer at or beyond the end of the program.  The cycle counter never passes
`MAX_CYCLES + 1`. -/
theorem run_cases (s : Interpreter) (p : List Char) :
    ∃ s' out, run s p = some (s', out) ∧ s'.well_formed ∧
      s'.total_cycles ≤ MAX_CYCLES + 1 ∧
      (out = ERROR ∧ (s'.has_error = true ∨ s'.total_cycles > MAX_CYCLES) ∨
        out = s'.output ∧ p.length ≤ s'.instruction_pntr) := by
  obtain ⟨s1, ok, h1, hd, htrue, hfalse⟩ := check_syntax_total { s.reset with program := p }
  unfold run
  dsimp only
  rw [h1]
  dsimp only
  cases ok
  · exact ⟨s1, ERROR, rfl, well_formed_of_same_data (well_formed_reset s p) hd (hfalse rfl),
      by rw [hd.2.2.2.2]; exact Nat.zero_le _, Or.inl ⟨rfl, Or.inl (hfalse rfl)⟩⟩
  · rw [if_pos rfl, htrue rfl]
    exact run_loop_total (MAX_CYCLES + 2)
      { ({ s.reset with program := p } : Interpreter) with instruction_pntr := 0 }
      (well_formed_reset s p) (Nat.le_add_right _ _) (by omega) (Nat.zero_le _)

/-- C3: the program `+[]` never reaches its end; `run` returns `ERROR` when
the cycle counter stands at 1001, one instruction more than `MAX_CYCLES`.  So
does every run that stops before the end of its program with the error flag
clear: it returns `ERROR` with `MAX_CYCLES + 1` instructions executed. -/
theorem run_endless_loop_cycles (s : Interpreter) (p : List Char) :
    (run fresh ['+', '[', ']']).map (fun r => (r.2, r.1.total_cycles, r.1.has_error)) =
        some (ERROR, 1001, false) ∧
      MAX_CYCLES = 1000 ∧
      ∀ s' out, run s p = some (s', out) → s'.has_error = false →
        s'.instruction_pntr < p.length → out = ERROR ∧ s'.total_cycles = MAX_CYCLES + 1 := by
  refine ⟨by decide!, rfl, ?_⟩
  intro s' out hrun he hip
  obtain ⟨s'', out', hrun', _, hbound, hres⟩ := run_cases s p
  rw [hrun] at hrun'
  injection hrun' with hrun'
  injection hrun' with h1 h2
  subst h1
  subst h2
  rcases hres with ⟨hE, h | h⟩ | ⟨_, h⟩
  · rw [he] at h; cases h
  · exact ⟨hE, by omega⟩
  · omega

/-- C4: `run` is total.  For every program and every prior state the syntax
pre-pass, both bracket scans of `find_loop_match` and the main loop halt within
their fuel and never index outside the tape or the program: `run` returns a
final state and a string, which is `ERROR` or the accumulated output. -/
theorem run_total (s : Interpreter) (p : List Char) :
    (∃ s' r, find_loop_match s 1 = some (s', r)) ∧
      (∃ s' r, find_loop_match s (-1) = some (s', r)) ∧
      (∃ s' ok, check_syntax s = some (s', ok)) ∧
      ∃ s' out, run s p = some (s', out) ∧ (out = ERROR ∨ out = s'.output) := by
  refine ⟨?_, ?_, ?_, ?_⟩
  · obtain ⟨s', r, h, _⟩ := find_loop_match_total s 1 (Or.inl rfl)
    exact ⟨s', r, h⟩
  · obtain ⟨s', r, h, _⟩ := find_loop_match_total s (-1) (Or.inr rfl)
    exact ⟨s', r, h⟩
  · obtain ⟨s', ok, h, _⟩ := check_syntax_total s
    exact ⟨s', ok, h⟩
  · obtain ⟨s', out, hrun, _, _, hres⟩ := run_cases s p
    refine ⟨s', out, hrun, ?_⟩
    rcases hres with ⟨h, _⟩ | ⟨h, _⟩
    · exact Or.inl h
    · exact Or.inr h

/-- C6, amended: a returned string equal to `ERROR` means that the error flag
is set, or the cycle counter exceeds `MAX_CYCLES`, or the output accumulated by
the program is itself the five characters of `ERROR`; any other returned string
is the accumulated output of a run that reached the end of the program, and so
is the string returned by a run that ends with the error flag clear and the
cycle counter within `MAX_CYCLES`. -/
theorem run_ERROR_cases (s : Interpreter) (p : List Char) :
    ∃ s' out, run s p = some (s', out) ∧
      (out = ERROR →
        s'.has_error = true ∨ s'.total_cycles > MAX_CYCLES ∨ s'.output = ERROR) ∧
      (out ≠ ERROR → out = s'.output ∧ p.length ≤ s'.instruction_pntr) ∧
      (s'.has_error = false → s'.total_cycles ≤ MAX_CYCLES →
        out = s'.output ∧ p.length ≤ s'.instruction_pntr) := by
  obtain ⟨s', out, hrun, _, _, hres⟩ := run_cases s p
  refine ⟨s', out, hrun, ?_, ?_, ?_⟩
  · intro hE
    rcases hres with ⟨_, h | h⟩ | ⟨h, _⟩
    · exact Or.inl h
    · exact Or.inr (Or.inl h)
    · exact Or.inr (Or.inr (h ▸ hE))
  · intro hE
    rcases hres with ⟨h, _⟩ | h
    · exact absurd h hE
    · exact h
  · intro he hc
    rcases hres with ⟨_, h | h⟩ | h
    · rw [he] at h; cases h
    · omega
    · exact h

/-! ## The bracket scans in terms of the nesting depth -/

theorem depth_append (l₁ l₂ : List Char) : depth (l₁ ++ l₂) = depth l₁ + depth l₂ := by
  induction l₁ with
  | nil => simp [depth]
  | cons c cs ih => simp [depth, ih, add_assoc]

theorem depth_take_succ (p : List Char) (t : Nat) (h : t < p.length) :
    depth (p.take (t + 1)) = depth (p.take t) + bracket_value p[t] := by
  rw [List.take_succ, depth_append, List.getElem?_eq_getElem h]
  simp [depth]

theorem depth_take_zero (p : List Char) : depth (p.take 0) = 0 := by
  simp [depth]

theorem depth_take_length (p : List Char) : depth (p.take p.length) = depth p := by
  rw [List.take_length]

/-- The counter update of the forward scan adds the bracket value. -/
theorem forward_update (c : Char) (n : Int) :
    (if c = '[' then n + (if (1 : Int) > 0 then 1 else -1)
      else if c = ']' then n + (if (1 : Int) > 0 then -1 else 1) else n) =
      n + bracket_value c := by
  unfold bracket_value
  split_ifs <;> simp_all

/-- The counter update of the backward scan subtracts the bracket value. -/
theorem backward_update (c : Char) (n : Int) :
    (if c = '[' then n + (if (-1 : Int) > 0 then 1 else -1)
      else if c = ']' then n + (if (-1 : Int) > 0 then -1 else 1) else n) =
      n - bracket_value c := by
  unfold bracket_value
  split_ifs <;> simp_all
  omega

theorem forward_scan_step (s : Interpreter) (hlen : (s.program.length : Int) < 2147483648)
    (fuel : Nat) (c : Int) (t : Nat) (hc : c > 0) (ht : t < s.program.length) :
    find_loop_match_loop s 1 (fuel + 1) c t =
      find_loop_match_loop s 1 fuel (c + bracket_value s.program[t]) ((t + 1 : Nat) : Int) := by
  have hL : toInt (s.program.length : Int) = s.program.length :=
    toInt_of_range _ (by omega) hlen
  have hb : ¬ ((t : Int) < 0 ∨ (t : Int) ≥ toInt s.program.length) := by rw [hL]; omega
  have hn : (t : Int).toNat = t := by omega
  rw [find_loop_match_loop, if_pos hc, if_neg hb, hn, List.getElem?_eq_getElem ht]
  dsimp only
  rw [forward_update]
  rfl

theorem backward_scan_step (s : Interpreter) (hlen : (s.program.length : Int) < 2147483648)
    (fuel : Nat) (c : Int) (m : Nat) (hc : c > 0) (hm : m < s.program.length) :
    find_loop_match_loop s (-1) (fuel + 1) c (((m + 1 : Nat) : Int) - 1) =
      find_loop_match_loop s (-1) fuel (c - bracket_value s.program[m]) ((m : Int) - 1) := by
  have hL : toInt (s.program.length : Int) = s.program.length :=
    toInt_of_range _ (by omega) hlen
  have he : ((m + 1 : Nat) : Int) - 1 = (m : Int) := by omega
  have hb : ¬ ((m : Int) < 0 ∨ (m : Int) ≥ toInt s.program.length) := by rw [hL]; omega
  have hn : (m : Int).toNat = m := by omega
  rw [he, find_loop_match_loop, if_pos hc, if_neg hb, hn, List.getElem?_eq_getElem hm]
  dsimp only
  rw [backward_update]
  rfl

theorem scan_done (s : Interpreter) (d : Int) (fuel : Nat) (c t : Int) (hc : ¬ c > 0) :
    find_loop_match_loop s d (fuel + 1) c t = some (s, t) := by
  rw [find_loop_match_loop, if_neg hc]

theorem forward_scan_off_end (s : Interpreter) (hlen : (s.program.length : Int) < 2147483648)
    (fuel : Nat) (c : Int) (hc : c > 0) :
    find_loop_match_loop s 1 (fuel + 1) c s.program.length =
      some ({ s with has_error := true }, -1) := by
  have hL : toInt (s.program.length : Int) = s.program.length :=
    toInt_of_range _ (by omega) hlen
  have hb : ((s.program.length : Int) < 0 ∨ (s.program.length : Int) ≥ toInt s.program.length) := by
    rw [hL]; omega
  rw [find_loop_match_loop, if_pos hc, if_pos hb]

theorem backward_scan_off_end (s : Interpreter) (fuel : Nat) (c : Int) (hc : c > 0) :
    find_loop_match_loop s (-1) (fuel + 1) c (((0 : Nat) : Int) - 1) =
      some ({ s with has_error := true }, -1) := by
  have hb : ((((0 : Nat) : Int) - 1) < 0 ∨ (((0 : Nat) : Int) - 1) ≥ toInt s.program.length) :=
    Or.inl (by omega)
  rw [find_loop_match_loop, if_pos hc, if_pos hb]

/-- The forward scan succeeds at the first index `k` where the counter has
come down to zero, and returns it. -/
theorem forward_scan_found (s : Interpreter) (hlen : (s.program.length : Int) < 2147483648) :
    ∀ (fuel : Nat) (c : Int) (t k : Nat), t ≤ k → k ≤ s.program.length →
      s.program.length - t < fuel →
      c + (depth (s.program.take k) - depth (s.program.take t)) ≤ 0 →
      (∀ j, t ≤ j → j < k →
        0 < c + (depth (s.program.take j) - depth (s.program.take t))) →
      find_loop_match_loop s 1 fuel c t = some (s, (k : Int)) := by
  intro fuel
  induction fuel with
  | zero => intro c t k _ _ h; omega
  | succ fuel ih =>
    intro c t k htk hk hf hle hfirst
    by_cases hc : c > 0
    · have hlt : t < k := by
        rcases Nat.lt_or_ge t k with h | h
        · exact h
        · have : k = t := by omega
          subst this
          omega
      have ht : t < s.program.length := by omega
      rw [forward_scan_step s hlen fuel c t hc ht]
      have hd := depth_take_succ s.program t ht
      apply ih _ (t + 1) k hlt hk (by omega)
      · rw [hd]; omega
      · intro j hj1 hj2
        have := hfirst j (by omega) hj2
        rw [hd]; omega
    · rw [scan_done s 1 fuel c t hc]
      have : k = t := by
        by_contra hne
        have := hfirst t (le_refl t) (by omega)
        omega
      rw [this]

/-- The forward scan runs off the end, sets the error flag and returns -1 when
the counter never comes down to zero. -/
theorem forward_scan_missing (s : Interpreter) (hlen : (s.program.length : Int) < 2147483648) :
    ∀ (fuel : Nat) (c : Int) (t : Nat), t ≤ s.program.length →
      s.program.length - t < fuel →
      (∀ k, t ≤ k → k ≤ s.program.length →
        0 < c + (depth (s.program.take k) - depth (s.program.take t))) →
      find_loop_match_loop s 1 fuel c t = some ({ s with has_error := true }, -1) := by
  intro fuel
  induction fuel with
  | zero => intro c t _ h; omega
  | succ fuel ih =>
    intro c t ht hf hall
    have hc : c > 0 := by
      have := hall t (le_refl t) ht
      omega
    rcases Nat.lt_or_ge t s.program.length with hlt | hge
    · rw [forward_scan_step s hlen fuel c t hc hlt]
      have hd := depth_take_succ s.program t hlt
      apply ih _ (t + 1) hlt (by omega)
      intro k hk1 hk2
      have := hall k (by omega) hk2
      rw [hd]; omega
    · have : t = s.program.length := by omega
      rw [this]
      exact forward_scan_off_end s hlen fuel c hc

/-- The backward scan, entered just below index `m`, succeeds at the first
index `k` (going down) where the counter has come down to zero, and returns
`k - 1`. -/
theorem backward_scan_found (s : Interpreter) (hlen : (s.program.length : Int) < 2147483648) :
    ∀ (fuel : Nat) (c : Int) (m k : Nat), k ≤ m → m ≤ s.program.length → m < fuel →
      c - (depth (s.program.take m) - depth (s.program.take k)) ≤ 0 →
      (∀ j, k < j → j ≤ m →
        0 < c - (depth (s.program.take m) - depth (s.program.take j))) →
      find_loop_match_loop s (-1) fuel c ((m : Int) - 1) = some (s, (k : Int) - 1) := by
  intro fuel
  induction fuel with
  | zero => intro c m k _ _ h; omega
  | succ fuel ih =>
    intro c m k hkm hm hf hle hfirst
    by_cases hc : c > 0
    · have hlt : k < m := by
        rcases Nat.lt_or_ge k m with h | h
        · exact h
        · have : k = m := by omega
          subst this
          omega
      obtain ⟨m', rfl⟩ : ∃ m', m = m' + 1 := ⟨m - 1, by omega⟩
      have hm' : m' < s.program.length := by omega
      rw [backward_scan_step s hlen fuel c m' hc hm']
      have hd := depth_take_succ s.program m' hm'
      apply ih _ m' k (by omega) (by omega) (by omega)
      · rw [hd] at hle; omega
      · intro j hj1 hj2
        have := hfirst j hj1 (by omega)
        rw [hd] at this; omega
    · rw [scan_done s (-1) fuel c _ hc]
      have : k = m := by
        by_contra hne
        have := hfirst m (by omega) (le_refl m)
        omega
      rw [this]

/-- The backward scan runs off the start, sets the error flag and returns -1
when the counter never comes down to zero. -/
theorem backward_scan_missing (s : Interpreter)
    (hlen : (s.program.length : Int) < 2147483648) :
    ∀ (fuel : Nat) (c : Int) (m : Nat), m ≤ s.program.length → m < fuel →
      (∀ k, k ≤ m → 0 < c - (depth (s.program.take m) - depth (s.program.take k))) →
      find_loop_match_loop s (-1) fuel c ((m : Int) - 1) =
        some ({ s with has_error := true }, -1) := by
  intro fuel
  induction fuel with
  | zero => intro c m _ h; omega
  | succ fuel ih =>
    intro c m hm hf hall
    have hc : c > 0 := by
      have := hall m (le_refl m)
      omega
    rcases Nat.eq_zero_or_pos m with h0 | hpos
    · rw [h0]
      exact backward_scan_off_end s fuel c hc
    · obtain ⟨m', rfl⟩ : ∃ m', m = m' + 1 := ⟨m - 1, by omega⟩
      have hm' : m' < s.program.length := by omega
      rw [backward_scan_step s hlen fuel c m' hc hm']
      have hd := depth_take_succ s.program m' hm'
      apply ih _ m' (by omega) (by omega)
      intro k hk
      have := hall k (by omega)
      rw [hd] at this; omega

theorem scan_start_forward (i : Nat) (h : (i : Int) < 2147483647) :
    toInt (toUnsigned (((toUnsigned (i : Int) : Nat) : Int) + 1)) = ((i + 1 : Nat) : Int) := by
  rw [toInt_toUnsigned, toUnsigned_cast, toInt_of_range] <;> omega

theorem scan_start_backward (i : Nat) (h : (i : Int) < 2147483647) :
    toInt (toUnsigned (((toUnsigned (i : Int) : Nat) : Int) + -1)) = (i : Int) - 1 := by
  rw [toInt_toUnsigned, toUnsigned_cast, toInt_of_range] <;> omega

/-- A least witness of a property of natural numbers. -/
theorem exists_least (P : Nat → Prop) (h : ∃ k, P k) : ∃ k, P k ∧ ∀ j, j < k → ¬ P j := by
  classical
  exact ⟨Nat.find h, Nat.find_spec h, fun j hj => Nat.find_min h hj⟩

/-- A greatest witness of a property of natural numbers below a bound. -/
theorem exists_greatest (P : Nat → Prop) (m : Nat) (h : ∃ k, k ≤ m ∧ P k) :
    ∃ k, k ≤ m ∧ P k ∧ ∀ j, k < j → j ≤ m → ¬ P j := by
  obtain ⟨d, ⟨hd1, hd2⟩, hmin⟩ := exists_least (fun d => d ≤ m ∧ P (m - d))
    (by obtain ⟨k, hk, hP⟩ := h
        exact ⟨m - k, by omega, by rwa [Nat.sub_sub_self hk]⟩)
  refine ⟨m - d, by omega, hd2, ?_⟩
  intro j hj1 hj2 hP
  apply hmin (m - j) (by omega)
  exact ⟨by omega, by rwa [Nat.sub_sub_self hj2]⟩

/-- The `[` test of `check_syntax` at index `i`. -/
theorem check_open_bracket (s : Interpreter) (hlen : (s.program.length : Int) < 2147483648)
    (i : Nat) (hi : i < s.program.length) :
    ((∃ k, i + 1 ≤ k ∧ k ≤ s.program.length ∧
          1 + (depth (s.program.take k) - depth (s.program.take (i + 1))) ≤ 0) →
        ∃ r, find_loop_match { s with instruction_pntr := toUnsigned i } 1 =
          some ({ s with instruction_pntr := toUnsigned i }, r)) ∧
      ((¬ ∃ k, i + 1 ≤ k ∧ k ≤ s.program.length ∧
          1 + (depth (s.program.take k) - depth (s.program.take (i + 1))) ≤ 0) →
        find_loop_match { s with instruction_pntr := toUnsigned i } 1 =
          some ({ s with instruction_pntr := toUnsigned i, has_error := true }, -1)) := by
  have hstart := scan_start_forward i (by omega)
  constructor
  · intro h
    obtain ⟨k, ⟨hk1, hk2, hk3⟩, hmin⟩ := exists_least _ h
    refine ⟨(k : Int), ?_⟩
    unfold find_loop_match
    dsimp only
    rw [hstart]
    apply forward_scan_found { s with instruction_pntr := toUnsigned i } hlen _ 1 (i + 1) k hk1
      hk2 (by dsimp only; omega) hk3
    intro j hj1 hj2
    have := hmin j hj2
    by_contra hneg
    dsimp only at hneg
    exact this ⟨hj1, by omega, by omega⟩
  · intro h
    unfold find_loop_match
    dsimp only
    rw [hstart]
    apply forward_scan_missing { s with instruction_pntr := toUnsigned i } hlen _ 1 (i + 1)
      (by dsimp only; omega) (by dsimp only; omega)
    intro k hk1 hk2
    by_contra hneg
    dsimp only at hneg hk2
    exact h ⟨k, hk1, hk2, by omega⟩

/-- The `]` test of `check_syntax` at index `i`. -/
theorem check_close_bracket (s : Interpreter) (hlen : (s.program.length : Int) < 2147483648)
    (i : Nat) (hi : i < s.program.length) :
    ((∃ k, k ≤ i ∧ 1 - (depth (s.program.take i) - depth (s.program.take k)) ≤ 0) →
        ∃ r, find_loop_match { s with instruction_pntr := toUnsigned i } (-1) =
          some ({ s with instruction_pntr := toUnsigned i }, r)) ∧
      ((¬ ∃ k, k ≤ i ∧ 1 - (depth (s.program.take i) - depth (s.program.take k)) ≤ 0) →
        find_loop_match { s with instruction_pntr := toUnsigned i } (-1) =
          some ({ s with instruction_pntr := toUnsigned i, has_error := true }, -1)) := by
  have hstart := scan_start_backward i (by omega)
  constructor
  · intro h
    obtain ⟨k, hk1, hk3, hmax⟩ := exists_greatest _ i h
    refine ⟨(k : Int) - 1, ?_⟩
    unfold find_loop_match
    dsimp only
    rw [hstart]
    apply backward_scan_found { s with instruction_pntr := toUnsigned i } hlen _ 1 i k hk1
      (by dsimp only; omega) (by omega) hk3
    intro j hj1 hj2
    have := hmax j hj1 hj2
    dsimp only
    omega
  · intro h
    unfold find_loop_match
    dsimp only
    rw [hstart]
    apply backward_scan_missing { s with instruction_pntr := toUnsigned i } hlen _ 1 i
      (by dsimp only; omega) (by omega)
    intro k hk
    by_contra hneg
    dsimp only at hneg
    exact h ⟨k, hk, by omega⟩

/-- One iteration of `check_syntax` leaves the state as it is when the bracket
at `i` has its partner, and sets the error flag when it has not. -/
theorem check_bracket_spec (s : Interpreter) (hlen : (s.program.length : Int) < 2147483648)
    (i : Nat) (hi : i < s.program.length) :
    (has_partner s.program i →
      (if s.program[i] = '[' then
          (find_loop_match { s with instruction_pntr := toUnsigned i } 1).map Prod.fst
        else if s.program[i] = ']' then
          (find_loop_match { s with instruction_pntr := toUnsigned i } (-1)).map Prod.fst
        else some { s with instruction_pntr := toUnsigned i }) =
        some { s with instruction_pntr := toUnsigned i }) ∧
    (¬ has_partner s.program i →
      (if s.program[i] = '[' then
          (find_loop_match { s with instruction_pntr := toUnsigned i } 1).map Prod.fst
        else if s.program[i] = ']' then
          (find_loop_match { s with instruction_pntr := toUnsigned i } (-1)).map Prod.fst
        else some { s with instruction_pntr := toUnsigned i }) =
        some { s with instruction_pntr := toUnsigned i, has_error := true }) := by
  have hget : s.program[i]? = some s.program[i] := List.getElem?_eq_getElem hi
  by_cases h1 : s.program[i] = '['
  · rw [if_pos h1]
    have hopen := check_open_bracket s hlen i hi
    constructor
    · intro hp
      obtain ⟨r, hr⟩ := hopen.1 (hp.1 (by rw [hget, h1]))
      rw [hr]; rfl
    · intro hp
      have hne : ¬ ∃ k, i + 1 ≤ k ∧ k ≤ s.program.length ∧
          1 + (depth (s.program.take k) - depth (s.program.take (i + 1))) ≤ 0 := by
        intro hex
        apply hp
        refine ⟨fun _ => hex, fun h => ?_⟩
        rw [hget, h1] at h
        exact absurd h (by decide)
      rw [hopen.2 hne]; rfl
  · rw [if_neg h1]
    by_cases h2 : s.program[i] = ']'
    · rw [if_pos h2]
      have hclose := check_close_bracket s hlen i hi
      constructor
      · intro hp
        obtain ⟨r, hr⟩ := hclose.1 (hp.2 (by rw [hget, h2]))
        rw [hr]; rfl
      · intro hp
        have hne : ¬ ∃ k, k ≤ i ∧
            1 - (depth (s.program.take i) - depth (s.program.take k)) ≤ 0 := by
          intro hex
          apply hp
          refine ⟨fun h => ?_, fun _ => hex⟩
          rw [hget, h2] at h
          exact absurd h (by decide)
        rw [hclose.2 hne]; rfl
    · rw [if_neg h2]
      constructor
      · intro _; rfl
      · intro hp
        exfalso
        apply hp
        constructor
        · intro h
          rw [hget] at h
          exact absurd (Option.some.inj h) h1
        · intro h
          rw [hget] at h
          exact absurd (Option.some.inj h) h2

/-- The loop of `check_syntax`, entered at index `i` with the error flag clear,
returns `true` exactly when every bracket from `i` on has its partner, and then
leaves the state as it was but for the instruction pointer, set to 0. -/
theorem check_syntax_loop_spec :
    ∀ (fuel i : Nat) (s : Interpreter), (s.program.length : Int) < 2147483648 →
      i ≤ s.program.length → s.program.length < fuel + i → s.has_error = false →
      ((∀ j, i ≤ j → j < s.program.length → has_partner s.program j) →
        check_syntax_loop fuel i s = some ({ s with instruction_pntr := 0 }, true)) ∧
      ((¬ ∀ j, i ≤ j → j < s.program.length → has_partner s.program j) →
        ∃ s', check_syntax_loop fuel i s = some (s', false)) := by
  intro fuel
  induction fuel with
  | zero => intro i s _ h1 h2; omega
  | succ fuel ih =>
    intro i s hlen hle hf he
    by_cases hi : i < s.program.length
    · have hspec := check_bracket_spec s hlen i hi
      have hstep : ∀ s1 : Interpreter,
          (if s.program[i] = '[' then
            (find_loop_match { s with instruction_pntr := toUnsigned i } 1).map Prod.fst
          else if s.program[i] = ']' then
            (find_loop_match { s with instruction_pntr := toUnsigned i } (-1)).map Prod.fst
          else some { s with instruction_pntr := toUnsigned i }) = some s1 →
          check_syntax_loop (fuel + 1) i s =
            if s1.has_error then some (s1, false) else check_syntax_loop fuel (i + 1) s1 := by
        intro s1 h1
        rw [check_syntax_loop, if_pos hi]
        dsimp only
        rw [List.getElem?_eq_getElem hi]
        dsimp only
        rw [h1]
      by_cases hp : has_partner s.program i
      · rw [hstep _ (hspec.1 hp)]
        dsimp only
        rw [if_neg (by rw [he]; decide)]
        obtain ⟨ih1, ih2⟩ := ih (i + 1) { s with instruction_pntr := toUnsigned i } hlen
          (by dsimp only; omega) (by dsimp only; omega) he
        constructor
        · intro hall
          rw [ih1 (fun j hj1 hj2 => hall j (by omega) hj2)]
        · intro hnall
          apply ih2
          intro hall
          apply hnall
          intro j hj1 hj2
          rcases Nat.eq_or_lt_of_le hj1 with h | h
          · rw [← h]; exact hp
          · exact hall j h hj2
      · rw [hstep _ (hspec.2 hp)]
        dsimp only
        rw [if_pos rfl]
        constructor
        · intro hall
          exact absurd (hall i (le_refl i) hi) hp
        · intro _
          exact ⟨_, rfl⟩
    · rw [check_syntax_loop, if_neg hi]
      constructor
      · intro _; rfl
      · intro hnall
        exfalso
        apply hnall
        intro j hj1 hj2
        omega

/-! ## Balance in terms of the nesting depth -/

theorem balanced_from_cons (d : Nat) (c : Char) (cs : List Char) :
    balanced_from d (c :: cs) =
      if c = '[' then balanced_from (d + 1) cs
      else if c = ']' then
        match d with
        | 0 => false
        | d + 1 => balanced_from d cs
      else balanced_from d cs := by
  cases d <;> rfl

theorem balanced_from_iff : ∀ (l : List Char) (d : Nat),
    balanced_from d l = true ↔
      (∀ k, k ≤ l.length → 0 ≤ (d : Int) + depth (l.take k)) ∧ (d : Int) + depth l = 0 := by
  intro l
  induction l with
  | nil =>
    intro d
    simp [balanced_from, depth]
  | cons c cs ih =>
    intro d
    have htake : ∀ k, depth ((c :: cs).take (k + 1)) = bracket_value c + depth (cs.take k) := by
      intro k; rw [List.take_succ_cons, depth]
    have hsplit : ∀ (P : Nat → Prop), (∀ k, k ≤ (c :: cs).length → P k) ↔
        P 0 ∧ ∀ k, k ≤ cs.length → P (k + 1) := by
      intro P
      constructor
      · intro h
        exact ⟨h 0 (Nat.zero_le _), fun k hk => h (k + 1) (by simp; omega)⟩
      · rintro ⟨h0, hs⟩ k hk
        cases k with
        | zero => exact h0
        | succ k => exact hs k (by simp at hk; omega)
    rw [hsplit]
    simp only [htake, List.take_zero, depth]
    by_cases h1 : c = '['
    · have hv : bracket_value c = 1 := by simp [bracket_value, h1]
      rw [balanced_from_cons, if_pos h1, ih (d + 1), hv]
      push_cast
      constructor
      · rintro ⟨ha, hb⟩
        exact ⟨⟨by omega, fun k hk => by have := ha k hk; omega⟩, by omega⟩
      · rintro ⟨⟨_, ha⟩, hb⟩
        exact ⟨fun k hk => by have := ha k hk; omega, by omega⟩
    · by_cases h2 : c = ']'
      · have hv : bracket_value c = -1 := by
          unfold bracket_value; rw [if_neg h1, if_pos h2]
        rw [balanced_from_cons, if_neg h1, if_pos h2, hv]
        cases d with
        | zero =>
          simp only [Bool.false_eq_true, false_iff]
          rintro ⟨⟨_, ha⟩, _⟩
          have := ha 0 (Nat.zero_le _)
          simp [depth] at this
        | succ d =>
          dsimp only
          rw [ih d]
          push_cast
          constructor
          · rintro ⟨ha, hb⟩
            exact ⟨⟨by omega, fun k hk => by have := ha k hk; omega⟩, by omega⟩
          · rintro ⟨⟨_, ha⟩, hb⟩
            exact ⟨fun k hk => by have := ha k hk; omega, by omega⟩
      · have hv : bracket_value c = 0 := by
          unfold bracket_value; rw [if_neg h1, if_neg h2]
        rw [balanced_from_cons, if_neg h1, if_neg h2, ih d, hv]
        constructor
        · rintro ⟨ha, hb⟩
          exact ⟨⟨by omega, fun k hk => by have := ha k hk; omega⟩, by omega⟩
        · rintro ⟨⟨_, ha⟩, hb⟩
          exact ⟨fun k hk => by have := ha k hk; omega, by omega⟩

theorem bracket_value_cases (c : Char) :
    (c = '[' ∧ bracket_value c = 1) ∨ (c = ']' ∧ bracket_value c = -1) ∨
      (c ≠ '[' ∧ c ≠ ']' ∧ bracket_value c = 0) := by
  unfold bracket_value
  by_cases h1 : c = '['
  · left; rw [if_pos h1]; exact ⟨h1, rfl⟩
  · by_cases h2 : c = ']'
    · right; left; rw [if_neg h1, if_pos h2]; exact ⟨h2, rfl⟩
    · right; right; rw [if_neg h1, if_neg h2]; exact ⟨h1, h2, rfl⟩

/-- Every bracket has its partner exactly when the program is balanced. -/
theorem all_partners_iff_balanced (p : List Char) :
    (∀ j, 0 ≤ j → j < p.length → has_partner p j) ↔ balanced p = true := by
  unfold balanced
  rw [balanced_from_iff]
  simp only [Nat.cast_zero, zero_add]
  constructor
  · intro hall
    have hnonneg : ∀ k, k ≤ p.length → 0 ≤ depth (p.take k) := by
      intro k
      induction k using Nat.strong_induction_on with
      | _ k ih =>
        intro hk
        cases k with
        | zero => rw [depth_take_zero]
        | succ k =>
          have hk' : k < p.length := by omega
          have hd := depth_take_succ p k hk'
          have hget : p[k]? = some p[k] := List.getElem?_eq_getElem hk'
          have ihk := ih k (by omega) (by omega)
          rcases bracket_value_cases p[k] with ⟨_, hv⟩ | ⟨hc, hv⟩ | ⟨_, _, hv⟩
          · omega
          · obtain ⟨k', hk1, hk2⟩ := (hall k (Nat.zero_le _) hk').2 (by rw [hget, hc])
            have := ih k' (by omega) (by omega)
            omega
          · omega
    have hle : ∀ m k, k ≤ p.length → p.length - k = m → depth (p.take p.length) ≤ depth (p.take k) := by
      intro m
      induction m using Nat.strong_induction_on with
      | _ m ih =>
        intro k hk hm
        rcases Nat.eq_or_lt_of_le hk with heq | hlt
        · rw [heq]
        · have hd := depth_take_succ p k hlt
          have hget : p[k]? = some p[k] := List.getElem?_eq_getElem hlt
          have ihk := ih (p.length - (k + 1)) (by omega) (k + 1) (by omega) rfl
          rcases bracket_value_cases p[k] with ⟨hc, hv⟩ | ⟨_, hv⟩ | ⟨_, _, hv⟩
          · obtain ⟨k', hk1, hk2, hk3⟩ := (hall k (Nat.zero_le _) hlt).1 (by rw [hget, hc])
            have := ih (p.length - k') (by omega) k' hk2 rfl
            omega
          · omega
          · omega
    refine ⟨hnonneg, ?_⟩
    have h0 := hle p.length 0 (Nat.zero_le _) rfl
    have h1 := hnonneg p.length (le_refl _)
    rw [depth_take_zero] at h0
    rw [depth_take_length] at h0 h1
    omega
  · rintro ⟨hnonneg, hzero⟩ j _ hj
    have hd := depth_take_succ p j hj
    have hget : p[j]? = some p[j] := List.getElem?_eq_getElem hj
    have hj0 := hnonneg j (by omega)
    have hj1 := hnonneg (j + 1) (by omega)
    constructor
    · intro hc
      rw [hget] at hc
      have hc' : p[j] = '[' := Option.some.inj hc
      have hv : bracket_value p[j] = 1 := by rw [hc']; rfl
      refine ⟨p.length, by omega, le_refl _, ?_⟩
      rw [depth_take_length]
      omega
    · intro hc
      rw [hget] at hc
      have hc' : p[j] = ']' := Option.some.inj hc
      have hv : bracket_value p[j] = -1 := by rw [hc']; rfl
      refine ⟨0, Nat.zero_le _, ?_⟩
      rw [depth_take_zero]
      omega

/-- The syntax check of a program shorter than 2^31 characters returns whether
the program is balanced; when it is, the state is left as it was but for the
instruction pointer, set to 0. -/
theorem check_syntax_spec (s : Interpreter) (hlen : (s.program.length : Int) < 2147483648)
    (he : s.has_error = false) :
    ∃ s', check_syntax s = some (s', balanced s.program) ∧ same_data s s' ∧
      (balanced s.program = true → s' = { s with instruction_pntr := 0 }) ∧
      (balanced s.program = false → s'.has_error = true) := by
  obtain ⟨s', ok, hrun, hd, htrue, hfalse⟩ := check_syntax_total s
  obtain ⟨h1, h2⟩ := check_syntax_loop_spec (s.program.length + 1) 0 s hlen (Nat.zero_le _)
    (by omega) he
  have hok : ok = balanced s.program := by
    cases hb : balanced s.program
    · have hn : ¬ ∀ j, 0 ≤ j → j < s.program.length → has_partner s.program j := by
        rw [all_partners_iff_balanced, hb]; decide
      obtain ⟨s2, h⟩ := h2 hn
      unfold check_syntax at hrun
      rw [h] at hrun
      injection hrun with hrun
      injection hrun with _ hrun
      exact hrun.symm
    · have h := h1 ((all_partners_iff_balanced s.program).2 hb)
      unfold check_syntax at hrun
      rw [h] at hrun
      injection hrun with hrun
      injection hrun with _ hrun
      exact hrun.symm
  rw [hok] at hrun htrue hfalse
  exact ⟨s', hrun, hd, htrue, hfalse⟩

/-- C2: `run` fails at the syntax check exactly for unbalanced programs.  For a
program shorter than 2^31 characters, `check_syntax` returns whether the program
is bracket-balanced; if it is not, `run` returns `ERROR` with the tape still all
zero, no output, no cycle counted and the tape pointer at 0; if it is, `run`
goes on to the main loop from the reset state. -/
theorem run_syntax_error_iff_unbalanced (s : Interpreter) (p : List Char)
    (hp : p.length < 2147483648) :
    (∃ s', check_syntax { s.reset with program := p } = some (s', balanced p)) ∧
      (balanced p = false →
        ∃ s', run s p = some (s', ERROR) ∧ s'.tape = List.replicate TAPE_SIZE 0 ∧
          s'.output = [] ∧ s'.total_cycles = 0 ∧ s'.tape_pntr = 0) ∧
      (balanced p = true →
        run s p = run_loop (MAX_CYCLES + 2) { s.reset with program := p }) := by
  obtain ⟨s1, h1, hd, htrue, _⟩ := check_syntax_spec { s.reset with program := p }
    (by dsimp only; omega) rfl
  dsimp only at h1 htrue
  refine ⟨⟨s1, h1⟩, ?_, ?_⟩
  · intro hb
    rw [hb] at h1
    refine ⟨s1, ?_, hd.1, hd.2.2.2.1, hd.2.2.2.2, hd.2.1⟩
    unfold run
    dsimp only
    rw [h1]
    rfl
  · intro hb
    rw [hb] at h1
    unfold run
    dsimp only
    rw [h1]
    dsimp only
    rw [if_pos rfl, htrue hb]
    rfl

/-- The program `[` as an instance of C2: it is unbalanced and its run returns
`ERROR` with nothing executed. -/
theorem run_syntax_error_iff_unbalanced_witness :
    (['['] : List Char).length < 2147483648 ∧ balanced ['['] = false ∧
      ∃ s', run fresh ['['] = some (s', ERROR) ∧ s'.tape = List.replicate TAPE_SIZE 0 ∧
        s'.output = [] ∧ s'.total_cycles = 0 ∧ s'.tape_pntr = 0 :=
  ⟨by decide, by decide,
    (run_syntax_error_iff_unbalanced fresh ['['] (by decide)).2.1 (by decide)⟩

/-! ## The fitness function -/

theorem unsigned_difference (x y : Int) :
    toInt (toUnsigned (((toUnsigned x : Nat) : Int) - y)) = toInt (x - y) := by
  unfold toInt toUnsigned; omega

/-- The summand at a position where both strings have a character. -/
theorem distance_term_both (cs : Bool) (min_str max_str : List Nat) (i : Nat)
    (h1 : i < min_str.length) (h2 : i < max_str.length) :
    distance_term cs min_str max_str i =
      some (toInt (char_value cs min_str[i] - char_value cs max_str[i])).natAbs := by
  unfold distance_term
  rw [List.getElem?_eq_getElem h2]
  dsimp only
  rw [if_pos h1, List.getElem?_eq_getElem h1]
  dsimp only
  rw [unsigned_difference]

/-- The summand at a position that only the longer string has. -/
theorem distance_term_missing (cs : Bool) (min_str max_str : List Nat) (i : Nat)
    (h1 : ¬ i < min_str.length) (h2 : i < max_str.length) :
    distance_term cs min_str max_str i = some 255 := by
  unfold distance_term
  rw [List.getElem?_eq_getElem h2]
  dsimp only
  rw [if_neg h1]
  dsimp only
  rw [unsigned_difference]
  have h : char_value cs max_str[i] + (CHAR_SIZE : Int) - char_value cs max_str[i] = 255 := by
    unfold CHAR_SIZE; omega
  rw [h, toInt_of_range 255 (by decide) (by decide)]
  rfl

theorem score_loop_self (cs : Bool) (g : List Nat) :
    ∀ (fuel i : Nat) (score : ℚ), i ≤ g.length → g.length < fuel + i →
      score_loop cs g g fuel i score = some score := by
  intro fuel
  induction fuel with
  | zero => intro i score h1 h2; omega
  | succ fuel ih =>
    intro i score h1 h2
    rw [score_loop]
    by_cases hi : i < g.length
    · rw [if_pos hi, distance_term_both cs g g i hi hi]
      dsimp only
      rw [sub_self, toInt_of_range 0 (by decide) (by decide)]
      rw [ih (i + 1) _ (by omega) (by omega)]
      simp
    · rw [if_neg hi]

/-- C8, amended: for a goal other than the string "Error" and a program whose
run returns the goal, the distance loop of `calculate_fitness` adds nothing and
the score is `goal.length * CHAR_SIZE - program.length * LENGTH_PENALTY`. -/
theorem fitness_of_exact_match (cs : Bool) (goal : List Nat) (program : List Char)
    (s s' : Interpreter) (hgoal : goal ≠ ERROR) (hrun : run s program = some (s', goal)) :
    score_loop cs goal goal (goal.length + 1) 0 0 = some 0 ∧
      calculate_fitness cs goal program s =
        some (s', ((goal.length * CHAR_SIZE : Nat) : ℚ) - (program.length : ℚ) * LENGTH_PENALTY) := by
  have hloop := score_loop_self cs goal (goal.length + 1) 0 0 (Nat.zero_le _) (by omega)
  refine ⟨hloop, ?_⟩
  unfold calculate_fitness
  dsimp only
  rw [hrun]
  dsimp only
  rw [if_neg hgoal, if_neg (lt_irrefl _), if_pos (le_refl _), hloop]
  dsimp only
  rw [zero_add]

/-- Goal "A" and `a_printer` as an instance of C8: the run returns "A" and the
score is 255 - 66 * 0.001. -/
theorem fitness_of_exact_match_witness :
    ([65] : List Nat) ≠ ERROR ∧ run fresh a_printer = some (a_printer_final, [65]) ∧
      (calculate_fitness true [65] a_printer fresh).map Prod.snd =
        some ((255 : ℚ) - 66 * (1 / 1000)) :=
  ⟨by decide, by decide!, by
    rw [(fitness_of_exact_match true [65] a_printer fresh a_printer_final (by decide)
      (by decide!)).2]
    decide!⟩

/-- C8, as stated, fails for the goal "Error": `error_printer` outputs the
goal, yet its score is `ERROR_SCORE`, not `5 * CHAR_SIZE - 125 * LENGTH_PENALTY`. -/
theorem fitness_of_error_printer :
    (run fresh error_printer).map Prod.snd = some ERROR ∧
      ∀ cs : Bool,
        (calculate_fitness cs ERROR error_printer fresh).map Prod.snd = some ERROR_SCORE ∧
          ERROR_SCORE ≠
            ((ERROR.length * CHAR_SIZE : Nat) : ℚ) - (error_printer.length : ℚ) * LENGTH_PENALTY := by
  decide!

theorem char_value_range (cs : Bool) (b : Nat) (hb : b < 256) :
    (cs = true → -128 ≤ char_value cs b ∧ char_value cs b ≤ 127) ∧
      (cs = false → char_value cs b = b) := by
  unfold char_value
  constructor
  · intro h
    subst h
    simp only [true_and]
    split_ifs <;> omega
  · intro h
    rw [if_neg (by rw [h]; simp)]

theorem char_value_difference (cs : Bool) (a b : Nat) (ha : a < 256) (hb : b < 256) :
    -255 ≤ char_value cs a - char_value cs b ∧ char_value cs a - char_value cs b ≤ 255 := by
  have h1 := char_value_range cs a ha
  have h2 := char_value_range cs b hb
  cases cs
  · have e1 := h1.2 rfl
    have e2 := h2.2 rfl
    omega
  · have e1 := h1.1 rfl
    have e2 := h2.1 rfl
    omega

theorem char_value_injective (cs : Bool) (a b : Nat) (ha : a < 256) (hb : b < 256)
    (h : char_value cs a = char_value cs b) : a = b := by
  cases cs
  · rw [(char_value_range false a ha).2 rfl, (char_value_range false b hb).2 rfl] at h
    omega
  · unfold char_value at h
    simp only [true_and] at h
    split_ifs at h <;> omega

/-- C9, amended: with goal "AB" and output "A" the missing second character
makes a summand of exactly `CHAR_SIZE` = 255, which is the whole distance of
that candidate, and the summand of a position at which both strings have a
character (a byte) is at most 255, so never larger. -/
theorem missing_character_penalty (cs : Bool) (min_str max_str : List Nat) (i : Nat)
    (hmin : ∀ x ∈ min_str, x < 256) (hmax : ∀ x ∈ max_str, x < 256)
    (h1 : i < min_str.length) (h2 : i < max_str.length) :
    distance_term cs [65] [65, 66] 1 = some CHAR_SIZE ∧
      score_loop cs [65] [65, 66] 3 0 0 = some 255 ∧
      ∃ d, distance_term cs min_str max_str i = some d ∧ d ≤ CHAR_SIZE := by
  refine ⟨by cases cs <;> decide!, by cases cs <;> decide!, _, distance_term_both cs _ _ i h1 h2, ?_⟩
  have hd := char_value_difference cs min_str[i] max_str[i]
    (hmin _ (List.getElem_mem h1)) (hmax _ (List.getElem_mem h2))
  rw [toInt_of_range _ (by omega) (by omega)]
  unfold CHAR_SIZE
  omega

/-- Goal "AB" and output "A" as an instance of C9, with position 0 as the
position at which both strings have a character. -/
theorem missing_character_penalty_witness :
    distance_term true [65] [65, 66] 1 = some CHAR_SIZE ∧
      score_loop true [65] [65, 66] 3 0 0 = some 255 ∧
      ∃ d, distance_term true [65] [65, 66] 0 = some d ∧ d ≤ CHAR_SIZE :=
  missing_character_penalty true [65] [65, 66] 0 (by decide) (by decide) (by decide) (by decide)

/-- C9, as stated, fails: the summand of the missing second character is 255,
not 66 + 255 = 321, and a position at which both strings have a character can
itself contribute 255 (bytes 128 and 127 when `char` is signed, bytes 0 and 255
when it is unsigned). -/
theorem missing_character_not_321 :
    (∀ cs : Bool, distance_term cs [65] [65, 66] 1 = some 255) ∧ (255 : Nat) ≠ 66 + CHAR_SIZE ∧
      distance_term true [128] [127] 0 = some 255 ∧
      distance_term false [0] [255] 0 = some 255 := by
  decide!

/-- Every summand of the distance loop exists. -/
theorem distance_term_total (cs : Bool) (min_str max_str : List Nat) (i : Nat)
    (h : i < max_str.length) : ∃ d, distance_term cs min_str max_str i = some d := by
  by_cases h1 : i < min_str.length
  · exact ⟨_, distance_term_both cs _ _ i h1 h⟩
  · exact ⟨_, distance_term_missing cs _ _ i h1 h⟩

/-- The distance loop halts within its fuel; the score only grows, and grows by
at least 1 when some summand from `i` on is at least 1. -/
theorem score_loop_lower (cs : Bool) (min_str max_str : List Nat) :
    ∀ (fuel i : Nat) (score : ℚ), i ≤ max_str.length → max_str.length < fuel + i →
      ∃ score', score_loop cs min_str max_str fuel i score = some score' ∧ score ≤ score' ∧
        ∀ j d, i ≤ j → j < max_str.length → distance_term cs min_str max_str j = some d →
          1 ≤ d → score + 1 ≤ score' := by
  intro fuel
  induction fuel with
  | zero => intro i score h1 h2; omega
  | succ fuel ih =>
    intro i score h1 h2
    rw [score_loop]
    by_cases hi : i < max_str.length
    · obtain ⟨d, hd⟩ := distance_term_total cs min_str max_str i hi
      rw [if_pos hi, hd]
      dsimp only
      obtain ⟨score', hrun, hle, hstep⟩ := ih (i + 1) (score + d) (by omega) (by omega)
      have hd0 : (0 : ℚ) ≤ (d : ℚ) := Nat.cast_nonneg d
      refine ⟨score', hrun, by linarith, ?_⟩
      intro j e hj1 hj2 he he1
      rcases Nat.eq_or_lt_of_le hj1 with heq | hlt
      · subst heq
        rw [hd] at he
        have : d = e := Option.some.inj he
        subst this
        have : (1 : ℚ) ≤ (d : ℚ) := by exact_mod_cast he1
        linarith
      · have := hstep j e hlt hj2 he he1
        linarith
    · rw [if_neg hi]
      exact ⟨score, rfl, le_refl _, fun j d hj1 hj2 => by omega⟩

/-- With goal "A", the distance of any other byte string is at least 1. -/
theorem distance_from_A (cs : Bool) (out : List Nat) (hb : ∀ x ∈ out, x < 256)
    (hne : out ≠ [65]) :
    ∃ score,
      score_loop cs (if out.length < ([65] : List Nat).length then out else [65])
        (if out.length ≥ ([65] : List Nat).length then out else [65])
        ((if out.length ≥ ([65] : List Nat).length then out else [65]).length + 1) 0 0 =
          some score ∧ 1 ≤ score := by
  match out, hb, hne with
  | [], _, _ =>
    exact ⟨255, by cases cs <;> decide!, by norm_num⟩
  | [c], hb, hne =>
    have hc : c < 256 := hb c (List.mem_singleton.2 rfl)
    have hc65 : c ≠ 65 := fun h => hne (by rw [h])
    obtain ⟨score', hrun, _, hstep⟩ := score_loop_lower cs [65] [c] 2 0 0 (Nat.zero_le _)
      (by simp)
    refine ⟨score', hrun, ?_⟩
    have hterm := distance_term_both cs [65] [c] 0 (by simp) (by simp)
    have := hstep 0 _ (le_refl _) (by simp) hterm (by
      have hd := char_value_difference cs 65 c (by decide) hc
      have hinj : char_value cs 65 ≠ char_value cs c := fun h =>
        hc65 (char_value_injective cs 65 c (by decide) hc h).symm
      simp only [List.getElem_cons_zero]
      rw [toInt_of_range _ (by omega) (by omega)]
      omega)
    linarith
  | c₁ :: c₂ :: cs', _, _ =>
    obtain ⟨score', hrun, _, hstep⟩ := score_loop_lower cs [65] (c₁ :: c₂ :: cs')
      ((c₁ :: c₂ :: cs').length + 1) 0 0 (Nat.zero_le _) (by omega)
    have hlen : (c₁ :: c₂ :: cs').length = cs'.length + 2 := rfl
    rw [if_neg (by rw [hlen]; simp), if_pos (by rw [hlen]; simp)]
    refine ⟨score', hrun, ?_⟩
    have hterm := distance_term_missing cs [65] (c₁ :: c₂ :: cs') 1 (by simp) (by simp)
    have := hstep 1 _ (Nat.zero_le _) (by simp) hterm (by decide)
    linarith

/-- The score of a program whose run returns a string other than `ERROR`. -/
theorem calculate_fitness_of_output (cs : Bool) (goal : List Nat) (q : List Char)
    (s s' : Interpreter) (out : List Nat) (score : ℚ) (hrun : run s q = some (s', out))
    (hE : out ≠ ERROR)
    (hloop : score_loop cs (if out.length < goal.length then out else goal)
        (if out.length ≥ goal.length then out else goal)
        ((if out.length ≥ goal.length then out else goal).length + 1) 0 0 = some score) :
    calculate_fitness cs goal q s =
      some (s', ((goal.length * CHAR_SIZE : Nat) : ℚ) - (score + (q.length : ℚ) * LENGTH_PENALTY)) := by
  unfold calculate_fitness
  dsimp only
  rw [hrun]
  dsimp only
  rw [if_neg hE, hloop]

/-- C10: with goal "A", the score of the exactly matching program `a_printer`
is `255 - 66 * LENGTH_PENALTY`, strictly below the maximum 255, and every
program (of any length, run from any state) has a score, which is strictly
smaller than that whenever its run returns anything other than "A", be it
another output or `ERROR`. -/
theorem exact_match_scores_highest (cs : Bool) (q : List Char) (s : Interpreter) :
    (calculate_fitness cs [65] a_printer fresh).map Prod.snd =
        some ((255 : ℚ) - 66 * LENGTH_PENALTY) ∧
      ((255 : ℚ) - 66 * LENGTH_PENALTY < 255) ∧
      ∃ s' out score, run s q = some (s', out) ∧
        calculate_fitness cs [65] q s = some (s', score) ∧
        (out ≠ [65] → score < (255 : ℚ) - 66 * LENGTH_PENALTY) := by
  refine ⟨by cases cs <;> decide!, by unfold LENGTH_PENALTY; norm_num, ?_⟩
  obtain ⟨s', out, hrun, hw, _, hres⟩ := run_cases s q
  by_cases hE : out = ERROR
  · refine ⟨s', out, ERROR_SCORE, hrun, ?_, ?_⟩
    · unfold calculate_fitness
      dsimp only
      rw [hrun]
      dsimp only
      rw [if_pos hE]
    · intro _
      unfold ERROR_SCORE LENGTH_PENALTY
      norm_num
  · have hout : out = s'.output := by
      rcases hres with ⟨h, _⟩ | ⟨h, _⟩
      · exact absurd h hE
      · exact h
    have hb : ∀ x ∈ out, x < 256 := by rw [hout]; exact hw.2.2.2
    by_cases hA : out = [65]
    · obtain ⟨score', hloop, _, _⟩ := score_loop_lower cs
        (if out.length < ([65] : List Nat).length then out else [65])
        (if out.length ≥ ([65] : List Nat).length then out else [65])
        ((if out.length ≥ ([65] : List Nat).length then out else [65]).length + 1) 0 0
        (Nat.zero_le _) (by omega)
      exact ⟨s', out, _, hrun, calculate_fitness_of_output cs [65] q s s' out score' hrun hE hloop,
        fun h => absurd hA h⟩
    · obtain ⟨score', hloop, hge⟩ := distance_from_A cs out hb hA
      refine ⟨s', out, _, hrun,
        calculate_fitness_of_output cs [65] q s s' out score' hrun hE hloop, ?_⟩
      intro _
      have hq : (0 : ℚ) ≤ (q.length : ℚ) := Nat.cast_nonneg _
      unfold LENGTH_PENALTY CHAR_SIZE
      norm_num
      linarith

/-! ## Loop jumps and nesting-matched brackets -/

theorem depth_drop_take (p : List Char) (a k : Nat) :
    depth ((p.drop a).take k) = depth (p.take (a + k)) - depth (p.take a) := by
  rw [List.take_add, depth_append]
  omega

theorem getElem?_some_lt {p : List Char} {i : Nat} {c : Char} (h : p[i]? = some c) :
    ∃ hi : i < p.length, p[i] = c := by
  rcases Nat.lt_or_ge i p.length with hlt | hge
  · rw [List.getElem?_eq_getElem hlt] at h
    exact ⟨hlt, Option.some.inj h⟩
  · rw [List.getElem?_eq_none hge] at h
    cases h

/-- Nesting-matched brackets in terms of the nesting depth: between the two
the depth never drops below the depth just after the `[`, and just before the
`]` it is back at that depth. -/
theorem nesting_matched_iff (p : List Char) (i j : Nat) :
    nesting_matched p i j ↔
      p[i]? = some '[' ∧ p[j]? = some ']' ∧ i < j ∧
        (∀ k, i + 1 ≤ k → k ≤ j → depth (p.take (i + 1)) ≤ depth (p.take k)) ∧
        depth (p.take j) = depth (p.take (i + 1)) := by
  unfold nesting_matched balanced
  constructor
  · rintro ⟨h1, h2, h3, h4⟩
    refine ⟨h1, h2, h3, ?_⟩
    obtain ⟨hj, _⟩ := getElem?_some_lt h2
    rw [balanced_from_iff] at h4
    have hl : ((p.drop (i + 1)).take (j - (i + 1))).length = j - (i + 1) := by
      rw [List.length_take, List.length_drop]; omega
    obtain ⟨ha, hb⟩ := h4
    constructor
    · intro k hk1 hk2
      have := ha (k - (i + 1)) (by rw [hl]; omega)
      rw [List.take_take, Nat.min_eq_left (by omega), depth_drop_take] at this
      have e : i + 1 + (k - (i + 1)) = k := by omega
      rw [e] at this
      simp only [Nat.cast_zero, zero_add] at this
      omega
    · rw [depth_drop_take] at hb
      have e : i + 1 + (j - (i + 1)) = j := by omega
      rw [e] at hb
      simp only [Nat.cast_zero, zero_add] at hb
      omega
  · rintro ⟨h1, h2, h3, ha, hb⟩
    refine ⟨h1, h2, h3, ?_⟩
    obtain ⟨hj, _⟩ := getElem?_some_lt h2
    rw [balanced_from_iff]
    have hl : ((p.drop (i + 1)).take (j - (i + 1))).length = j - (i + 1) := by
      rw [List.length_take, List.length_drop]; omega
    constructor
    · intro k hk
      rw [hl] at hk
      rw [List.take_take, Nat.min_eq_left hk, depth_drop_take]
      have := ha (i + 1 + k) (by omega) (by omega)
      simp only [Nat.cast_zero, zero_add]
      omega
    · rw [depth_drop_take]
      have e : i + 1 + (j - (i + 1)) = j := by omega
      rw [e]
      simp only [Nat.cast_zero, zero_add]
      omega

theorem scan_from_forward (i : Nat) (h : (i : Int) < 2147483647) :
    toInt (toUnsigned ((i : Int) + 1)) = ((i + 1 : Nat) : Int) := by
  rw [toInt_toUnsigned, toInt_of_range] <;> omega

theorem scan_from_backward (i : Nat) (h : (i : Int) < 2147483647) :
    toInt (toUnsigned ((i : Int) + -1)) = (i : Int) - 1 := by
  rw [toInt_toUnsigned, toInt_of_range] <;> omega

theorem jump_target (x : Int) (h0 : 0 ≤ x + 1) (h1 : x + 1 < 4294967296) :
    toUnsigned (((toUnsigned x : Nat) : Int) + 1) = (x + 1).toNat := by
  unfold toUnsigned; omega

/-- The forward scan from a `[` at `i` returns one past the nesting-matched
`]`, without touching the state. -/
theorem find_loop_match_forward (s : Interpreter) (hlen : (s.program.length : Int) < 2147483648)
    (i j : Nat) (hi : s.instruction_pntr = i) (hm : nesting_matched s.program i j) :
    find_loop_match s 1 = some (s, ((j + 1 : Nat) : Int)) := by
  obtain ⟨h1, h2, h3, ha, hb⟩ := (nesting_matched_iff _ _ _).1 hm
  obtain ⟨hj, hcj⟩ := getElem?_some_lt h2
  have hd := depth_take_succ s.program j hj
  have hv : bracket_value s.program[j] = -1 := by rw [hcj]; rfl
  unfold find_loop_match
  rw [hi, scan_from_forward i (by omega)]
  apply forward_scan_found s hlen _ 1 (i + 1) (j + 1) (by omega) (by omega) (by omega)
  · omega
  · intro k hk1 hk2
    have := ha k hk1 (by omega)
    omega

/-- The backward scan from a `]` at `j` returns one before the nesting-matched
`[`, without touching the state. -/
theorem find_loop_match_backward (s : Interpreter)
    (hlen : (s.program.length : Int) < 2147483648) (i j : Nat) (hj : s.instruction_pntr = j)
    (hm : nesting_matched s.program i j) :
    find_loop_match s (-1) = some (s, (i : Int) - 1) := by
  obtain ⟨h1, h2, h3, ha, hb⟩ := (nesting_matched_iff _ _ _).1 hm
  obtain ⟨hjl, _⟩ := getElem?_some_lt h2
  obtain ⟨hil, hci⟩ := getElem?_some_lt h1
  have hd := depth_take_succ s.program i hil
  have hv : bracket_value s.program[i] = 1 := by rw [hci]; rfl
  unfold find_loop_match
  rw [hj, scan_from_backward j (by omega)]
  apply backward_scan_found s hlen _ 1 j i (by omega) (by omega) (by omega)
  · omega
  · intro k hk1 hk2
    have := ha k (by omega) hk2
    omega

/-- Where the depth comes back down after a `[`, the `[` has a nesting-matched
partner. -/
theorem forward_match_exists (p : List Char) (i : Nat) (hi : p[i]? = some '[')
    (h : ∃ k, i + 1 ≤ k ∧ k ≤ p.length ∧
      1 + (depth (p.take k) - depth (p.take (i + 1))) ≤ 0) :
    ∃ j, nesting_matched p i j := by
  obtain ⟨k, ⟨hk1, hk2, hk3⟩, hmin⟩ := exists_least _ h
  have hk : i + 2 ≤ k := by
    rcases Nat.eq_or_lt_of_le hk1 with heq | hlt
    · rw [← heq] at hk3; omega
    · omega
  obtain ⟨j, rfl⟩ : ∃ j, k = j + 1 := ⟨k - 1, by omega⟩
  have hj : j < p.length := by omega
  have hd := depth_take_succ p j hj
  have hprev : 0 < 1 + (depth (p.take j) - depth (p.take (i + 1))) := by
    by_contra hneg
    exact hmin j (by omega) ⟨by omega, by omega, by omega⟩
  refine ⟨j, (nesting_matched_iff p i j).2 ⟨hi, ?_, by omega, ?_, ?_⟩⟩
  · rw [List.getElem?_eq_getElem hj]
    rcases bracket_value_cases p[j] with ⟨_, hv⟩ | ⟨hc, hv⟩ | ⟨_, _, hv⟩
    · omega
    · rw [hc]
    · omega
  · intro k' hk1' hk2'
    by_contra hneg
    exact hmin k' (by omega) ⟨hk1', by omega, by omega⟩
  · rcases bracket_value_cases p[j] with ⟨_, hv⟩ | ⟨_, hv⟩ | ⟨_, _, hv⟩ <;> omega

/-- Where the depth has been low enough before a `]`, the `]` has a
nesting-matched partner. -/
theorem backward_match_exists (p : List Char) (j : Nat) (hj : p[j]? = some ']')
    (h : ∃ k, k ≤ j ∧ 1 - (depth (p.take j) - depth (p.take k)) ≤ 0) :
    ∃ i, nesting_matched p i j := by
  obtain ⟨k, hk1, hk3, hmax⟩ := exists_greatest _ j h
  have hk : k < j := by
    rcases Nat.eq_or_lt_of_le hk1 with heq | hlt
    · rw [heq] at hk3; omega
    · exact hlt
  obtain ⟨hjl, _⟩ := getElem?_some_lt hj
  have hkl : k < p.length := by omega
  have hd := depth_take_succ p k hkl
  have hnext : 0 < 1 - (depth (p.take j) - depth (p.take (k + 1))) := by
    by_contra hneg
    exact hmax (k + 1) (by omega) (by omega) (by omega)
  refine ⟨k, (nesting_matched_iff p k j).2 ⟨?_, hj, hk, ?_, ?_⟩⟩
  · rw [List.getElem?_eq_getElem hkl]
    rcases bracket_value_cases p[k] with ⟨hc, hv⟩ | ⟨_, hv⟩ | ⟨_, _, hv⟩
    · rw [hc]
    · omega
    · omega
  · intro k' hk1' hk2'
    have : 0 < 1 - (depth (p.take j) - depth (p.take k')) := by
      by_contra hneg
      exact hmax k' (by omega) hk2' (by omega)
    rcases bracket_value_cases p[k] with ⟨_, hv⟩ | ⟨_, hv⟩ | ⟨_, _, hv⟩ <;> omega
  · rcases bracket_value_cases p[k] with ⟨_, hv⟩ | ⟨_, hv⟩ | ⟨_, _, hv⟩ <;> omega

/-- In a balanced program every `[` has a nesting-matched `]`. -/
theorem balanced_open_has_match (p : List Char) (hb : balanced p = true) (i : Nat)
    (hi : p[i]? = some '[') : ∃ j, nesting_matched p i j := by
  obtain ⟨hil, _⟩ := getElem?_some_lt hi
  exact forward_match_exists p i hi
    (((all_partners_iff_balanced p).2 hb i (Nat.zero_le _) hil).1 hi)

/-- In a balanced program every `]` has a nesting-matched `[`. -/
theorem balanced_close_has_match (p : List Char) (hb : balanced p = true) (j : Nat)
    (hj : p[j]? = some ']') : ∃ i, nesting_matched p i j := by
  obtain ⟨hjl, _⟩ := getElem?_some_lt hj
  exact backward_match_exists p j hj
    (((all_partners_iff_balanced p).2 hb j (Nat.zero_le _) hjl).2 hj)

/-- In a balanced program the forward scan from a `[` at `i` returns `j + 1`
only for the nesting-matched `]` at `j`. -/
theorem forward_result_matched (s : Interpreter) (hlen : (s.program.length : Int) < 2147483648)
    (hb : balanced s.program = true) (i j : Nat) (hip : s.instruction_pntr = i)
    (hi : s.program[i]? = some '[')
    (s' : Interpreter) (hr : find_loop_match s 1 = some (s', ((j + 1 : Nat) : Int))) :
    nesting_matched s.program i j := by
  obtain ⟨j', hm⟩ := balanced_open_has_match s.program hb i hi
  rw [find_loop_match_forward s hlen i j' hip hm] at hr
  injection hr with hr
  injection hr with _ hr
  have : j' = j := by omega
  rw [← this]; exact hm

/-- In a balanced program the backward scan from a `]` at `j` returns `i - 1`
only for the nesting-matched `[` at `i`. -/
theorem backward_result_matched (s : Interpreter)
    (hlen : (s.program.length : Int) < 2147483648) (hb : balanced s.program = true)
    (i j : Nat) (hjp : s.instruction_pntr = j) (hj : s.program[j]? = some ']')
    (s' : Interpreter) (hr : find_loop_match s (-1) = some (s', (i : Int) - 1)) :
    nesting_matched s.program i j := by
  obtain ⟨i', hm⟩ := balanced_close_has_match s.program hb j hj
  rw [find_loop_match_backward s hlen i' j hjp hm] at hr
  injection hr with hr
  injection hr with _ hr
  have : i' = i := by omega
  rw [← this]; exact hm

theorem dispatch_open (s : Interpreter) : s.dispatch '[' = s.begin_loop := by
  unfold dispatch
  rw [if_neg (by decide), if_neg (by decide), if_neg (by decide), if_neg (by decide),
    if_neg (by decide), if_neg (by decide), if_pos rfl]

theorem dispatch_close (s : Interpreter) : s.dispatch ']' = s.end_loop := by
  unfold dispatch
  rw [if_neg (by decide), if_neg (by decide), if_neg (by decide), if_neg (by decide),
    if_neg (by decide), if_neg (by decide), if_neg (by decide), if_pos rfl]

/-- Executing a `[` with the current cell zero continues one past the
nesting-matched `]`. -/
theorem step_open_zero (s : Interpreter) (hlen : (s.program.length : Int) < 2147483648)
    (j : Nat) (hm : nesting_matched s.program s.instruction_pntr j) (v : Nat)
    (hv : s.cell = some v) (hv0 : v = 0) :
    ∃ s', s.step = some s' ∧ s'.instruction_pntr = j + 1 := by
  obtain ⟨hjl, _⟩ := getElem?_some_lt hm.2.1
  unfold step
  rw [hm.1]
  dsimp only
  rw [dispatch_open, begin_loop, hv]
  dsimp only
  rw [if_pos hv0, find_loop_match_forward s hlen _ j rfl hm]
  dsimp only
  refine ⟨_, rfl, ?_⟩
  dsimp only
  rw [jump_target _ (by omega) (by omega)]
  omega

/-- Executing a `[` with the current cell nonzero continues with the next
instruction. -/
theorem step_open_nonzero (s : Interpreter) (hlen : (s.program.length : Int) < 2147483648)
    (hi : s.program[s.instruction_pntr]? = some '[') (v : Nat) (hv : s.cell = some v)
    (hv0 : v ≠ 0) :
    ∃ s', s.step = some s' ∧ s'.instruction_pntr = s.instruction_pntr + 1 := by
  obtain ⟨hil, _⟩ := getElem?_some_lt hi
  unfold step
  rw [hi]
  dsimp only
  rw [dispatch_open, begin_loop, hv]
  dsimp only
  rw [if_neg hv0]
  refine ⟨_, rfl, ?_⟩
  dsimp only
  exact toUnsigned_of_range (s.instruction_pntr + 1) (by omega)

/-- Executing a `]` with the current cell nonzero continues at the
nesting-matched `[`, also when that is at index 0. -/
theorem step_close_nonzero (s : Interpreter) (hlen : (s.program.length : Int) < 2147483648)
    (i : Nat) (hm : nesting_matched s.program i s.instruction_pntr) (v : Nat)
    (hv : s.cell = some v) (hv0 : v ≠ 0) :
    ∃ s', s.step = some s' ∧ s'.instruction_pntr = i := by
  obtain ⟨hjl, _⟩ := getElem?_some_lt hm.2.1
  have hij := hm.2.2.1
  unfold step
  rw [hm.2.1]
  dsimp only
  rw [dispatch_close, end_loop, hv]
  dsimp only
  rw [if_pos hv0, find_loop_match_backward s hlen i _ rfl hm]
  dsimp only
  refine ⟨_, rfl, ?_⟩
  dsimp only
  rw [jump_target _ (by omega) (by omega)]
  omega

/-- Executing a `]` with the current cell zero continues with the next
instruction. -/
theorem step_close_zero (s : Interpreter) (hlen : (s.program.length : Int) < 2147483648)
    (hj : s.program[s.instruction_pntr]? = some ']') (v : Nat) (hv : s.cell = some v)
    (hv0 : v = 0) :
    ∃ s', s.step = some s' ∧ s'.instruction_pntr = s.instruction_pntr + 1 := by
  obtain ⟨hjl, _⟩ := getElem?_some_lt hj
  unfold step
  rw [hj]
  dsimp only
  rw [dispatch_close, end_loop, hv]
  dsimp only
  rw [if_neg (not_not.2 hv0)]
  refine ⟨_, rfl, ?_⟩
  dsimp only
  exact toUnsigned_of_range (s.instruction_pntr + 1) (by omega)

/-- C20: loop jumps land on the nesting-matched bracket.  In a balanced program
shorter than 2^31 characters every `[` and every `]` has a nesting-matched
partner; the forward scan from the `[` at `i` returns `j + 1` exactly when the
`]` at `j` is its partner, and exactly then the backward scan from `j` returns
`i - 1`.  Executing the `[` at `i` continues at `j + 1` when the current cell is
zero and at `i + 1` otherwise; executing the `]` at `j` continues at `i` (also
for `i = 0`) when the current cell is nonzero and at `j + 1` otherwise. -/
theorem loop_jumps_land_on_match (s : Interpreter) (hlen : s.program.length < 2147483648)
    (hb : balanced s.program = true) (i j : Nat) (hi : s.program[i]? = some '[')
    (hj : s.program[j]? = some ']') (v : Nat) (hv : s.cell = some v) :
    (∃ j', nesting_matched s.program i j') ∧ (∃ i', nesting_matched s.program i' j) ∧
      (nesting_matched s.program i j ↔
        find_loop_match { s with instruction_pntr := i } 1 =
          some ({ s with instruction_pntr := i }, ((j + 1 : Nat) : Int))) ∧
      (nesting_matched s.program i j ↔
        find_loop_match { s with instruction_pntr := j } (-1) =
          some ({ s with instruction_pntr := j }, (i : Int) - 1)) ∧
      (nesting_matched s.program i j → s.instruction_pntr = i →
        ∃ s', s.step = some s' ∧ s'.instruction_pntr = if v = 0 then j + 1 else i + 1) ∧
      (nesting_matched s.program i j → s.instruction_pntr = j →
        ∃ s', s.step = some s' ∧ s'.instruction_pntr = if v = 0 then j + 1 else i) := by
  have hlen' : (s.program.length : Int) < 2147483648 := by omega
  refine ⟨balanced_open_has_match _ hb i hi, balanced_close_has_match _ hb j hj, ⟨?_, ?_⟩,
    ⟨?_, ?_⟩, ?_, ?_⟩
  · intro hm
    exact find_loop_match_forward { s with instruction_pntr := i } hlen' i j rfl hm
  · intro hr
    exact forward_result_matched { s with instruction_pntr := i } hlen' hb i j rfl hi _ hr
  · intro hm
    exact find_loop_match_backward { s with instruction_pntr := j } hlen' i j rfl hm
  · intro hr
    exact backward_result_matched { s with instruction_pntr := j } hlen' hb i j rfl hj _ hr
  · intro hm hip
    subst hip
    by_cases hv0 : v = 0
    · rw [if_pos hv0]
      exact step_open_zero s hlen' j hm v hv hv0
    · rw [if_neg hv0]
      exact step_open_nonzero s hlen' hi v hv hv0
  · intro hm hjp
    subst hjp
    by_cases hv0 : v = 0
    · rw [if_pos hv0]
      exact step_close_zero s hlen' hj v hv hv0
    · rw [if_neg hv0]
      exact step_close_nonzero s hlen' i hm v hv hv0

/-- The `]` of the program `[]` executed with the current cell holding 1, as an
instance of C20: the next instruction is the `[` at index 0. -/
theorem loop_jumps_land_on_match_witness :
    bracket_pair_state.program.length < 2147483648 ∧
      balanced bracket_pair_state.program = true ∧
      bracket_pair_state.cell = some 1 ∧ nesting_matched bracket_pair_state.program 0 1 ∧
      ∃ s', bracket_pair_state.step = some s' ∧ s'.instruction_pntr = 0 :=
  have hm : nesting_matched bracket_pair_state.program 0 1 := ⟨rfl, rfl, by decide, rfl⟩
  ⟨by decide, by decide, by decide!, hm,
    (loop_jumps_land_on_match bracket_pair_state (by decide) (by decide) 0 1 rfl rfl 1
      (by decide!)).2.2.2.2.2 hm rfl⟩

end Interpreter

/-! ## Random draws and the mutation operators -/

theorem toSize_of_range (n : Nat) (h : n < 18446744073709551616) : toSize (n : Int) = n := by
  unfold toSize; omega

/-- A draw of `get_random_int` between bounds in order lies between them and
uses one value of the generator. -/
theorem get_random_int_spec (r : Rand) (low high : Nat) (h1 : low ≤ high)
    (h2 : high < 4294967295) :
    ∃ v, get_random_int r low high = some (v, r.rest) ∧ low ≤ v ∧ v ≤ high := by
  have hrange : toUnsigned ((high : Int) - low + 1) = high - low + 1 := by
    unfold toUnsigned; omega
  have hmod : toUnsigned r.value % (high - low + 1) < high - low + 1 :=
    Nat.mod_lt _ (by omega)
  unfold get_random_int
  dsimp only
  rw [hrange, if_neg (by omega)]
  generalize toUnsigned r.value % (high - low + 1) = y at hmod
  have hv : toUnsigned ((y : Int) + low) = y + low := by
    unfold toUnsigned; omega
  rw [hv]
  exact ⟨_, rfl, by omega, by omega⟩

/-- A drawn instruction is one of `INSTRUCTIONS` and uses one value of the
generator. -/
theorem get_random_instruction_spec (r : Rand) :
    ∃ c, get_random_instruction r = some (c, r.rest) ∧ c ∈ INSTRUCTIONS := by
  obtain ⟨v, hv, _, hle⟩ := get_random_int_spec r 0 (NUM_INSTRUCTIONS - 1) (Nat.zero_le _)
    (by decide)
  have hlt : v < INSTRUCTIONS.length := by
    have : NUM_INSTRUCTIONS - 1 = 6 := rfl
    have : INSTRUCTIONS.length = 7 := rfl
    omega
  unfold get_random_instruction
  rw [hv]
  dsimp only
  rw [List.getElem?_eq_getElem hlt]
  exact ⟨_, rfl, List.getElem_mem hlt⟩

theorem length_insert (program : List Char) (index : Nat) (c : Char)
    (h : index ≤ program.length) :
    (program.take index ++ c :: program.drop index).length = program.length + 1 := by
  rw [List.length_append, List.length_cons, List.length_take, List.length_drop]
  omega

theorem length_erase (program : List Char) (index : Nat) (h : index < program.length) :
    (program.take index ++ program.drop (index + 1)).length = program.length - 1 := by
  rw [List.length_append, List.length_take, List.length_drop]
  omega

/-- The test of `remove_instruction` on a program of at least two characters. -/
theorem remove_test (program : List Char) (h2 : 2 ≤ program.length)
    (h64 : program.length < 18446744073709551616) :
    toSize ((program.length : Int) - 2) = program.length - 2 := by
  have h := toSize_of_range (program.length - 2) (by omega)
  rw [← h]
  congr 1
  omega

/-- C19, amended: on a program of at least two characters `remove_instruction`
deletes the instruction at a valid index exactly when `length - 2` is at least
`MIN_PROGRAM_SIZE`, that is when the resulting length is at least 11, and
otherwise leaves the program unchanged; `add_instruction` inserts the drawn
instruction exactly when `length + 1` is at most `MAX_PROGRAM_SIZE`, and
otherwise leaves the program unchanged. -/
theorem add_remove_instruction_bounds (r : Rand) (program : List Char) (i_rm i_add : Nat)
    (h2 : 2 ≤ program.length) (h64 : program.length < 18446744073709551616)
    (h_rm : i_rm < program.length) (h_add : i_add ≤ program.length) :
    (MIN_PROGRAM_SIZE ≤ program.length - 2 →
        remove_instruction program i_rm =
            some (program.take i_rm ++ program.drop (i_rm + 1)) ∧
          (program.take i_rm ++ program.drop (i_rm + 1)).length = program.length - 1) ∧
      (¬ MIN_PROGRAM_SIZE ≤ program.length - 2 →
        remove_instruction program i_rm = some program) ∧
      ∃ instr, get_random_instruction r = some (instr, r.rest) ∧
        (program.length + 1 ≤ MAX_PROGRAM_SIZE →
          add_instruction r program i_add =
              some (program.take i_add ++ instr :: program.drop i_add, r.rest) ∧
            (program.take i_add ++ instr :: program.drop i_add).length =
              program.length + 1) ∧
        (¬ program.length + 1 ≤ MAX_PROGRAM_SIZE →
          add_instruction r program i_add = some (program, r.rest)) := by
  have htest := remove_test program h2 h64
  refine ⟨?_, ?_, ?_⟩
  · intro h
    refine ⟨?_, length_erase program i_rm h_rm⟩
    unfold remove_instruction
    rw [htest, if_pos h, if_pos (Nat.le_of_lt h_rm)]
  · intro h
    unfold remove_instruction
    rw [htest, if_neg h]
  · obtain ⟨instr, hinstr, _⟩ := get_random_instruction_spec r
    refine ⟨instr, hinstr, ?_, ?_⟩
    · intro h
      refine ⟨?_, length_insert program i_add instr h_add⟩
      unfold add_instruction
      rw [hinstr]
      dsimp only
      rw [if_pos h, if_pos h_add]
    · intro h
      unfold add_instruction
      rw [hinstr]
      dsimp only
      rw [if_neg h]

/-- A program of 12 `+` as an instance of C19: the instruction at index 3 is
removed, and an instruction is inserted at index 3. -/
theorem add_remove_instruction_bounds_witness :
    remove_instruction (List.replicate 12 '+') 3 = some (List.replicate 11 '+') ∧
      ∃ instr, add_instruction (fun _ => 0) (List.replicate 12 '+') 3 =
        some (List.replicate 3 '+' ++ instr :: List.replicate 9 '+', Rand.rest (fun _ => 0)) :=
  have h := add_remove_instruction_bounds (fun _ => 0) (List.replicate 12 '+') 3 3
    (by decide) (by decide) (by decide) (by decide)
  ⟨(h.1 (by decide)).1,
    let ⟨instr, _, hadd, _⟩ := h.2.2
    ⟨instr, (hadd (by decide)).1⟩⟩

/-- C19, as stated, fails: on a program of 11 instructions `remove_instruction`
leaves the program unchanged, although the resulting length 10 would be at
least `MIN_PROGRAM_SIZE`. -/
theorem remove_instruction_keeps_eleven :
    remove_instruction (List.replicate 11 '+') 3 = some (List.replicate 11 '+') ∧
      MIN_PROGRAM_SIZE ≤ (List.replicate 11 '+').length - 1 := by
  decide!

/-! ## Crossover -/

theorem shorter_longer_parent (parent1 parent2 : List Char) :
    (parent1.length < parent2.length →
        shorter_parent parent1 parent2 = parent1 ∧ longer_parent parent1 parent2 = parent2) ∧
      (parent2.length ≤ parent1.length →
        shorter_parent parent1 parent2 = parent2 ∧ longer_parent parent1 parent2 = parent1) := by
  unfold shorter_parent longer_parent
  constructor
  · intro h
    rw [if_pos h, if_neg (by omega)]
    exact ⟨rfl, rfl⟩
  · intro h
    rw [if_neg (by omega), if_pos h]
    exact ⟨rfl, rfl⟩

theorem shorter_le_longer (parent1 parent2 : List Char) :
    (shorter_parent parent1 parent2).length ≤ (longer_parent parent1 parent2).length ∧
      (shorter_parent parent1 parent2).length + (longer_parent parent1 parent2).length =
        parent1.length + parent2.length := by
  rcases Nat.lt_or_ge parent1.length parent2.length with h | h
  · obtain ⟨h1, h2⟩ := (shorter_longer_parent parent1 parent2).1 h
    rw [h1, h2]; omega
  · obtain ⟨h1, h2⟩ := (shorter_longer_parent parent1 parent2).2 h
    rw [h1, h2]; omega

/-- The final values of `min_str` and `max_str` for a crossover point inside
the longer string. -/
theorem crossover_eq (min_str max_str : List Char) (k : Nat) (hk : k ≤ max_str.length) :
    crossover min_str max_str k =
      some (if k ≤ min_str.length then
          (min_str.take k ++ max_str.drop k, max_str.take k ++ min_str.drop k)
        else (min_str ++ max_str.drop k, max_str.take k)) := by
  unfold crossover
  rw [if_pos hk]
  dsimp only
  by_cases h : k ≤ min_str.length
  · rw [if_pos h, if_pos h]
  · rw [if_neg h, if_neg h]

/-- C15: the children that `mate` builds before mutation.  With `shorter` the
first parent when it is strictly shorter and the second otherwise, `longer` the
other one, and a crossover point `k` in `[1, n - 1]` for the length `n ≥ 2` of
`longer`: when `k` is at most the length of `shorter` the children are
`shorter[0:k] + longer[k:]` and `longer[0:k] + shorter[k:]`, and otherwise
`shorter + longer[k:]` and `longer[0:k]`. -/
theorem mate_children (parent1 parent2 : List Char) (k : Nat)
    (hn : 2 ≤ (longer_parent parent1 parent2).length) (_hk1 : 1 ≤ k)
    (hk2 : k ≤ (longer_parent parent1 parent2).length - 1) :
    ((parent1.length < parent2.length →
        shorter_parent parent1 parent2 = parent1 ∧ longer_parent parent1 parent2 = parent2) ∧
      (parent2.length ≤ parent1.length →
        shorter_parent parent1 parent2 = parent2 ∧ longer_parent parent1 parent2 = parent1)) ∧
      (k ≤ (shorter_parent parent1 parent2).length →
        mate_before_mutation parent1 parent2 k =
          some ((shorter_parent parent1 parent2).take k ++ (longer_parent parent1 parent2).drop k,
            (longer_parent parent1 parent2).take k ++
              (shorter_parent parent1 parent2).drop k)) ∧
      ((shorter_parent parent1 parent2).length < k →
        mate_before_mutation parent1 parent2 k =
          some (shorter_parent parent1 parent2 ++ (longer_parent parent1 parent2).drop k,
            (longer_parent parent1 parent2).take k)) := by
  refine ⟨shorter_longer_parent parent1 parent2, ?_, ?_⟩
  · intro h
    unfold mate_before_mutation
    rw [crossover_eq _ _ k (by omega), if_pos h]
  · intro h
    unfold mate_before_mutation
    rw [crossover_eq _ _ k (by omega), if_neg (by omega)]

/-- Parents "abc" and "defgh" with crossover point 2 as an instance of C15: the
children are "abfgh" and "dec". -/
theorem mate_children_witness :
    mate_before_mutation ['a', 'b', 'c'] ['d', 'e', 'f', 'g', 'h'] 2 =
      some (['a', 'b', 'f', 'g', 'h'], ['d', 'e', 'c']) :=
  (mate_children ['a', 'b', 'c'] ['d', 'e', 'f', 'g', 'h'] 2 (by decide) (by decide)
    (by decide)).2.1 (by decide)

/-- C14: crossover conserves instructions.  For two parents, the longer of
length `n ≥ 2`, and a crossover point `k` in `[1, n - 1]`, `mate` builds two
children before mutation, and their combined length is the combined length of
the parents. -/
theorem crossover_conserves_length (parent1 parent2 : List Char) (k : Nat)
    (hn : 2 ≤ (longer_parent parent1 parent2).length) (_hk1 : 1 ≤ k)
    (hk2 : k ≤ (longer_parent parent1 parent2).length - 1) :
    ∃ child0 child1, mate_before_mutation parent1 parent2 k = some (child0, child1) ∧
      child0.length + child1.length = parent1.length + parent2.length := by
  have hk : k ≤ (longer_parent parent1 parent2).length := by omega
  obtain ⟨hle, hsum⟩ := shorter_le_longer parent1 parent2
  unfold mate_before_mutation
  rw [crossover_eq _ _ k hk]
  by_cases h : k ≤ (shorter_parent parent1 parent2).length
  · rw [if_pos h]
    refine ⟨_, _, rfl, ?_⟩
    rw [List.length_append, List.length_append, List.length_take, List.length_take,
      List.length_drop, List.length_drop]
    omega
  · rw [if_neg h]
    refine ⟨_, _, rfl, ?_⟩
    rw [List.length_append, List.length_take, List.length_drop]
    omega

/-- Parents "abc" and "defgh" with crossover point 4 as an instance of C14. -/
theorem crossover_conserves_length_witness :
    ∃ child0 child1,
      mate_before_mutation ['a', 'b', 'c'] ['d', 'e', 'f', 'g', 'h'] 4 = some (child0, child1) ∧
        child0.length + child1.length = 3 + 5 :=
  crossover_conserves_length ['a', 'b', 'c'] ['d', 'e', 'f', 'g', 'h'] 4 (by decide)
    (by decide) (by decide)

/-! ## Mutation keeps the length bounds -/

/-- Whatever the drawn mutation type, the mutation of a program within the
length bounds at one of its indices yields a program within the bounds. -/
theorem mutation_within_bounds (mutation_type : Nat) (r : Rand) (child : List Char) (i : Nat)
    (hb : within_bounds child) (hi : i < child.length) :
    ∃ child' r',
      (if mutation_type = 1 then mutate_instruction r child (toUnsigned i)
        else if mutation_type = 2 then add_instruction r child (toUnsigned i)
        else if mutation_type = 3 then
          (remove_instruction child (toUnsigned i)).map (fun c => (c, r))
        else some (child, r)) = some (child', r') ∧ within_bounds child' := by
  obtain ⟨hmin, hmax⟩ := hb
  unfold MIN_PROGRAM_SIZE at hmin
  unfold MAX_PROGRAM_SIZE at hmax
  have hu : toUnsigned (i : Int) = i := toUnsigned_of_range i (by omega)
  obtain ⟨instr, hinstr, _⟩ := get_random_instruction_spec r
  rw [hu]
  by_cases h1 : mutation_type = 1
  · rw [if_pos h1]
    unfold mutate_instruction
    rw [hinstr]
    dsimp only
    rw [if_pos hi]
    refine ⟨_, _, rfl, ?_⟩
    unfold within_bounds MIN_PROGRAM_SIZE MAX_PROGRAM_SIZE
    rw [List.length_set]
    omega
  · rw [if_neg h1]
    by_cases h2 : mutation_type = 2
    · rw [if_pos h2]
      unfold add_instruction
      rw [hinstr]
      dsimp only
      by_cases hadd : child.length + 1 ≤ MAX_PROGRAM_SIZE
      · rw [if_pos hadd, if_pos (Nat.le_of_lt hi)]
        refine ⟨_, _, rfl, ?_⟩
        unfold within_bounds
        rw [length_insert child i instr (Nat.le_of_lt hi)]
        unfold MIN_PROGRAM_SIZE
        omega
      · rw [if_neg hadd]
        exact ⟨_, _, rfl, hmin, hmax⟩
    · rw [if_neg h2]
      by_cases h3 : mutation_type = 3
      · rw [if_pos h3]
        unfold remove_instruction
        rw [remove_test child (by omega) (by omega)]
        by_cases hrm : child.length - 2 ≥ MIN_PROGRAM_SIZE
        · rw [if_pos hrm, if_pos (Nat.le_of_lt hi)]
          refine ⟨_, _, rfl, ?_⟩
          unfold within_bounds
          rw [length_erase child i hi]
          unfold MIN_PROGRAM_SIZE MAX_PROGRAM_SIZE
          unfold MIN_PROGRAM_SIZE at hrm
          omega
        · rw [if_neg hrm]
          exact ⟨_, _, rfl, hmin, hmax⟩
      · rw [if_neg h3]
        exact ⟨_, _, rfl, hmin, hmax⟩

/-- The loop of `mutate` halts within its fuel and keeps a program within the
length bounds. -/
theorem mutate_loop_within_bounds (RAND_MAX : Nat) :
    ∀ (fuel i : Nat) (child : List Char) (r : Rand), within_bounds child → 1 ≤ fuel →
      MAX_PROGRAM_SIZE < fuel + i →
      ∃ child' r', mutate_loop RAND_MAX fuel i child r = some (child', r') ∧
        within_bounds child' := by
  intro fuel
  induction fuel with
  | zero => intro i child r _ h; omega
  | succ fuel ih =>
    intro i child r hb _ hf
    rw [mutate_loop]
    by_cases hi : i < child.length
    · have hfuel : 1 ≤ fuel := by
        have := hb.2
        omega
      rw [if_pos hi]
      dsimp only
      by_cases hrate : MUTATION_RATE ≥ (get_random RAND_MAX r 0 1).1
      · rw [if_pos hrate]
        obtain ⟨v, hv, _, _⟩ := get_random_int_spec (get_random RAND_MAX r 0 1).2 1
          NUM_MUTATIONS (by decide) (by decide)
        rw [hv]
        dsimp only
        obtain ⟨child', r', hm, hb'⟩ := mutation_within_bounds v
          (get_random RAND_MAX r 0 1).2.rest child i hb hi
        rw [hm]
        dsimp only
        exact ih (i + 1) child' r' hb' hfuel (by omega)
      · rw [if_neg hrate]
        exact ih (i + 1) child _ hb hfuel (by omega)
    · rw [if_neg hi]
      exact ⟨_, _, rfl, hb⟩

/-- `mutate` returns, and keeps a program within the length bounds. -/
theorem mutate_within_bounds (RAND_MAX : Nat) (r : Rand) (program : List Char)
    (hb : within_bounds program) :
    ∃ child r', mutate RAND_MAX r program = some (child, r') ∧ within_bounds child := by
  unfold mutate
  exact mutate_loop_within_bounds RAND_MAX _ 0 program r hb (by omega) (by omega)

/-- The children that `mate` builds before mutation from parents within the
length bounds are within the bounds. -/
theorem crossover_within_bounds (parent1 parent2 : List Char) (k : Nat)
    (h1 : within_bounds parent1) (h2 : within_bounds parent2) (hk1 : 1 ≤ k)
    (hk2 : k ≤ (longer_parent parent1 parent2).length - 1) :
    ∃ min_str max_str, mate_before_mutation parent1 parent2 k = some (min_str, max_str) ∧
      within_bounds min_str ∧ within_bounds max_str := by
  obtain ⟨hle, hsum⟩ := shorter_le_longer parent1 parent2
  have hs : within_bounds (shorter_parent parent1 parent2) := by
    unfold shorter_parent; split_ifs <;> assumption
  have hl : within_bounds (longer_parent parent1 parent2) := by
    unfold longer_parent; split_ifs <;> assumption
  unfold within_bounds MIN_PROGRAM_SIZE MAX_PROGRAM_SIZE at hs hl ⊢
  unfold mate_before_mutation
  rw [crossover_eq _ _ k (by omega)]
  by_cases h : k ≤ (shorter_parent parent1 parent2).length
  · rw [if_pos h]
    refine ⟨_, _, rfl, ?_, ?_⟩
    · rw [List.length_append, List.length_take, List.length_drop]; omega
    · rw [List.length_append, List.length_take, List.length_drop]; omega
  · rw [if_neg h]
    refine ⟨_, _, rfl, ?_, ?_⟩
    · rw [List.length_append, List.length_drop]; omega
    · rw [List.length_take]; omega

/-- `mate` returns two children, and they are within the length bounds when
the parents are. -/
theorem mate_within_bounds (RAND_MAX : Nat) (r : Rand) (parent1 parent2 : List Char)
    (h1 : within_bounds parent1) (h2 : within_bounds parent2) :
    ∃ child0 child1 r', mate RAND_MAX r parent1 parent2 = some ((child0, child1), r') ∧
      within_bounds child0 ∧ within_bounds child1 := by
  have hl : within_bounds (longer_parent parent1 parent2) := by
    unfold longer_parent; split_ifs <;> assumption
  have hl' := hl
  unfold within_bounds MIN_PROGRAM_SIZE MAX_PROGRAM_SIZE at hl'
  have hhigh : toUnsigned (((longer_parent parent1 parent2).length : Int) - 1) =
      (longer_parent parent1 parent2).length - 1 := by
    have h := toUnsigned_of_range ((longer_parent parent1 parent2).length - 1) (by omega)
    rw [← h]
    congr 1
    omega
  obtain ⟨k, hk, hk1, hk2⟩ := get_random_int_spec r 1
    ((longer_parent parent1 parent2).length - 1) (by omega) (by omega)
  obtain ⟨min_str, max_str, hc, hb0, hb1⟩ :=
    crossover_within_bounds parent1 parent2 k h1 h2 hk1 hk2
  obtain ⟨child0, r0, hm0, hw0⟩ := mutate_within_bounds RAND_MAX r.rest min_str hb0
  obtain ⟨child1, r1, hm1, hw1⟩ := mutate_within_bounds RAND_MAX r0 max_str hb1
  unfold mate
  rw [hhigh, hk]
  dsimp only
  rw [hc]
  dsimp only
  rw [hm0]
  dsimp only
  rw [hm1]
  exact ⟨child0, child1, r1, rfl, hw0, hw1⟩

/-- C16: mutation keeps the length bounds.  For every program whose length is
within `[MIN_PROGRAM_SIZE, MAX_PROGRAM_SIZE]` and every sequence of random
draws, `mutate` returns a program whose length is within the bounds; and for
parents within the bounds `mate` returns two children within the bounds. -/
theorem mutate_keeps_length_bounds (RAND_MAX : Nat) (r : Rand)
    (program parent1 parent2 : List Char) (hp : within_bounds program)
    (h1 : within_bounds parent1) (h2 : within_bounds parent2) :
    (MIN_PROGRAM_SIZE = 10 ∧ MAX_PROGRAM_SIZE = 500) ∧
      (∃ child r', mutate RAND_MAX r program = some (child, r') ∧
        MIN_PROGRAM_SIZE ≤ child.length ∧ child.length ≤ MAX_PROGRAM_SIZE) ∧
      ∃ child0 child1 r', mate RAND_MAX r parent1 parent2 = some ((child0, child1), r') ∧
        (MIN_PROGRAM_SIZE ≤ child0.length ∧ child0.length ≤ MAX_PROGRAM_SIZE) ∧
        (MIN_PROGRAM_SIZE ≤ child1.length ∧ child1.length ≤ MAX_PROGRAM_SIZE) :=
  ⟨⟨rfl, rfl⟩, mutate_within_bounds RAND_MAX r program hp,
    mate_within_bounds RAND_MAX r parent1 parent2 h1 h2⟩

/-- A program of ten `+`, as the program and as both parents, with a generator
that triggers a mutation at every index, as an instance of C16. -/
theorem mutate_keeps_length_bounds_witness :
    (∃ child r', mutate 32767 (fun n => n % 2) (List.replicate 10 '+') = some (child, r') ∧
        MIN_PROGRAM_SIZE ≤ child.length ∧ child.length ≤ MAX_PROGRAM_SIZE) ∧
      ∃ child0 child1 r',
        mate 32767 (fun n => n % 2) (List.replicate 10 '+') (List.replicate 10 '+') =
            some ((child0, child1), r') ∧
          (MIN_PROGRAM_SIZE ≤ child0.length ∧ child0.length ≤ MAX_PROGRAM_SIZE) ∧
          (MIN_PROGRAM_SIZE ≤ child1.length ∧ child1.length ≤ MAX_PROGRAM_SIZE) :=
  (mutate_keeps_length_bounds 32767 (fun n => n % 2) (List.replicate 10 '+')
    (List.replicate 10 '+') (List.replicate 10 '+') ⟨by decide, by decide⟩
    ⟨by decide, by decide⟩ ⟨by decide, by decide⟩).2

/-! ## Selection of a parent -/

theorem pop_score_total_loop_eq (scores : List Double) (hs : scores.length = POP_SIZE) :
    ∀ (fuel i : Nat) (total : Double), i ≤ POP_SIZE → POP_SIZE < fuel + i →
      pop_score_total_loop scores fuel i total =
        some ((scores.drop i).foldl Double.add total) := by
  intro fuel
  induction fuel with
  | zero => intro i total h1 h2; omega
  | succ fuel ih =>
    intro i total h1 h2
    rw [pop_score_total_loop]
    by_cases hi : i < POP_SIZE
    · have hil : i < scores.length := by omega
      rw [if_pos hi, List.getElem?_eq_getElem hil]
      dsimp only
      rw [ih (i + 1) _ (by omega) (by omega), List.drop_eq_getElem_cons hil, List.foldl_cons]
    · rw [if_neg hi, List.drop_of_length_le (by omega), List.foldl_nil]

/-- `pop_score_total` adds up the scores, in index order, from 0. -/
theorem pop_score_total_eq (scores : List Double) (hs : scores.length = POP_SIZE) :
    pop_score_total scores = some (scores.foldl Double.add (Double.ofRat 0)) := by
  unfold pop_score_total
  rw [pop_score_total_loop_eq scores hs _ 0 _ (Nat.zero_le _) (by omega), List.drop_zero]

theorem prev_chance_eq (i : Nat) (hi : i < POP_SIZE) (program_chances : List Double)
    (hc : program_chances.length = POP_SIZE) :
    (toInt i - 1 < 0 ∨ toUnsigned ((i : Int) - 1) < program_chances.length) ∧
      (if toInt i - 1 < 0 then Double.ofRat 0
        else program_chances.getD (toUnsigned ((i : Int) - 1)) (Double.ofRat 0)) =
        if i = 0 then Double.ofRat 0 else program_chances.getD (i - 1) (Double.ofRat 0) := by
  unfold POP_SIZE at hi hc
  rw [toInt_of_range i (by omega) (by omega)]
  by_cases h0 : i = 0
  · rw [if_pos h0, if_pos (by omega)]
    exact ⟨Or.inl (by omega), rfl⟩
  · rw [if_neg h0, if_neg (by omega)]
    have h := toUnsigned_of_range (i - 1) (by omega)
    have e : ((i - 1 : Nat) : Int) = (i : Int) - 1 := by omega
    rw [← e, h]
    exact ⟨Or.inr (by omega), rfl⟩

/-! ## Scoring the population -/

/-- Every program has a score, from any interpreter state, and the score is
`fitness`. -/
theorem calculate_fitness_total (cs : Bool) (goal : List Nat) (p : List Char)
    (bf : Interpreter) :
    ∃ bf', calculate_fitness cs goal p bf = some (bf', fitness cs goal p) := by
  have hsome : ∃ bf' score, calculate_fitness cs goal p bf = some (bf', score) := by
    obtain ⟨s', out, hrun, _⟩ := Interpreter.run_cases bf p
    unfold calculate_fitness
    dsimp only
    rw [hrun]
    dsimp only
    by_cases hE : out = ERROR
    · rw [if_pos hE]
      exact ⟨_, _, rfl⟩
    · rw [if_neg hE]
      obtain ⟨sc, hsc, _⟩ := Interpreter.score_loop_lower cs
        (if out.length < goal.length then out else goal)
        (if out.length ≥ goal.length then out else goal)
        ((if out.length ≥ goal.length then out else goal).length + 1) 0 0
        (Nat.zero_le _) (by omega)
      rw [hsc]
      exact ⟨_, _, rfl⟩
  obtain ⟨bf', score, h⟩ := hsome
  have hf : calculate_fitness cs goal p Interpreter.fresh = some (bf', score) := h
  refine ⟨bf', ?_⟩
  unfold fitness
  rw [hf]
  exact h

theorem cumulative_share_step (scores : List Double) (total : Double) (i : Nat)
    (hi : i < scores.length) :
    Double.add (Double.div scores[i] total)
        (if i = 0 then Double.ofRat 0 else cumulative_share scores total (i - 1)) =
      cumulative_share scores total i := by
  cases i with
  | zero =>
    rw [if_pos rfl, cumulative_share, List.getD_eq_getElem _ _ hi]
  | succ k =>
    rw [if_neg (Nat.succ_ne_zero k), cumulative_share, List.getD_eq_getElem _ _ hi]
    rfl

/-- The scan of `select_parent`: it returns the first selectable member, or
`programs[0]` when no member is selectable. -/
theorem select_parent_loop_spec (programs : List (List Char)) (scores : List Double)
    (other : List Char) (total rand_val : Double) (hp : programs.length = POP_SIZE)
    (hs : scores.length = POP_SIZE) :
    ∀ (fuel i : Nat) (chances : List Double), i ≤ POP_SIZE → POP_SIZE < fuel + i →
      chances.length = POP_SIZE →
      (∀ j, j < i → chances[j]? = some (cumulative_share scores total j)) →
      (∀ j, j < i → ¬ selectable programs scores other total rand_val j) →
      ∃ result, select_parent_loop programs scores other total rand_val fuel i chances =
          some result ∧
        ((∃ k, k < POP_SIZE ∧ selectable programs scores other total rand_val k ∧
            (∀ j, j < k → ¬ selectable programs scores other total rand_val j) ∧
            programs[k]? = some result) ∨
          ((∀ j, j < POP_SIZE → ¬ selectable programs scores other total rand_val j) ∧
            programs[0]? = some result)) := by
  intro fuel
  induction fuel with
  | zero => intro i chances h1 h2; omega
  | succ fuel ih =>
    intro i chances h1 h2 hc hcum hno
    rw [select_parent_loop]
    by_cases hi : i < POP_SIZE
    · have hil : i < programs.length := by omega
      have his : i < scores.length := by omega
      have hic : i < chances.length := by omega
      have hpc := prev_chance_eq i hi chances hc
      have hprev : (if i = 0 then Double.ofRat 0 else chances.getD (i - 1) (Double.ofRat 0)) =
          if i = 0 then Double.ofRat 0 else cumulative_share scores total (i - 1) := by
        by_cases h0 : i = 0
        · rw [if_pos h0, if_pos h0]
        · rw [if_neg h0, if_neg h0, List.getD_eq_getElem?_getD, hcum (i - 1) (by omega)]
          rfl
      rw [if_pos hi, List.getElem?_eq_getElem his, List.getElem?_eq_getElem hil]
      dsimp only
      rw [if_pos ⟨hic, hpc.1⟩, hpc.2, hprev, cumulative_share_step scores total i his]
      by_cases hsel : Double.ge (cumulative_share scores total i)
          (Double.sub rand_val (Double.ofRat (1 / 1000))) = true ∧ programs[i] ≠ other
      · rw [if_pos hsel]
        refine ⟨_, rfl, Or.inl ⟨i, hi, ⟨hsel.1, ?_⟩, hno, List.getElem?_eq_getElem hil⟩⟩
        rw [List.getElem?_eq_getElem hil]
        intro h
        injection h with h
        exact hsel.2 h
      · rw [if_neg hsel]
        refine ih (i + 1) _ (by omega) (by omega) (by rw [List.length_set]; exact hc) ?_ ?_
        · intro j hj
          by_cases hji : j = i
          · subst hji
            rw [List.getElem?_set_self hic]
          · rw [List.getElem?_set_ne (fun h => hji h.symm)]
            exact hcum j (by omega)
        · intro j hj
          by_cases hji : j = i
          · subst hji
            intro h
            apply hsel
            refine ⟨h.1, ?_⟩
            intro he
            apply h.2
            rw [List.getElem?_eq_getElem hil, he]
          · exact hno j (by omega)
    · rw [if_neg hi]
      have h0 : 0 < programs.length := by rw [hp]; decide
      have hiP : i = POP_SIZE := by omega
      subst hiP
      exact ⟨_, List.getElem?_eq_getElem h0, Or.inr ⟨hno, List.getElem?_eq_getElem h0⟩⟩

/-- C13: for every population and score array of `POP_SIZE` entries, every draw
and every excluded program, `select_parent` returns a member of the population.
It is the first `programs[k]` in index order that is selectable (cumulative
share at least `rand_val - 0.001`, content different from the excluded
program), and `programs[0]` when no member is selectable; so its content equals
the excluded program only in the fallback, with `programs[0]` equal to the
excluded program.  The scores are `double`s, special values included; the
total is their sum in index order as `pop_score_total` returns it, the
cumulative shares, the threshold and the comparison are computed in `double`,
and `rand_val` is the draw `get_random(0.0, 1.0)`. -/
theorem select_parent_first_selectable (RAND_MAX : Nat) (r : Rand)
    (programs : List (List Char)) (scores : List Double) (other : List Char)
    (hp : programs.length = POP_SIZE) (hs : scores.length = POP_SIZE) :
    pop_score_total scores = some (scores.foldl Double.add (Double.ofRat 0)) ∧
    ∃ result, select_parent RAND_MAX r programs scores other = some (result, r.rest) ∧
      result ∈ programs ∧
      ((∃ k, k < POP_SIZE ∧
          selectable programs scores other (scores.foldl Double.add (Double.ofRat 0))
            (get_random_double RAND_MAX r (Double.ofRat 0) (Double.ofRat 1)).1 k ∧
          (∀ j, j < k →
            ¬ selectable programs scores other (scores.foldl Double.add (Double.ofRat 0))
              (get_random_double RAND_MAX r (Double.ofRat 0) (Double.ofRat 1)).1 j) ∧
          programs[k]? = some result ∧ result ≠ other) ∨
        ((∀ j, j < POP_SIZE →
            ¬ selectable programs scores other (scores.foldl Double.add (Double.ofRat 0))
              (get_random_double RAND_MAX r (Double.ofRat 0) (Double.ofRat 1)).1 j) ∧
          programs[0]? = some result)) ∧
      (result = other →
        (∀ j, j < POP_SIZE →
          ¬ selectable programs scores other (scores.foldl Double.add (Double.ofRat 0))
            (get_random_double RAND_MAX r (Double.ofRat 0) (Double.ofRat 1)).1 j) ∧
        programs[0]? = some other) := by
  obtain ⟨result, hres, hcases⟩ := select_parent_loop_spec programs scores other
    (scores.foldl Double.add (Double.ofRat 0))
    (get_random_double RAND_MAX r (Double.ofRat 0) (Double.ofRat 1)).1 hp hs (POP_SIZE + 1) 0
    (List.replicate POP_SIZE (Double.ofRat 0))
    (Nat.zero_le _) (by omega) (List.length_replicate _ _)
    (fun j hj => absurd hj (Nat.not_lt_zero j)) (fun j hj => absurd hj (Nat.not_lt_zero j))
  refine ⟨pop_score_total_eq scores hs, result, ?_, ?_, ?_, ?_⟩
  · unfold select_parent
    rw [pop_score_total_eq scores hs]
    dsimp only
    rw [hres]
    rfl
  · rcases hcases with ⟨k, _, _, _, hk⟩ | ⟨_, hk⟩
    · exact List.getElem?_mem hk
    · exact List.getElem?_mem hk
  · rcases hcases with ⟨k, hk, hsel, hfirst, hget⟩ | h
    · refine Or.inl ⟨k, hk, hsel, hfirst, hget, ?_⟩
      intro he
      exact hsel.2 (by rw [hget, he])
    · exact Or.inr h
  · intro he
    rcases hcases with ⟨k, hk, hsel, hfirst, hget⟩ | ⟨hno, hget⟩
    · exact absurd (by rw [hget, he]) hsel.2
    · exact ⟨hno, by rw [hget, he]⟩

/-- The population `a` to `j` with `boundary_scores`, the draw 1.0 (`rand()`
returns `RAND_MAX`) and `a` excluded as an instance of C13, with the selection
evaluated on four inputs.  On `boundary_scores` the share up to index 8 is
0.9989999999999999, below the threshold, and `j` is selected.  On ten scores 0
every share is a NaN, no member is selectable, and the fallback returns `a`
although `a` is excluded.  On ten scores 1 and the draw 16384/32767 the share
0.5 at index 4 is the first to reach the threshold: `e` is selected, and `f`
when `e` is excluded. -/
theorem select_parent_first_selectable_witness :
    (∃ result, select_parent 32767 (fun _ => 32767) lettered_population boundary_scores
          ['a'] = some (result, Rand.rest (fun _ => 32767)) ∧
        result ∈ lettered_population ∧
        (result = ['a'] → lettered_population[0]? = some ['a'])) ∧
      (select_parent 32767 (fun _ => 32767) lettered_population boundary_scores
          ['a']).map Prod.fst = some ['j'] ∧
      (select_parent 32767 (fun _ => 32767) lettered_population
          (List.replicate 10 (Double.ofRat 0)) ['a']).map Prod.fst = some ['a'] ∧
      (select_parent 32767 (fun _ => 16384) lettered_population
          (List.replicate 10 (Double.ofRat 1)) []).map Prod.fst = some ['e'] ∧
      (select_parent 32767 (fun _ => 16384) lettered_population
          (List.replicate 10 (Double.ofRat 1)) ['e']).map Prod.fst = some ['f'] :=
  ⟨(select_parent_first_selectable 32767 (fun _ => 32767) lettered_population boundary_scores
      ['a'] rfl rfl).2.imp (fun _ h => ⟨h.1, h.2.1, fun he => (h.2.2.2 he).2⟩),
    by decide!, by decide!, by decide!, by decide!⟩

/-- The scoring loop halts within its fuel and keeps `scored`. -/
theorem score_population_loop_scored (cs : Bool) (goal : List Nat)
    (programs : List (List Char)) (wi : Int) (hp : programs.length = POP_SIZE) :
    ∀ (fuel i : Nat) (st : Scoring), i ≤ POP_SIZE → POP_SIZE < fuel + i →
      scored cs goal programs wi i st →
      ∃ st', score_population_loop cs goal programs fuel i st = some st' ∧
        scored cs goal programs wi POP_SIZE st' := by
  intro fuel
  induction fuel with
  | zero => intro i st h1 h2; omega
  | succ fuel ih =>
    intro i st h1 h2 hinv
    rw [score_population_loop]
    by_cases hi : i < POP_SIZE
    · have hil : i < programs.length := by omega
      obtain ⟨hlen, hworst, hscores, hle, hbest⟩ := hinv
      obtain ⟨bf', hcf⟩ := calculate_fitness_total cs goal programs[i] st.bf
      have hget : programs.getD i [] = programs[i] := List.getD_eq_getElem _ _ hil
      have hsplit : ∀ j, j < i + 1 → j < i ∨ j = i := fun j hj => by omega
      have hsc : ∀ j, j < i + 1 →
          (st.scores.set i (fitness cs goal programs[i]))[j]? =
            some (fitness cs goal (programs.getD j [])) := by
        intro j hj
        rcases hsplit j hj with h | h
        · rw [List.getElem?_set_ne (by omega)]
          exact hscores j h
        · subst h
          rw [List.getElem?_set_self (by omega), hget]
      rw [if_pos hi, List.getElem?_eq_getElem hil]
      dsimp only
      rw [hcf]
      dsimp only
      rw [if_pos (by omega)]
      refine ih (i + 1) _ (by omega) (by omega) ?_
      by_cases hb : fitness cs goal programs[i] > st.best_score
      · rw [if_pos hb]
        have h0 : 0 ≤ st.best_score := by
          rcases hbest with ⟨h, _⟩ | ⟨_, _, _, _, h, _⟩
          · rw [h]
          · exact le_of_lt h
        refine ⟨by dsimp only; rw [List.length_set]; exact hlen, hworst, hsc, ?_, Or.inr ?_⟩
        · intro j hj
          rcases hsplit j hj with h | h
          · exact le_trans (hle j h) (le_of_lt hb)
          · subst h
            rw [hget]
        · refine ⟨i, Nat.lt_succ_self i, hget, by rw [hget], lt_of_le_of_lt h0 hb, ?_⟩
          intro k hk
          exact lt_of_le_of_lt (hle k hk) hb
      · rw [if_neg hb]
        have hle' : ∀ j, j < i + 1 → fitness cs goal (programs.getD j []) ≤ st.best_score := by
          intro j hj
          rcases hsplit j hj with h | h
          · exact hle j h
          · subst h
            rw [hget]
            exact not_lt.1 hb
        have hbest' : (st.best_score = 0 ∧ st.best_program = []) ∨
            ∃ j, j < i + 1 ∧ programs.getD j [] = st.best_program ∧
              fitness cs goal (programs.getD j []) = st.best_score ∧ 0 < st.best_score ∧
              ∀ k, k < j → fitness cs goal (programs.getD k []) < st.best_score := by
          rcases hbest with h | ⟨j, hj, h⟩
          · exact Or.inl h
          · exact Or.inr ⟨j, Nat.lt_succ_of_lt hj, h⟩
        by_cases hw : fitness cs goal programs[i] < st.worst_score
        · rw [if_pos hw]
          refine ⟨by dsimp only; rw [List.length_set]; exact hlen, Or.inr ⟨?_, ?_⟩, hsc, hle',
            hbest'⟩
          · exact Int.ofNat_nonneg i
          · exact Int.ofNat_lt.2 hi
        · rw [if_neg hw]
          exact ⟨by dsimp only; rw [List.length_set]; exact hlen, hworst, hsc, hle', hbest'⟩
    · rw [if_neg hi]
      have hiP : i = POP_SIZE := by omega
      subst hiP
      exact ⟨st, rfl, hinv⟩

/-- `score_population` returns, with `scored` holding of all members. -/
theorem score_population_scored (cs : Bool) (goal : List Nat) (programs : List (List Char))
    (scores : List ℚ) (wi : Int) (bf : Interpreter) (hp : programs.length = POP_SIZE)
    (hs : scores.length = POP_SIZE) :
    ∃ st, score_population cs goal programs scores wi bf = some st ∧
      scored cs goal programs wi POP_SIZE st := by
  unfold score_population
  exact score_population_loop_scored cs goal programs wi hp (POP_SIZE + 1) 0 _
    (Nat.zero_le _) (by omega)
    ⟨hs, Or.inl rfl, fun j hj => absurd hj (Nat.not_lt_zero j),
      fun j hj => absurd hj (Nat.not_lt_zero j), Or.inl ⟨rfl, rfl⟩⟩

/-! ## Replacement and elitism -/

theorem replace_program_loop_length (parent child : List Char) :
    ∀ (fuel i : Nat) (programs : List (List Char)), programs.length = POP_SIZE →
      i ≤ POP_SIZE → POP_SIZE < fuel + i →
      ∃ programs', replace_program_loop parent child fuel i programs = some programs' ∧
        programs'.length = POP_SIZE := by
  intro fuel
  induction fuel with
  | zero => intro i programs hp h1 h2; omega
  | succ fuel ih =>
    intro i programs hp h1 h2
    rw [replace_program_loop]
    by_cases hi : i < POP_SIZE
    · rw [if_pos hi, List.getElem?_eq_getElem (by omega)]
      dsimp only
      by_cases he : parent = programs[i]
      · rw [if_pos he]
        exact ⟨_, rfl, by rw [List.length_set]; exact hp⟩
      · rw [if_neg he]
        exact ih (i + 1) programs hp (by omega) (by omega)
    · rw [if_neg hi]
      exact ⟨_, rfl, hp⟩

/-- `replace_program` returns a population of `POP_SIZE` slots. -/
theorem replace_program_length (parent child : List Char) (programs : List (List Char))
    (hp : programs.length = POP_SIZE) :
    ∃ programs', replace_program parent child programs = some programs' ∧
      programs'.length = POP_SIZE :=
  replace_program_loop_length parent child (POP_SIZE + 1) 0 programs hp (Nat.zero_le _)
    (by omega)

theorem program_exists_loop_spec (program : List Char) (programs : List (List Char))
    (hp : programs.length = POP_SIZE) :
    ∀ (fuel i : Nat), i ≤ POP_SIZE → POP_SIZE < fuel + i →
      (∀ j, j < i → programs[j]? ≠ some program) →
      ∃ b, program_exists_loop program programs fuel i = some b ∧
        (b = true ↔ program ∈ programs) := by
  intro fuel
  induction fuel with
  | zero => intro i h1 h2; omega
  | succ fuel ih =>
    intro i h1 h2 hno
    rw [program_exists_loop]
    by_cases hi : i < POP_SIZE
    · have hil : i < programs.length := by omega
      rw [if_pos hi, List.getElem?_eq_getElem hil]
      dsimp only
      by_cases he : program = programs[i]
      · rw [if_pos he]
        refine ⟨true, rfl, fun _ => ?_, fun _ => rfl⟩
        rw [he]
        exact List.getElem_mem hil
      · rw [if_neg he]
        refine ih (i + 1) (by omega) (by omega) ?_
        intro j hj
        by_cases hji : j = i
        · subst hji
          rw [List.getElem?_eq_getElem hil]
          intro h
          injection h with h
          exact he h.symm
        · exact hno j (by omega)
    · rw [if_neg hi]
      refine ⟨false, rfl, (fun h => (by cases h)), fun hm => ?_⟩
      obtain ⟨j, hj⟩ := List.getElem?_of_mem hm
      have hjl : j < programs.length := by
        by_contra hc
        rw [List.getElem?_eq_none (by omega)] at hj
        cases hj
      exact absurd hj (hno j (by omega))

/-- `program_exists` tells whether the program is a member. -/
theorem program_exists_spec (program : List Char) (programs : List (List Char))
    (hp : programs.length = POP_SIZE) :
    ∃ b, program_exists program programs = some b ∧ (b = true ↔ program ∈ programs) :=
  program_exists_loop_spec program programs hp (POP_SIZE + 1) 0 (Nat.zero_le _) (by omega)
    (fun j hj => absurd hj (Nat.not_lt_zero j))

/-- After the two replacements and the elitism overwrite the best program is
a member and the population has `POP_SIZE` slots. -/
theorem replace_and_keep_best_spec (programs : List (List Char)) (best : List Char)
    (wi : Int) (parent1 parent2 child0 child1 : List Char)
    (hp : programs.length = POP_SIZE) (hw0 : 0 ≤ wi) (hw1 : wi < POP_SIZE) :
    ∃ programs', replace_and_keep_best programs best wi parent1 parent2 child0 child1 =
        some programs' ∧ best ∈ programs' ∧ programs'.length = POP_SIZE := by
  obtain ⟨p1, h1, hl1⟩ := replace_program_length parent1 child0 programs hp
  obtain ⟨p2, h2, hl2⟩ := replace_program_length parent2 child1 p1 hl1
  obtain ⟨b, h3, hb⟩ := program_exists_spec best p2 hl2
  unfold replace_and_keep_best
  rw [h1]
  dsimp only
  rw [h2]
  dsimp only
  rw [h3]
  dsimp only
  cases b
  · have hlt : wi.toNat < p2.length := by
      rw [hl2]
      unfold POP_SIZE at hw1 ⊢
      omega
    rw [if_neg (by decide), if_pos ⟨hw0, hlt⟩]
    refine ⟨_, rfl, ?_, by rw [List.length_set]; exact hl2⟩
    exact List.getElem?_mem (List.getElem?_set_self hlt)
  · rw [if_pos rfl]
    exact ⟨_, rfl, hb.1 rfl, hl2⟩

/-- One generation step with any parents and children: the values of
`score_population`, and the population after the replacements and the elitism
overwrite, which holds the best program in `POP_SIZE` slots. -/
theorem generation_step_spec (cs : Bool) (goal : List Nat) (programs : List (List Char))
    (scores : List ℚ) (bf : Interpreter) (parent1 parent2 child0 child1 : List Char)
    (hp : programs.length = POP_SIZE) (hs : scores.length = POP_SIZE) :
    ∃ st programs', score_population cs goal programs scores 0 bf = some st ∧
      scored cs goal programs 0 POP_SIZE st ∧
      replace_and_keep_best programs st.best_program st.worst_index parent1 parent2
        child0 child1 = some programs' ∧
      st.best_program ∈ programs' ∧ programs'.length = POP_SIZE := by
  obtain ⟨st, hst, hinv⟩ := score_population_scored cs goal programs scores 0 bf hp hs
  have hw : 0 ≤ st.worst_index ∧ st.worst_index < POP_SIZE := by
    rcases hinv.2.1 with h | h
    · rw [h]
      exact ⟨le_refl _, by decide⟩
    · exact h
  obtain ⟨programs', hrep, hmem, hlen⟩ := replace_and_keep_best_spec programs st.best_program
    st.worst_index parent1 parent2 child0 child1 hp hw.1 hw.2
  exact ⟨st, programs', hst, hinv, hrep, hmem, hlen⟩

/-- C11: with goal "A" and a population of ten copies of `++++++++++`, every
score is -0.01, and `score_population` returns the empty program, which is not
a member of the population: `best_score` starts at 0 and only a score above it
records a member.  In general the returned program is the first member whose
score is the maximum of the population when that maximum is positive, and the
empty program when no score is positive. -/
theorem score_population_best_program (cs : Bool) (goal : List Nat)
    (programs : List (List Char)) (scores : List ℚ) (wi : Int) (bf : Interpreter) :
    (score_population true [65] silent_population (List.replicate 10 0) 0
        Interpreter.fresh).map (fun st => (st.best_program, st.best_score, st.scores)) =
        some ([], 0, List.replicate 10 (-1 / 100)) ∧
      ([] : List Char) ∉ silent_population ∧
      (programs.length = POP_SIZE → scores.length = POP_SIZE →
        ∃ st, score_population cs goal programs scores wi bf = some st ∧
          ((st.best_program = [] ∧
              ∀ j, j < POP_SIZE → fitness cs goal (programs.getD j []) ≤ 0) ∨
            ∃ j, j < POP_SIZE ∧ programs.getD j [] = st.best_program ∧
              0 < fitness cs goal (programs.getD j []) ∧
              (∀ k, k < POP_SIZE →
                fitness cs goal (programs.getD k []) ≤ fitness cs goal (programs.getD j [])) ∧
              ∀ k, k < j →
                fitness cs goal (programs.getD k []) < fitness cs goal (programs.getD j []))) := by
  refine ⟨by decide!, by decide, ?_⟩
  intro hp hs
  obtain ⟨st, hst, _, _, _, hle, hbest⟩ := score_population_scored cs goal programs scores wi
    bf hp hs
  refine ⟨st, hst, ?_⟩
  rcases hbest with ⟨h0, hnil⟩ | ⟨j, hj, hjp, hjs, hpos, hfirst⟩
  · refine Or.inl ⟨hnil, ?_⟩
    rw [← h0]
    exact hle
  · refine Or.inr ⟨j, hj, hjp, ?_, ?_, ?_⟩
    · rw [hjs]
      exact hpos
    · rw [hjs]
      exact hle
    · rw [hjs]
      exact hfirst

/-- C12: with goal "A" and the population of `<+++++++++` followed by nine
copies of `a_printer`, the scores are 1 and nine times 254.934, and
`score_population` leaves `worst_index` at 2 although the minimum score is at
index 0: a member that sets a new best score is not compared with
`worst_score`. -/
theorem score_population_worst_index_not_minimum :
    (score_population true [65] error_first_population (List.replicate 10 0) 0
        Interpreter.fresh).map (fun st => (st.worst_index, st.worst_score, st.scores)) =
        some (2, 127467 / 500, 1 :: List.replicate 9 (127467 / 500)) ∧
      (1 : ℚ) < 127467 / 500 := by
  decide!

/-- C17: elitism.  For every population and score array of `POP_SIZE` slots,
every choice of parents and every pair of children, one generation step
(`score_population`, the two calls of `replace_program`, the elitism check)
returns, and afterwards the best program recorded by `score_population` is a
member of the population, which still has `POP_SIZE` slots.  The same holds of
every result of `generation`, where the parents are selected and the children
are made by `mate`. -/
theorem elitism_keeps_best_program (cs : Bool) (goal : List Nat)
    (programs : List (List Char)) (scores : List ℚ) (bf : Interpreter)
    (parent1 parent2 child0 child1 : List Char)
    (hp : programs.length = POP_SIZE) (hs : scores.length = POP_SIZE) :
    (∃ st programs', score_population cs goal programs scores 0 bf = some st ∧
      replace_and_keep_best programs st.best_program st.worst_index parent1 parent2
        child0 child1 = some programs' ∧
      st.best_program ∈ programs' ∧ programs'.length = POP_SIZE) ∧
    ∀ (RAND_MAX : Nat) (r : Rand) programs' scores' bf' r' best,
      generation RAND_MAX cs goal r programs scores bf =
        some (programs', scores', bf', r', best) →
      best ∈ programs' ∧ programs'.length = POP_SIZE := by
  obtain ⟨st, programs', hst, hinv, hrep, hmem, hlen⟩ := generation_step_spec cs goal programs
    scores bf parent1 parent2 child0 child1 hp hs
  refine ⟨⟨st, programs', hst, hrep, hmem, hlen⟩, ?_⟩
  intro RAND_MAX r programs'' scores' bf' r' best h
  have hw : 0 ≤ st.worst_index ∧ st.worst_index < POP_SIZE := by
    rcases hinv.2.1 with h | h
    · rw [h]
      exact ⟨le_refl _, by decide⟩
    · exact h
  unfold generation at h
  rw [hst] at h
  dsimp only at h
  cases h1 : select_parent RAND_MAX r programs (st.scores.map Double.ofRat) [] with
  | none =>
    rw [h1] at h
    cases h
  | some x1 =>
    obtain ⟨p1, r1⟩ := x1
    rw [h1] at h
    dsimp only at h
    cases h2 : select_parent RAND_MAX r1 programs (st.scores.map Double.ofRat) p1 with
    | none =>
      rw [h2] at h
      cases h
    | some x2 =>
      obtain ⟨p2, r2⟩ := x2
      rw [h2] at h
      dsimp only at h
      cases h3 : mate RAND_MAX r2 p1 p2 with
      | none =>
        rw [h3] at h
        cases h
      | some x3 =>
        obtain ⟨⟨c0, c1⟩, r3⟩ := x3
        rw [h3] at h
        dsimp only at h
        obtain ⟨q, hq, hqm, hql⟩ := replace_and_keep_best_spec programs st.best_program
          st.worst_index p1 p2 c0 c1 hp hw.1 hw.2
        rw [hq] at h
        dsimp only at h
        injection h with h
        injection h with ha h
        injection h with _ h
        injection h with _ h
        injection h with _ hb
        subst ha
        subst hb
        exact ⟨hqm, hql⟩

/-- The population `error_first_population` with goal "A" as an instance of
C17. -/
theorem elitism_keeps_best_program_witness :
    ∃ st programs', score_population true [65] error_first_population (List.replicate 10 0) 0
        Interpreter.fresh = some st ∧
      replace_and_keep_best error_first_population st.best_program st.worst_index a_printer
        a_printer [] [] = some programs' ∧
      st.best_program ∈ programs' ∧ programs'.length = POP_SIZE :=
  (elitism_keeps_best_program true [65] error_first_population (List.replicate 10 0)
    Interpreter.fresh a_printer a_printer [] [] rfl rfl).1

/-- C18: elitism monotonicity.  For every population and score array of
`POP_SIZE` slots, every goal, every choice of parents and every pair of
children, the generation step returns, `score_population` returns on the
population it leaves, and the best score tracked there is greater than or equal
to the best score tracked before the step. -/
theorem best_score_never_decreases (cs : Bool) (goal : List Nat)
    (programs : List (List Char)) (scores : List ℚ) (bf : Interpreter)
    (parent1 parent2 child0 child1 : List Char)
    (hp : programs.length = POP_SIZE) (hs : scores.length = POP_SIZE) :
    ∃ st programs' st', score_population cs goal programs scores 0 bf = some st ∧
      replace_and_keep_best programs st.best_program st.worst_index parent1 parent2
        child0 child1 = some programs' ∧
      score_population cs goal programs' st.scores 0 st.bf = some st' ∧
      st.best_score ≤ st'.best_score := by
  obtain ⟨st, programs', hst, hinv, hrep, hmem, hlen⟩ := generation_step_spec cs goal programs
    scores bf parent1 parent2 child0 child1 hp hs
  obtain ⟨st', hst', _, _, _, hle', hbest'⟩ := score_population_scored cs goal programs'
    st.scores 0 st.bf hlen hinv.1
  refine ⟨st, programs', st', hst, hrep, hst', ?_⟩
  rcases hinv.2.2.2.2 with ⟨h0, _⟩ | ⟨j, _, hjp, hjs, _, _⟩
  · rw [h0]
    rcases hbest' with ⟨h, _⟩ | ⟨_, _, _, _, h, _⟩
    · rw [h]
    · exact le_of_lt h
  · obtain ⟨n, hn⟩ := List.getElem?_of_mem hmem
    have hnl : n < programs'.length := by
      by_contra hc
      rw [List.getElem?_eq_none (by omega)] at hn
      cases hn
    have hget : programs'.getD n [] = st.best_program := by
      rw [List.getD_eq_getElem?_getD, hn]
      rfl
    have := hle' n (by omega)
    rw [hget, ← hjp, hjs] at this
    exact this

/-- The population `error_first_population` with goal "A" as an instance of
C18. -/
theorem best_score_never_decreases_witness :
    ∃ st programs' st', score_population true [65] error_first_population
        (List.replicate 10 0) 0 Interpreter.fresh = some st ∧
      replace_and_keep_best error_first_population st.best_program st.worst_index a_printer
        a_printer [] [] = some programs' ∧
      score_population true [65] programs' st.scores 0 st.bf = some st' ∧
      st.best_score ≤ st'.best_score :=
  best_score_never_decreases true [65] error_first_population (List.replicate 10 0)
    Interpreter.fresh a_printer a_printer [] [] rfl rfl

namespace Interpreter

/-! ## Tape and program accesses stay in bounds -/

/-- The record of `run_loop_traced` comes with the result of `run_loop`. -/
theorem run_loop_traced_snd : ∀ (fuel : Nat) (s : Interpreter),
    (run_loop_traced fuel s).2 = run_loop fuel s := by
  intro fuel
  induction fuel with
  | zero => intro s; rfl
  | succ fuel ih =>
    intro s
    rw [run_loop_traced, run_loop]
    by_cases hi : s.instruction_pntr < s.program.length
    · rw [if_pos hi, if_pos hi]
      by_cases hstop : s.total_cycles > MAX_CYCLES ∨ s.has_error = true
      · rw [if_pos hstop, if_pos hstop]
      · rw [if_neg hstop, if_neg hstop]
        cases hstep : s.step with
        | none => rfl
        | some s' => exact ih s'
    · rw [if_neg hi, if_neg hi]

/-- The record of `run_traced` comes with the result of `run`. -/
theorem run_traced_snd (s : Interpreter) (p : List Char) : (run_traced s p).2 = run s p := by
  unfold run_traced run
  dsimp only
  cases hc : check_syntax { s.reset with program := p } with
  | none => rfl
  | some r =>
    obtain ⟨s1, ok⟩ := r
    dsimp only
    cases ok
    · rfl
    · rw [if_pos rfl, if_pos rfl]
      exact run_loop_traced_snd _ _

/-- Every state in which the `switch` is entered is well formed, with the
error flag clear, the instruction pointer inside the program and the cycle
counter within `MAX_CYCLES`. -/
theorem run_loop_traced_guard : ∀ (fuel : Nat) (s : Interpreter), s.well_formed →
    ∀ t ∈ (run_loop_traced fuel s).1, t.well_formed ∧ t.has_error = false ∧
      t.instruction_pntr < t.program.length ∧ t.total_cycles ≤ MAX_CYCLES ∧
      t.program = s.program := by
  intro fuel
  induction fuel with
  | zero =>
    intro s _ t ht
    cases ht
  | succ fuel ih =>
    intro s hw t ht
    rw [run_loop_traced] at ht
    by_cases hi : s.instruction_pntr < s.program.length
    · rw [if_pos hi] at ht
      by_cases hstop : s.total_cycles > MAX_CYCLES ∨ s.has_error = true
      · rw [if_pos hstop] at ht
        cases ht
      · rw [if_neg hstop] at ht
        have hc : s.total_cycles ≤ MAX_CYCLES := by omega
        have he : s.has_error = false := by
          cases h : s.has_error
          · rfl
          · exact absurd (Or.inr h) hstop
        obtain ⟨s1, h1, hw1, hp1, _⟩ := step_total s hw he hi hc
        rw [h1] at ht
        dsimp only at ht
        rcases List.mem_cons.1 ht with h | h
        · rw [h]
          exact ⟨hw, he, hi, hc, rfl⟩
        · rw [← hp1]
          exact ih s1 hw1 t h
    · rw [if_neg hi] at ht
      cases ht

/-- C21: tape and program accesses are always in bounds.  In every state in
which `run` enters its `switch`, whatever the instruction, the tape pointer
satisfies `0 ≤ tape_pntr < TAPE_SIZE` on a tape of `TAPE_SIZE` cells, so the
cell read and the cell write have a result, the instruction pointer is inside
the program, and the pass through the loop body has a result.  A character that
`find_loop_match` reads after its range test is inside the program, both scans
and `check_syntax` return from every state, and `run` returns: no index falls
outside.  In the run of `>+[-]<<` the `switch` is entered seven times, with the
tape pointer at 0 or 1; the last `<` moves it to -1 and no access follows. -/
theorem tape_accesses_in_bounds (s : Interpreter) (p : List Char) :
    (run_traced s p).2 = run s p ∧
      (∃ r, run s p = some r) ∧
      (∀ t ∈ (run_traced s p).1,
        (0 ≤ t.tape_pntr ∧ t.tape_pntr < TAPE_SIZE) ∧ t.tape.length = TAPE_SIZE ∧
          (∃ v, t.cell = some v ∧ ∀ w, ∃ t', t.set_cell w = some t') ∧
          (t.program = p ∧ t.instruction_pntr < t.program.length) ∧
          ∃ t', t.step = some t') ∧
      (∀ (t : Interpreter) (tmp : Int), ¬ (tmp < 0 ∨ tmp ≥ toInt t.program.length) →
        ∃ c, t.program[tmp.toNat]? = some c) ∧
      (∀ t : Interpreter, (∃ r, t.find_loop_match 1 = some r) ∧
        (∃ r, t.find_loop_match (-1) = some r) ∧ ∃ r, t.check_syntax = some r) ∧
      (run_traced fresh ['>', '+', '[', '-', ']', '<', '<']).1.map
          (fun t => (t.instruction_pntr, t.tape_pntr)) =
        [(0, 0), (1, 1), (2, 1), (3, 1), (4, 1), (5, 1), (6, 0)] ∧
      (run fresh ['>', '+', '[', '-', ']', '<', '<']).map (fun r => r.1.tape_pntr) =
        some (-1) := by
  refine ⟨run_traced_snd s p, ?_, ?_, ?_, ?_, by decide!, by decide!⟩
  · obtain ⟨s', out, h, _⟩ := run_cases s p
    exact ⟨_, h⟩
  · intro t ht
    obtain ⟨s1, ok, h1, hd, htrue, hfalse⟩ :=
      check_syntax_total ({ s.reset with program := p } : Interpreter)
    unfold run_traced at ht
    rw [h1] at ht
    dsimp only at ht
    cases ok
    · cases ht
    · rw [if_pos rfl, htrue rfl] at ht
      obtain ⟨hw, he, hi, hc, hp⟩ := run_loop_traced_guard (MAX_CYCLES + 2) _
        (well_formed_reset s p) t ht
      obtain ⟨v, hv, _⟩ := well_formed_cell hw he
      obtain ⟨t', ht', _⟩ := step_total t hw he hi hc
      exact ⟨hw.2.1 he, hw.1, ⟨v, hv, fun w => ⟨_, set_cell_eq hv w⟩⟩, ⟨hp, hi⟩, t', ht'⟩
  · intro t tmp h
    exact getElem?_of_lt_toInt t.program tmp (by omega) (by omega)
  · intro t
    obtain ⟨s1, r1, h1, _⟩ := find_loop_match_total t 1 (Or.inl rfl)
    obtain ⟨s2, r2, h2, _⟩ := find_loop_match_total t (-1) (Or.inr rfl)
    obtain ⟨s3, b, h3, _⟩ := check_syntax_total t
    exact ⟨⟨_, h1⟩, ⟨_, h2⟩, ⟨_, h3⟩⟩

end Interpreter

/-! ## The closed form of the fitness score -/

theorem char_value_ascii (cs : Bool) (b : Nat) (hb : b < 128) : char_value cs b = b := by
  unfold char_value
  rw [if_neg (fun h => absurd h.2 (by omega))]

/-- The summand at a position where both strings have a character below
128. -/
theorem distance_term_ascii (cs : Bool) (a b : List Nat) (ha : ∀ c ∈ a, c < 128)
    (hb : ∀ c ∈ b, c < 128) (i : Nat) (h1 : i < a.length) (h2 : i < b.length) :
    distance_term cs a b i = some (position_distance b a i) := by
  have hai : a[i] < 128 := ha _ (List.getElem_mem h1)
  have hbi : b[i] < 128 := hb _ (List.getElem_mem h2)
  rw [Interpreter.distance_term_both cs a b i h1 h2, char_value_ascii cs _ hai,
    char_value_ascii cs _ hbi, toInt_of_range _ (by omega) (by omega)]
  unfold position_distance
  rw [List.getD_eq_getElem _ _ h1, List.getD_eq_getElem _ _ h2]

theorem range_sum_succ (f : Nat → Nat) (n : Nat) :
    ((List.range (n + 1)).map f).sum = ((List.range n).map f).sum + f n := by
  rw [List.range_succ, List.map_append, List.sum_append]
  simp

/-- The distance loop adds up the summands. -/
theorem score_loop_sum (cs : Bool) (a b : List Nat) (f : Nat → Nat)
    (hf : ∀ j, j < b.length → distance_term cs a b j = some (f j)) :
    ∀ (fuel i : Nat) (score : ℚ), i ≤ b.length → b.length < fuel + i →
      score_loop cs a b fuel i score =
        some (score + ((((List.range b.length).map f).sum : Nat) : ℚ) -
          ((((List.range i).map f).sum : Nat) : ℚ)) := by
  intro fuel
  induction fuel with
  | zero => intro i score h1 h2; omega
  | succ fuel ih =>
    intro i score h1 h2
    rw [score_loop]
    by_cases hi : i < b.length
    · rw [if_pos hi, hf i hi]
      dsimp only
      rw [ih (i + 1) _ (by omega) (by omega), range_sum_succ]
      congr 1
      push_cast
      ring
    · rw [if_neg hi]
      have hib : i = b.length := by omega
      rw [hib]
      congr 1
      ring

/-- A sum whose summands are 255 from index `m` on. -/
theorem range_sum_split (f g : Nat → Nat) (m : Nat) (h1 : ∀ j, j < m → f j = g j) :
    ∀ n, m ≤ n → (∀ j, m ≤ j → j < n → f j = 255) →
      ((List.range n).map f).sum = ((List.range m).map g).sum + 255 * (n - m) := by
  intro n
  induction n with
  | zero =>
    intro hm _
    have hm0 : m = 0 := by omega
    subst hm0
    rfl
  | succ n ih =>
    intro hm h2
    by_cases hmn : m = n + 1
    · subst hmn
      rw [Nat.sub_self, Nat.mul_zero, Nat.add_zero]
      congr 1
      apply List.map_congr_left
      intro j hj
      exact h1 j (List.mem_range.1 hj)
    · have hle : m ≤ n := by omega
      rw [range_sum_succ, ih hle (fun j hj1 hj2 => h2 j hj1 (by omega)), h2 n hle (by omega)]
      omega

/-- The distance loop on a shorter string `a` and a longer string `b` of
characters below 128. -/
theorem score_loop_ascii (cs : Bool) (a b : List Nat) (ha : ∀ c ∈ a, c < 128)
    (hb : ∀ c ∈ b, c < 128) (hab : a.length ≤ b.length) :
    score_loop cs a b (b.length + 1) 0 0 =
      some (((((List.range a.length).map (position_distance b a)).sum +
        255 * (b.length - a.length) : Nat) : ℚ)) := by
  have hf : ∀ j, j < b.length → distance_term cs a b j =
      some (if j < a.length then position_distance b a j else 255) := by
    intro j hj
    by_cases h : j < a.length
    · rw [if_pos h]
      exact distance_term_ascii cs a b ha hb j h hj
    · rw [if_neg h]
      exact Interpreter.distance_term_missing cs a b j h hj
  rw [score_loop_sum cs a b _ hf (b.length + 1) 0 0 (Nat.zero_le _) (by omega),
    range_sum_split (fun j => if j < a.length then position_distance b a j else 255)
      (position_distance b a) a.length (fun j hj => if_pos hj) b.length hab
      (fun j hj _ => if_neg (by omega))]
  congr 1
  simp

theorem position_distance_comm (a b : List Nat) :
    position_distance a b = position_distance b a := by
  funext i
  unfold position_distance
  omega

/-- C23: closed form of the fitness score.  For every goal and every program
whose run returns an output `out` other than `ERROR`, all characters of `goal`
and `out` being below 128, `calculate_fitness` returns
`255·|goal| − Σ_{i < min} |out[i] − goal[i]| − 255·(max − min) − 0.001·|program|`
with `min` and `max` the smaller and the larger of `|out|` and `|goal|`; and
every position that only the longer string has, be it the output or the goal,
makes a summand of exactly `CHAR_SIZE` = 255. -/
theorem fitness_closed_form_eq (cs : Bool) (goal : List Nat) (program : List Char)
    (s s' : Interpreter) (out : List Nat)
    (hrun : Interpreter.run s program = some (s', out)) (hE : out ≠ ERROR)
    (hg : ∀ c ∈ goal, c < 128) (ho : ∀ c ∈ out, c < 128) :
    calculate_fitness cs goal program s =
        some (s', fitness_closed_form goal out program.length) ∧
      CHAR_SIZE = 255 ∧
      ∀ i, min out.length goal.length ≤ i → i < max out.length goal.length →
        distance_term cs (if out.length < goal.length then out else goal)
          (if out.length ≥ goal.length then out else goal) i = some CHAR_SIZE := by
  refine ⟨?_, rfl, ?_⟩
  · by_cases h : out.length < goal.length
    · have hloop : score_loop cs (if out.length < goal.length then out else goal)
          (if out.length ≥ goal.length then out else goal)
          ((if out.length ≥ goal.length then out else goal).length + 1) 0 0 =
          some (((((List.range out.length).map (position_distance goal out)).sum +
            255 * (goal.length - out.length) : Nat) : ℚ)) := by
        rw [if_pos h, if_neg (not_le.2 h)]
        exact score_loop_ascii cs out goal ho hg (le_of_lt h)
      rw [Interpreter.calculate_fitness_of_output cs goal program s s' out _ hrun hE hloop]
      unfold fitness_closed_form CHAR_SIZE LENGTH_PENALTY
      rw [Nat.min_eq_left (le_of_lt h), Nat.max_eq_right (le_of_lt h)]
      congr 2
      push_cast
      ring
    · have hle : goal.length ≤ out.length := not_lt.1 h
      have hloop : score_loop cs (if out.length < goal.length then out else goal)
          (if out.length ≥ goal.length then out else goal)
          ((if out.length ≥ goal.length then out else goal).length + 1) 0 0 =
          some (((((List.range goal.length).map (position_distance goal out)).sum +
            255 * (out.length - goal.length) : Nat) : ℚ)) := by
        rw [if_neg h, if_pos hle, position_distance_comm goal out]
        exact score_loop_ascii cs goal out hg ho hle
      rw [Interpreter.calculate_fitness_of_output cs goal program s s' out _ hrun hE hloop]
      unfold fitness_closed_form CHAR_SIZE LENGTH_PENALTY
      rw [Nat.min_eq_right hle, Nat.max_eq_left hle]
      congr 2
      push_cast
      ring
  · intro i h1 h2
    by_cases h : out.length < goal.length
    · rw [if_pos h, if_neg (not_le.2 h)]
      rw [Nat.min_eq_left (le_of_lt h)] at h1
      rw [Nat.max_eq_right (le_of_lt h)] at h2
      exact Interpreter.distance_term_missing cs out goal i (by omega) h2
    · have hle : goal.length ≤ out.length := not_lt.1 h
      rw [if_neg h, if_pos hle]
      rw [Nat.min_eq_right hle] at h1
      rw [Nat.max_eq_left hle] at h2
      exact Interpreter.distance_term_missing cs goal out i (by omega) h2

/-- Goal "AC" and the program `a_printer`, whose output "A" is a character
short, as an instance of C23: the score is `510 - 0 - 255 - 0.066`; with goal
"C" the score is `255 - 2 - 0 - 0.066`. -/
theorem fitness_closed_form_eq_witness :
    (calculate_fitness true [65, 67] a_printer Interpreter.fresh =
        some (a_printer_final, fitness_closed_form [65, 67] [65] 66) ∧
      fitness_closed_form [65, 67] [65] 66 = 510 - 0 - 255 - 66 / 1000) ∧
      fitness_closed_form [67] [65] 66 = 255 - 2 - 0 - 66 / 1000 :=
  ⟨⟨(fitness_closed_form_eq true [65, 67] a_printer Interpreter.fresh
      a_printer_final [65] (by decide!) (by decide) (by decide) (by decide)).1,
    by decide!⟩, by decide!⟩

/-! ## The length bounds across a generation -/

/-- `select_parent` returns a member of the population and consumes one
draw. -/
theorem select_parent_member (RAND_MAX : Nat) (r : Rand) (programs : List (List Char))
    (scores : List Double) (other : List Char) (hp : programs.length = POP_SIZE)
    (hs : scores.length = POP_SIZE) :
    ∃ result, select_parent RAND_MAX r programs scores other = some (result, r.rest) ∧
      result ∈ programs := by
  obtain ⟨result, hres, hcases⟩ := select_parent_loop_spec programs scores other
    (scores.foldl Double.add (Double.ofRat 0))
    (get_random_double RAND_MAX r (Double.ofRat 0) (Double.ofRat 1)).1 hp hs (POP_SIZE + 1) 0
    (List.replicate POP_SIZE (Double.ofRat 0))
    (Nat.zero_le _) (by omega) (List.length_replicate _ _)
    (fun j hj => absurd hj (Nat.not_lt_zero j)) (fun j hj => absurd hj (Nat.not_lt_zero j))
  refine ⟨result, ?_, ?_⟩
  · unfold select_parent
    rw [pop_score_total_eq scores hs]
    dsimp only
    rw [hres]
    rfl
  · rcases hcases with ⟨k, _, _, _, hk⟩ | ⟨_, hk⟩
    · exact List.getElem?_mem hk
    · exact List.getElem?_mem hk

theorem replace_program_loop_mem (parent child : List Char) :
    ∀ (fuel i : Nat) (programs : List (List Char)), programs.length = POP_SIZE →
      i ≤ POP_SIZE → POP_SIZE < fuel + i →
      ∃ programs', replace_program_loop parent child fuel i programs = some programs' ∧
        programs'.length = POP_SIZE ∧ ∀ p ∈ programs', p ∈ programs ∨ p = child := by
  intro fuel
  induction fuel with
  | zero => intro i programs hp h1 h2; omega
  | succ fuel ih =>
    intro i programs hp h1 h2
    rw [replace_program_loop]
    by_cases hi : i < POP_SIZE
    · rw [if_pos hi, List.getElem?_eq_getElem (by omega)]
      dsimp only
      by_cases he : parent = programs[i]
      · rw [if_pos he]
        exact ⟨_, rfl, by rw [List.length_set]; exact hp,
          fun p hm => List.mem_or_eq_of_mem_set hm⟩
      · rw [if_neg he]
        exact ih (i + 1) programs hp (by omega) (by omega)
    · rw [if_neg hi]
      exact ⟨_, rfl, hp, fun p hm => Or.inl hm⟩

/-- After the two replacements and the elitism overwrite every member is an
old member, one of the children or the best program. -/
theorem replace_and_keep_best_mem (programs : List (List Char)) (best : List Char)
    (wi : Int) (parent1 parent2 child0 child1 : List Char)
    (hp : programs.length = POP_SIZE) (hw0 : 0 ≤ wi) (hw1 : wi < POP_SIZE) :
    ∃ programs', replace_and_keep_best programs best wi parent1 parent2 child0 child1 =
        some programs' ∧ best ∈ programs' ∧ programs'.length = POP_SIZE ∧
      ∀ p ∈ programs', p ∈ programs ∨ p = child0 ∨ p = child1 ∨ p = best := by
  obtain ⟨p1, h1, hl1, hm1⟩ := replace_program_loop_mem parent1 child0 (POP_SIZE + 1) 0
    programs hp (Nat.zero_le _) (by omega)
  obtain ⟨p2, h2, hl2, hm2⟩ := replace_program_loop_mem parent2 child1 (POP_SIZE + 1) 0
    p1 hl1 (Nat.zero_le _) (by omega)
  obtain ⟨b, h3, hb⟩ := program_exists_spec best p2 hl2
  have hm : ∀ p ∈ p2, p ∈ programs ∨ p = child0 ∨ p = child1 ∨ p = best := by
    intro p hp2
    rcases hm2 p hp2 with h | h
    · rcases hm1 p h with h' | h'
      · exact Or.inl h'
      · exact Or.inr (Or.inl h')
    · exact Or.inr (Or.inr (Or.inl h))
  unfold replace_and_keep_best replace_program
  rw [h1]
  dsimp only
  rw [h2]
  dsimp only
  rw [h3]
  dsimp only
  cases b
  · have hlt : wi.toNat < p2.length := by
      rw [hl2]
      unfold POP_SIZE at hw1 ⊢
      omega
    rw [if_neg (by decide), if_pos ⟨hw0, hlt⟩]
    refine ⟨_, rfl, ?_, by rw [List.length_set]; exact hl2, ?_⟩
    · exact List.getElem?_mem (List.getElem?_set_self hlt)
    · intro p hps
      rcases List.mem_or_eq_of_mem_set hps with h | h
      · exact hm p h
      · exact Or.inr (Or.inr (Or.inr h))
  · rw [if_pos rfl]
    exact ⟨_, rfl, hb.1 rfl, hl2, hm⟩

/-- One pass through the generation loop on a population within the length
bounds returns; afterwards the best program recorded by `score_population` is a
member, and every other member is within the bounds. -/
theorem generation_total (RAND_MAX : Nat) (cs : Bool) (goal : List Nat) (r : Rand)
    (programs : List (List Char)) (scores : List ℚ) (bf : Interpreter)
    (hp : programs.length = POP_SIZE) (hs : scores.length = POP_SIZE)
    (hb : ∀ p ∈ programs, within_bounds p) :
    ∃ st programs' r', score_population cs goal programs scores 0 bf = some st ∧
      scored cs goal programs 0 POP_SIZE st ∧
      generation RAND_MAX cs goal r programs scores bf =
        some (programs', st.scores, st.bf, r', st.best_program) ∧
      st.best_program ∈ programs' ∧ programs'.length = POP_SIZE ∧
      ∀ p ∈ programs', within_bounds p ∨ p = st.best_program := by
  obtain ⟨st, hst, hinv⟩ := score_population_scored cs goal programs scores 0 bf hp hs
  have hw : 0 ≤ st.worst_index ∧ st.worst_index < POP_SIZE := by
    rcases hinv.2.1 with h | h
    · rw [h]
      exact ⟨le_refl _, by decide⟩
    · exact h
  have hsl : (st.scores.map Double.ofRat).length = POP_SIZE := by
    rw [List.length_map]
    exact hinv.1
  obtain ⟨parent1, hsel1, hm1⟩ := select_parent_member RAND_MAX r programs
    (st.scores.map Double.ofRat) [] hp hsl
  obtain ⟨parent2, hsel2, hm2⟩ := select_parent_member RAND_MAX r.rest programs
    (st.scores.map Double.ofRat) parent1 hp hsl
  obtain ⟨child0, child1, r', hmate, hc0, hc1⟩ := mate_within_bounds RAND_MAX r.rest.rest
    parent1 parent2 (hb _ hm1) (hb _ hm2)
  obtain ⟨programs', hrep, hbest, hlen, hmem⟩ := replace_and_keep_best_mem programs
    st.best_program st.worst_index parent1 parent2 child0 child1 hp hw.1 hw.2
  refine ⟨st, programs', r', hst, hinv, ?_, hbest, hlen, ?_⟩
  · unfold generation
    rw [hst]
    dsimp only
    rw [hsel1]
    dsimp only
    rw [hsel2]
    dsimp only
    rw [hmate]
    dsimp only
    rw [hrep]
  · intro p hpm
    rcases hmem p hpm with h | h | h | h
    · exact Or.inl (hb p h)
    · rw [h]
      exact Or.inl hc0
    · rw [h]
      exact Or.inl hc1
    · exact Or.inr h

/-- C22: the length bounds are not kept by every generation step.  With goal
"A" the ten members of `silent_population` have length 10 and score -0.01; one
pass through the generation loop (here with `rand()` always returning
`RAND_MAX` = 32767) leaves the empty program at index 0 of the population.  In
general the pass returns for every population within the bounds, goal and
sequence of draws; every member afterwards is within the bounds when some
member has a positive score, and the empty program, of length 0, is a member
when no member has a positive score: `score_population` then returns the empty
string and the elitism overwrite stores it. -/
theorem generation_length_bounds (RAND_MAX : Nat) (cs : Bool) (goal : List Nat) (r : Rand)
    (programs : List (List Char)) (scores : List ℚ) (bf : Interpreter) :
    (∀ p ∈ silent_population, MIN_PROGRAM_SIZE ≤ p.length ∧ p.length ≤ MAX_PROGRAM_SIZE) ∧
      (generation 32767 true [65] (fun _ => 32767) silent_population (List.replicate 10 0)
          Interpreter.fresh).map (fun out => out.1.map List.length) =
        some [0, 10, 10, 10, 10, 10, 10, 10, 10, 10] ∧
      (programs.length = POP_SIZE → scores.length = POP_SIZE →
        (∀ p ∈ programs, within_bounds p) →
        ∃ programs' scores' bf' r' best,
          generation RAND_MAX cs goal r programs scores bf =
            some (programs', scores', bf', r', best) ∧
          programs'.length = POP_SIZE ∧
          ((∃ j, j < POP_SIZE ∧ 0 < fitness cs goal (programs.getD j [])) →
            ∀ p ∈ programs', within_bounds p) ∧
          ((∀ j, j < POP_SIZE → fitness cs goal (programs.getD j []) ≤ 0) →
            [] ∈ programs' ∧ ¬ within_bounds [])) := by
  refine ⟨by decide, by decide!, ?_⟩
  intro hp hs hb
  obtain ⟨st, programs', r', _, hinv, hgen, hbest, hlen, hmem⟩ := generation_total RAND_MAX cs
    goal r programs scores bf hp hs hb
  obtain ⟨_, _, _, hle, hcase⟩ := hinv
  refine ⟨programs', st.scores, st.bf, r', st.best_program, hgen, hlen, ?_, ?_⟩
  · intro hpos p hpm
    rcases hmem p hpm with h | h
    · exact h
    · rcases hcase with ⟨h0, _⟩ | ⟨j, hj, hjp, _⟩
      · obtain ⟨j, hj, hjpos⟩ := hpos
        have := hle j hj
        rw [h0] at this
        exact absurd hjpos (not_lt.2 this)
      · rw [h, ← hjp, List.getD_eq_getElem _ _ (by omega)]
        exact hb _ (List.getElem_mem _)
  · intro hneg
    rcases hcase with ⟨_, hnil⟩ | ⟨j, hj, _, hjs, hpos, _⟩
    · rw [← hnil]
      refine ⟨hbest, ?_⟩
      rw [hnil]
      intro h
      exact absurd h.1 (by decide)
    · have := hneg j hj
      rw [hjs] at this
      exact absurd hpos (not_lt.2 this)

end BF
